import Mathlib

/-!
# A fixed-capacity binary min-heap (`handson5_min_heap.c`)

Shallow embedding of the C program and proofs of its specification.

Conventions of the embedding.

* The C type `int` is `Int`, and the plain operations (`min_heapify`, `insert`,
  `pop`, ...) compute on indices and sizes with the exact arithmetic of `Int`.
  They give the values of the C program as long as no `int` computation
  overflows, that is, for `LEFT(i)` and `RIGHT(i)`, as long as
  `0 <= i` and `2 * i + 2 <= INT_MAX`.  Signed overflow is undefined behaviour
  in C: where it occurs the `..._checked` operations below return
  `Fault.overflow`, and `wrap32` gives the value that two's complement hardware
  computes.  The subtraction of `compare_int` is modelled with `wrap32`.
* The element type is a parameter `α`: one value of `α` is one block of
  `elem_size` bytes.
* The buffer `heap->data` is a function from slot numbers to elements: slot `i`
  is the block at byte offset `i * elem_size`.  A freshly allocated buffer holds
  arbitrary contents, passed to `create_min_heap` as `mem`.
* A returned pointer is an `Option`: `none` is `NULL`.
* Recursion and loops are unrolled over a fuel counter; `none` means that the
  fuel ran out.  The operations supply the fuel themselves, and the theorems
  below show that it suffices for `insert`, for `pop`, for `build_min_heap`, and
  for `min_heapify` on every index at or above `0`.
* The operations named `..._checked` follow the same code with every access to
  the buffer, every call of the comparator and the shifts of `LEFT` and `RIGHT`
  checked: they return a `Fault` where the C program would leave its buffer or
  overflow an `int`.  The theorems on the operations that sift down carry the
  bound `2 * size + 2 <= INT_MAX` (or `2 * capacity + 2 <= INT_MAX`), under
  which the checked operation returns the result of the plain one; the
  theorems named `..._overflow` show what happens beyond it, from
  `2^30 + 1` elements on.
-/

namespace MinHeapC

/-- The C struct `MinHeap`. -/
structure MinHeap (α : Type) where
  data : Int → α
  elem_size : Nat
  capacity : Int
  size : Int
  compare : α → α → Int

/-- The macro `PARENT(i)`, `((i - 1) >> 1)`, with the arithmetic right shift.  The program
evaluates it for `i > 0` only. -/
def PARENT (i : Int) : Int := (i - 1) >>> (1 : Int)

/-- The macro `LEFT(i)`, `((i << 1) + 1)`, as an exact integer: the value of the C
expression when `0 <= i` and `2 * i + 1 <= INT_MAX`, beyond which the `int` overflows. -/
def LEFT (i : Int) : Int := (i <<< (1 : Int)) + 1

/-- The macro `RIGHT(i)`, `((i << 1) + 2)`, as an exact integer: the value of the C
expression when `0 <= i` and `2 * i + 2 <= INT_MAX`, beyond which the `int` overflows. -/
def RIGHT (i : Int) : Int := (i <<< (1 : Int)) + 2

/-- The function `swap`, on the slots `a` and `b` of a buffer: `temp = *a; *a = *b; *b = temp`. -/
def swap {α : Type} (data : Int → α) (a b : Int) : Int → α :=
  let temp := data a
  let data1 := Function.update data a (data b)
  Function.update data1 b temp

/-- The function `create_min_heap`.  Both calls of `malloc` are taken to succeed; `mem` is
the content of the new buffer. -/
def create_min_heap {α : Type} (mem : Int → α) (elem_size : Nat) (capacity : Int)
    (compare : α → α → Int) : Option (MinHeap α) :=
  some { data := mem, elem_size := elem_size, capacity := capacity, size := 0,
         compare := compare }

/-- The function `min_heapify`, its recursion unrolled over `fuel`.  The child indices are
exact integers; `min_heapify_checked` is the same function with the overflow of `int`
reported, and agrees with this one when `2 * idx + 2 <= INT_MAX` and
`2 * size + 2 <= INT_MAX`. -/
def min_heapify_fuel {α : Type} : Nat → MinHeap α → Int → Option (MinHeap α)
  | 0, _, _ => none
  | fuel + 1, heap, idx =>
    let smallest := idx
    let left := LEFT idx
    let right := RIGHT idx
    let smallest :=
      if left < heap.size ∧ heap.compare (heap.data left) (heap.data smallest) < 0 then left
      else smallest
    let smallest :=
      if right < heap.size ∧ heap.compare (heap.data right) (heap.data smallest) < 0 then right
      else smallest
    if smallest ≠ idx then
      min_heapify_fuel fuel { heap with data := swap heap.data idx smallest } smallest
    else some heap

/-- The function `min_heapify`.  A call on an index `idx ≥ 0` recurses on strictly larger
indices below `size`, so `size + 1` levels are enough. -/
def min_heapify {α : Type} (heap : MinHeap α) (idx : Int) : Option (MinHeap α) :=
  min_heapify_fuel (heap.size.toNat + 1) heap idx

/-- The loop of `build_min_heap`, from index `i` down to `0`; `fuel` bounds the number of
iterations. -/
def build_loop {α : Type} : Nat → MinHeap α → Int → Option (MinHeap α)
  | 0, _, _ => none
  | fuel + 1, heap, i =>
    if i ≥ 0 then
      match min_heapify heap i with
      | none => none
      | some heap1 => build_loop fuel heap1 (i - 1)
    else some heap

/-- The function `build_min_heap`.  The division of C truncates toward zero. -/
def build_min_heap {α : Type} (heap : MinHeap α) : Option (MinHeap α) :=
  build_loop (heap.size.toNat + 1) heap (Int.tdiv heap.size 2 - 1)

/-- The `while` loop of `insert` (the bubble-up), started at slot `i`. -/
def insert_loop {α : Type} : Nat → MinHeap α → Int → Option (MinHeap α)
  | 0, _, _ => none
  | fuel + 1, heap, i =>
    if i > 0 ∧ heap.compare (heap.data (PARENT i)) (heap.data i) > 0 then
      insert_loop fuel { heap with data := swap heap.data i (PARENT i) } (PARENT i)
    else some heap

/-- The function `insert`.  The Boolean of the result tells whether the call printed the
message that the heap is full; it is the only failure signal of the C function. -/
def insert {α : Type} (heap : MinHeap α) (element : α) : Option (MinHeap α × Bool) :=
  if heap.size ≥ heap.capacity then some (heap, true)
  else
    let heap1 := { heap with size := heap.size + 1 }
    let i := heap1.size - 1
    let heap2 := { heap1 with data := Function.update heap1.data i element }
    match insert_loop (i.toNat + 1) heap2 i with
    | none => none
    | some heap3 => some (heap3, false)

/-- The function `pop`.  The first component of the result is the returned pointer (`none`
is `NULL`, otherwise the copy of the root), the second is the heap after the call. -/
def pop {α : Type} (heap : MinHeap α) : Option (Option α × MinHeap α) :=
  if heap.size ≤ 0 then some (none, heap)
  else
    let root := heap.data 0
    let heap1 := { heap with data := Function.update heap.data 0 (heap.data (heap.size - 1)) }
    let heap2 := { heap1 with size := heap1.size - 1 }
    match min_heapify heap2 0 with
    | none => none
    | some heap3 => some (some root, heap3)

/-- Reduction of an integer to the range of a 32-bit `int` (two's complement wrap-around). -/
def wrap32 (x : Int) : Int := (x + 2 ^ 31) % 2 ^ 32 - 2 ^ 31

/-- The function `compare_int`; the subtraction wraps modulo `2 ^ 32`. -/
def compare_int (a b : Int) : Int := wrap32 (a - b)

/-- The loop `while ((min = pop(heap)) != NULL)` of `main`, collecting the popped values. -/
def pop_all_fuel {α : Type} : Nat → MinHeap α → Option (List α × MinHeap α)
  | 0, _ => none
  | fuel + 1, heap =>
    match pop heap with
    | none => none
    | some (none, heap1) => some ([], heap1)
    | some (some x, heap1) =>
      match pop_all_fuel fuel heap1 with
      | none => none
      | some (xs, heap2) => some (x :: xs, heap2)

/-- Popping until `pop` returns `NULL`; every successful `pop` lowers `size`, so `size + 1`
calls are enough. -/
def pop_all {α : Type} (heap : MinHeap α) : Option (List α × MinHeap α) :=
  pop_all_fuel (heap.size.toNat + 1) heap

/-- The loop `for (...) insert(heap, &values[i])` of `main`; the list of full-signals of the
calls is returned with the final heap. -/
def insert_all {α : Type} : MinHeap α → List α → Option (MinHeap α × List Bool)
  | heap, [] => some (heap, [])
  | heap, x :: xs =>
    match insert heap x with
    | none => none
    | some (heap1, full) =>
      match insert_all heap1 xs with
      | none => none
      | some (heap2, fulls) => some (heap2, full :: fulls)

/-- The scenario of `main`: create a heap, insert `xs` in order, pop until `NULL`. -/
def insert_then_pop_all {α : Type} (mem : Int → α) (elem_size : Nat) (capacity : Int)
    (compare : α → α → Int) (xs : List α) : Option (List α) :=
  match create_min_heap mem elem_size capacity compare with
  | none => none
  | some heap =>
    match insert_all heap xs with
    | none => none
    | some (heap1, _) =>
      match pop_all heap1 with
      | none => none
      | some (out, _) => some out

/-- One call of the public interface. -/
inductive Call (α : Type) where
  | insert (x : α) : Call α
  | pop : Call α

/-- What the caller observes of one call: `insert` stored the element or reported a full
heap, `pop` returned a copy of the root or `NULL`. -/
inductive Outcome (α : Type) where
  | inserted : Outcome α
  | full : Outcome α
  | popped (x : α) : Outcome α
  | null : Outcome α

/-- Performing one call on a heap. -/
def call {α : Type} (heap : MinHeap α) : Call α → Option (Outcome α × MinHeap α)
  | Call.insert x =>
    match insert heap x with
    | none => none
    | some (heap1, true) => some (Outcome.full, heap1)
    | some (heap1, false) => some (Outcome.inserted, heap1)
  | Call.pop =>
    match pop heap with
    | none => none
    | some (none, heap1) => some (Outcome.null, heap1)
    | some (some x, heap1) => some (Outcome.popped x, heap1)

/-- Performing a finite sequence of calls, collecting what the caller observes. -/
def run {α : Type} : MinHeap α → List (Call α) → Option (List (Outcome α) × MinHeap α)
  | heap, [] => some ([], heap)
  | heap, c :: cs =>
    match call heap c with
    | none => none
    | some (o, heap1) =>
      match run heap1 cs with
      | none => none
      | some (os, heap2) => some (o :: os, heap2)

/-- The comparator has the sign of a total preorder `le`: negative, zero or positive
according to whether the first argument is strictly before, equivalent to, or strictly
after the second. -/
def SignOfTotalPreorder {α : Type} (cmp : α → α → Int) : Prop :=
  ∃ le : α → α → Prop,
    (∀ a b, le a b ∨ le b a) ∧
    (∀ a b c, le a b → le b c → le a c) ∧
    ∀ a b, (cmp a b < 0 ↔ (le a b ∧ ¬ le b a)) ∧
           (cmp a b = 0 ↔ (le a b ∧ le b a)) ∧
           (0 < cmp a b ↔ (le b a ∧ ¬ le a b))

/-- The heap property: no occupied slot other than the root compares strictly below its
parent slot `(i - 1) / 2`. -/
def heap_property {α : Type} (heap : MinHeap α) : Prop :=
  ∀ i : Int, 0 < i → i < heap.size →
    heap.compare (heap.data ((i - 1) / 2)) (heap.data i) ≤ 0

/-- Slot `j` lies in the subtree rooted at slot `i`: it is reached from `i` by going to left
and right children. -/
inductive InSubtree (i : Int) : Int → Prop where
  | root : InSubtree i i
  | left {j : Int} : InSubtree i j → InSubtree i (LEFT j)
  | right {j : Int} : InSubtree i j → InSubtree i (RIGHT j)

/-- The heap property of the subtree rooted at `i`: every occupied slot of that subtree other
than `i` does not compare strictly below its parent slot. -/
def subtree_heap {α : Type} (heap : MinHeap α) (i : Int) : Prop :=
  ∀ j : Int, InSubtree i j → j ≠ i → j < heap.size →
    heap.compare (heap.data (PARENT j)) (heap.data j) ≤ 0

/-- The value `x` is stored in an occupied slot of the heap. -/
def occupied {α : Type} (heap : MinHeap α) (x : α) : Prop :=
  ∃ j : Int, 0 ≤ j ∧ j < heap.size ∧ heap.data j = x

/-- Two heaps agree on everything a caller can reach: `size`, `capacity`, the comparator and
the contents of the occupied slots `[0, size)`.  The unused slots may differ. -/
def agree {α : Type} (h g : MinHeap α) : Prop :=
  h.size = g.size ∧ h.capacity = g.capacity ∧ h.compare = g.compare ∧
    ∀ j : Int, 0 ≤ j → j < h.size → h.data j = g.data j

/-- The index that `min_heapify` holds in `smallest` after its two tests. -/
def smallest_of {α : Type} (heap : MinHeap α) (idx : Int) : Int :=
  let smallest := idx
  let left := LEFT idx
  let right := RIGHT idx
  let smallest :=
    if left < heap.size ∧ heap.compare (heap.data left) (heap.data smallest) < 0 then left
    else smallest
  let smallest :=
    if right < heap.size ∧ heap.compare (heap.data right) (heap.data smallest) < 0 then right
    else smallest
  smallest

/-- The indices on which `min_heapify` calls itself, in order, when started on `idx`; the
recursion is unrolled over `fuel` as in `min_heapify_fuel`. -/
def min_heapify_calls {α : Type} : Nat → MinHeap α → Int → Option (List Int)
  | 0, _, _ => none
  | fuel + 1, heap, idx =>
    if smallest_of heap idx ≠ idx then
      match min_heapify_calls fuel
          { heap with data := swap heap.data idx (smallest_of heap idx) }
          (smallest_of heap idx) with
      | none => none
      | some calls => some (smallest_of heap idx :: calls)
    else some []

/-- The multiset of the elements held by the occupied slots `[0, size)`. -/
def contents {α : Type} (heap : MinHeap α) : Multiset α :=
  (Finset.Ico 0 heap.size).val.map heap.data

/-- The indices `size/2 - 1, ..., 1, 0`, in decreasing order. -/
def build_indices (size : Int) : List Int :=
  (List.range (Int.tdiv size 2).toNat).reverse.map (fun n : Nat => (n : Int))

/-- Running `min_heapify` on the indices of a list, one after the other. -/
def min_heapify_each {α : Type} : MinHeap α → List Int → Option (MinHeap α)
  | heap, [] => some heap
  | heap, i :: rest =>
    match min_heapify heap i with
    | none => none
    | some heap1 => min_heapify_each heap1 rest

/-- The ways in which a call can leave the defined behaviour of C: an access outside the
buffer (or a slot outside `[0, size)` handed to the comparator), an `int` computation that
overflows, and, for the unrolled recursion, the end of the fuel. -/
inductive Fault where
  | out_of_bounds : Fault
  | overflow : Fault
  | out_of_fuel : Fault

/-- The largest value of a 32-bit `int`. -/
def INT_MAX : Int := 2147483647

/-- Reading slot `i` of the buffer, which has `capacity` slots. -/
def read_slot {α : Type} (heap : MinHeap α) (i : Int) : Except Fault α :=
  if 0 ≤ i ∧ i < heap.capacity then Except.ok (heap.data i)
  else Except.error Fault.out_of_bounds

/-- Writing slot `i` of the buffer. -/
def write_slot {α : Type} (heap : MinHeap α) (i : Int) (x : α) : Except Fault (MinHeap α) :=
  if 0 ≤ i ∧ i < heap.capacity then
    Except.ok { heap with data := Function.update heap.data i x }
  else Except.error Fault.out_of_bounds

/-- Calling the comparator on the slots `i` and `j`, which have to be occupied slots of the
buffer. -/
def compare_slots {α : Type} (heap : MinHeap α) (i j : Int) : Except Fault Int :=
  if (0 ≤ i ∧ i < heap.size ∧ i < heap.capacity) ∧
      (0 ≤ j ∧ j < heap.size ∧ j < heap.capacity) then
    Except.ok (heap.compare (heap.data i) (heap.data j))
  else Except.error Fault.out_of_bounds

/-- The function `swap` on the slots `a` and `b`, which have to be slots of the buffer. -/
def swap_slots {α : Type} (heap : MinHeap α) (a b : Int) : Except Fault (MinHeap α) :=
  if (0 ≤ a ∧ a < heap.capacity) ∧ (0 ≤ b ∧ b < heap.capacity) then
    Except.ok { heap with data := swap heap.data a b }
  else Except.error Fault.out_of_bounds

/-- The function `min_heapify` with every access checked.  The shifts of `LEFT` and `RIGHT`
are defined for `idx ≥ 0` with a result up to `INT_MAX`; the comparator is called only when
the test of the child index against `size` has passed, as `&&` does. -/
def min_heapify_checked {α : Type} : Nat → MinHeap α → Int → Except Fault (MinHeap α)
  | 0, _, _ => Except.error Fault.out_of_fuel
  | fuel + 1, heap, idx =>
    if idx < 0 ∨ INT_MAX < RIGHT idx then Except.error Fault.overflow
    else
      match (if LEFT idx < heap.size then compare_slots heap (LEFT idx) idx
             else Except.ok 0) with
      | Except.error e => Except.error e
      | Except.ok c1 =>
        let smallest := if LEFT idx < heap.size ∧ c1 < 0 then LEFT idx else idx
        match (if RIGHT idx < heap.size then compare_slots heap (RIGHT idx) smallest
               else Except.ok 0) with
        | Except.error e => Except.error e
        | Except.ok c2 =>
          let smallest := if RIGHT idx < heap.size ∧ c2 < 0 then RIGHT idx else smallest
          if smallest ≠ idx then
            match swap_slots heap idx smallest with
            | Except.error e => Except.error e
            | Except.ok heap1 => min_heapify_checked fuel heap1 smallest
          else Except.ok heap

/-- The loop of `build_min_heap` with every access checked. -/
def build_loop_checked {α : Type} : Nat → MinHeap α → Int → Except Fault (MinHeap α)
  | 0, _, _ => Except.error Fault.out_of_fuel
  | fuel + 1, heap, i =>
    if i ≥ 0 then
      match min_heapify_checked (heap.size.toNat + 1) heap i with
      | Except.error e => Except.error e
      | Except.ok heap1 => build_loop_checked fuel heap1 (i - 1)
    else Except.ok heap

/-- The function `build_min_heap` with every access checked. -/
def build_min_heap_checked {α : Type} (heap : MinHeap α) : Except Fault (MinHeap α) :=
  build_loop_checked (heap.size.toNat + 1) heap (Int.tdiv heap.size 2 - 1)

/-- The loop of `insert` with every access checked; the comparator is called only when
`i > 0` holds, as `&&` does. -/
def insert_loop_checked {α : Type} : Nat → MinHeap α → Int → Except Fault (MinHeap α)
  | 0, _, _ => Except.error Fault.out_of_fuel
  | fuel + 1, heap, i =>
    if i > 0 then
      match compare_slots heap (PARENT i) i with
      | Except.error e => Except.error e
      | Except.ok c =>
        if c > 0 then
          match swap_slots heap i (PARENT i) with
          | Except.error e => Except.error e
          | Except.ok heap1 => insert_loop_checked fuel heap1 (PARENT i)
        else Except.ok heap
    else Except.ok heap

/-- The function `insert` with every access checked. -/
def insert_checked {α : Type} (heap : MinHeap α) (element : α) :
    Except Fault (MinHeap α × Bool) :=
  if heap.size ≥ heap.capacity then Except.ok (heap, true)
  else
    let heap1 := { heap with size := heap.size + 1 }
    let i := heap1.size - 1
    match write_slot heap1 i element with
    | Except.error e => Except.error e
    | Except.ok heap2 =>
      match insert_loop_checked (i.toNat + 1) heap2 i with
      | Except.error e => Except.error e
      | Except.ok heap3 => Except.ok (heap3, false)

/-- The function `pop` with every access checked. -/
def pop_checked {α : Type} (heap : MinHeap α) : Except Fault (Option α × MinHeap α) :=
  if heap.size ≤ 0 then Except.ok (none, heap)
  else
    match read_slot heap 0 with
    | Except.error e => Except.error e
    | Except.ok root =>
      match read_slot heap (heap.size - 1) with
      | Except.error e => Except.error e
      | Except.ok last =>
        match write_slot heap 0 last with
        | Except.error e => Except.error e
        | Except.ok heap1 =>
          let heap2 := { heap1 with size := heap1.size - 1 }
          match min_heapify_checked (heap2.size.toNat + 1) heap2 0 with
          | Except.error e => Except.error e
          | Except.ok heap3 => Except.ok (some root, heap3)

/-- One call of the public interface with every access checked. -/
def call_checked {α : Type} (heap : MinHeap α) :
    Call α → Except Fault (Outcome α × MinHeap α)
  | Call.insert x =>
    match insert_checked heap x with
    | Except.error e => Except.error e
    | Except.ok (heap1, true) => Except.ok (Outcome.full, heap1)
    | Except.ok (heap1, false) => Except.ok (Outcome.inserted, heap1)
  | Call.pop =>
    match pop_checked heap with
    | Except.error e => Except.error e
    | Except.ok (none, heap1) => Except.ok (Outcome.null, heap1)
    | Except.ok (some x, heap1) => Except.ok (Outcome.popped x, heap1)

/-- A finite sequence of calls with every access checked; the first fault ends the run. -/
def run_checked {α : Type} :
    MinHeap α → List (Call α) → Except Fault (List (Outcome α) × MinHeap α)
  | heap, [] => Except.ok ([], heap)
  | heap, c :: cs =>
    match call_checked heap c with
    | Except.error e => Except.error e
    | Except.ok (o, heap1) =>
      match run_checked heap1 cs with
      | Except.error e => Except.error e
      | Except.ok (os, heap2) => Except.ok (o :: os, heap2)

/-- The loop of `main` that inserts a list, with every access checked. -/
def insert_all_checked {α : Type} :
    MinHeap α → List α → Except Fault (MinHeap α × List Bool)
  | heap, [] => Except.ok (heap, [])
  | heap, x :: xs =>
    match insert_checked heap x with
    | Except.error e => Except.error e
    | Except.ok (heap1, full) =>
      match insert_all_checked heap1 xs with
      | Except.error e => Except.error e
      | Except.ok (heap2, fulls) => Except.ok (heap2, full :: fulls)

/-- The loop of `main` that pops until `NULL`, with every access checked. -/
def pop_all_fuel_checked {α : Type} : Nat → MinHeap α → Except Fault (List α × MinHeap α)
  | 0, _ => Except.error Fault.out_of_fuel
  | fuel + 1, heap =>
    match pop_checked heap with
    | Except.error e => Except.error e
    | Except.ok (none, heap1) => Except.ok ([], heap1)
    | Except.ok (some x, heap1) =>
      match pop_all_fuel_checked fuel heap1 with
      | Except.error e => Except.error e
      | Except.ok (xs, heap2) => Except.ok (x :: xs, heap2)

/-- The scenario of `main` with every access checked. -/
def insert_then_pop_all_checked {α : Type} (mem : Int → α) (elem_size : Nat) (capacity : Int)
    (compare : α → α → Int) (xs : List α) : Except Fault (List α) :=
  match create_min_heap mem elem_size capacity compare with
  | none => Except.error Fault.out_of_bounds
  | some heap =>
    match insert_all_checked heap xs with
    | Except.error e => Except.error e
    | Except.ok (heap1, _) =>
      match pop_all_fuel_checked (heap1.size.toNat + 1) heap1 with
      | Except.error e => Except.error e
      | Except.ok (out, _) => Except.ok out

/-- The heap obtained from `heap` by the swaps of a sift-down that starts at `idx` and calls
itself on the indices `calls`. -/
def swap_path {α : Type} : MinHeap α → Int → List Int → MinHeap α
  | heap, _, [] => heap
  | heap, idx, m :: rest => swap_path { heap with data := swap heap.data idx m } m rest

/-- The list `start, start + 1, ..., start + n - 1`. -/
def ascending_list (start : Int) : Nat → List Int
  | 0 => []
  | n + 1 => start :: ascending_list (start + 1) n

/-- The exact difference of two integers, a comparator for integer ascending order. -/
def int_diff (a b : Int) : Int := a - b

/-- The heap of exact capacity whose slot `j` holds the integer `j`, ordered by `int_diff`;
it has the heap property. -/
def ascending_heap (n : Int) : MinHeap Int :=
  { data := fun j => j, elem_size := 4, capacity := n, size := n,
    compare := int_diff }

/-- The heap of exact capacity whose slot `j` holds the integer `-j`, ordered by `int_diff`. -/
def descending_heap (n : Int) : MinHeap Int :=
  { data := fun j => -j, elem_size := 4, capacity := n, size := n,
    compare := int_diff }

/-! ## Index arithmetic -/

theorem LEFT_eq (i : Int) : LEFT i = 2 * i + 1 := by
  unfold LEFT
  have h : i <<< (1 : Int) = i * ((2 ^ 1 : ℕ) : Int) := Int.shiftLeft_eq_mul_pow i 1
  rw [h]; push_cast; ring

theorem RIGHT_eq (i : Int) : RIGHT i = 2 * i + 2 := by
  unfold RIGHT
  have h : i <<< (1 : Int) = i * ((2 ^ 1 : ℕ) : Int) := Int.shiftLeft_eq_mul_pow i 1
  rw [h]; push_cast; ring

theorem shiftRight_one (m : Int) : m >>> (1 : Int) = m / 2 := by
  cases m with
  | ofNat n =>
    have h : ((n : ℕ) : Int) >>> ((1 : ℕ) : Int) = ((n >>> 1 : ℕ) : Int) :=
      Int.shiftRight_coe_nat n 1
    have h2 : n >>> 1 = n / 2 := by rw [Nat.shiftRight_eq_div_pow]
    simp only [Int.ofNat_eq_coe]
    rw [show (1 : Int) = ((1 : ℕ) : Int) from rfl, h, h2]
    push_cast; rfl
  | negSucc n =>
    have h : Int.negSucc n >>> ((1 : ℕ) : Int) = Int.negSucc (n >>> 1) :=
      Int.shiftRight_negSucc n 1
    have h2 : n >>> 1 = n / 2 := by rw [Nat.shiftRight_eq_div_pow]
    rw [show (1 : Int) = ((1 : ℕ) : Int) from rfl, h, h2]
    rw [Int.negSucc_eq, Int.negSucc_eq]
    push_cast
    omega

theorem PARENT_eq (i : Int) : PARENT i = (i - 1) / 2 := by
  unfold PARENT; exact shiftRight_one (i - 1)

theorem PARENT_LEFT (i : Int) : PARENT (LEFT i) = i := by
  rw [PARENT_eq, LEFT_eq]; omega

theorem PARENT_RIGHT (i : Int) : PARENT (RIGHT i) = i := by
  rw [PARENT_eq, RIGHT_eq]; omega

theorem child_of_parent {i j : Int} (h : PARENT j = i) : j = LEFT i ∨ j = RIGHT i := by
  rw [PARENT_eq] at h; rw [LEFT_eq, RIGHT_eq]; omega

/-! ## Subtrees -/

theorem InSubtree.le {i j : Int} (h : InSubtree i j) (hi : 0 ≤ i) : i ≤ j := by
  induction h with
  | root => exact le_refl i
  | left _ ih => rw [LEFT_eq]; omega
  | right _ ih => rw [RIGHT_eq]; omega

theorem InSubtree.inv {i j : Int} (h : InSubtree i j) :
    j = i ∨ (InSubtree i (PARENT j) ∧ (j = LEFT (PARENT j) ∨ j = RIGHT (PARENT j))) := by
  cases h with
  | root => exact Or.inl rfl
  | left h1 => right; rw [PARENT_LEFT]; exact ⟨h1, Or.inl rfl⟩
  | right h1 => right; rw [PARENT_RIGHT]; exact ⟨h1, Or.inr rfl⟩

theorem InSubtree.trans {i k j : Int} (h1 : InSubtree i k) (h2 : InSubtree k j) :
    InSubtree i j := by
  induction h2 with
  | root => exact h1
  | left _ ih => exact InSubtree.left ih
  | right _ ih => exact InSubtree.right ih

/-- Two subtrees that share a slot are nested. -/
theorem InSubtree.comparable {a b j : Int} (h1 : InSubtree a j) :
    InSubtree b j → InSubtree a b ∨ InSubtree b a := by
  induction h1 with
  | root => intro h2; exact Or.inr h2
  | @left k hk ih =>
    intro h2
    rcases h2.inv with h | ⟨h, _⟩
    · left; rw [← h]; exact InSubtree.left hk
    · rw [PARENT_LEFT] at h; exact ih h
  | @right k hk ih =>
    intro h2
    rcases h2.inv with h | ⟨h, _⟩
    · left; rw [← h]; exact InSubtree.right hk
    · rw [PARENT_RIGHT] at h; exact ih h

/-- The subtrees of the two children of a slot are disjoint. -/
theorem InSubtree.disjoint {i j : Int} (hi : 0 ≤ i) (h1 : InSubtree (LEFT i) j)
    (h2 : InSubtree (RIGHT i) j) : False := by
  have hL : 0 ≤ LEFT i := by rw [LEFT_eq]; omega
  have hR : 0 ≤ RIGHT i := by rw [RIGHT_eq]; omega
  rcases h1.comparable h2 with h | h
  · rcases h.inv with h3 | ⟨h3, _⟩
    · rw [LEFT_eq, RIGHT_eq] at h3; omega
    · rw [PARENT_RIGHT] at h3
      have := h3.le hL
      rw [LEFT_eq] at this; omega
  · rcases h.inv with h3 | ⟨h3, _⟩
    · rw [LEFT_eq, RIGHT_eq] at h3; omega
    · rw [PARENT_LEFT] at h3
      have := h3.le hR
      rw [RIGHT_eq] at this; omega

/-- A slot of the subtree of `i` other than `i` lies in the subtree of a child of `i`. -/
theorem InSubtree.child {i j : Int} (h : InSubtree i j) (hne : j ≠ i) :
    InSubtree (LEFT i) j ∨ InSubtree (RIGHT i) j := by
  induction h with
  | root => exact absurd rfl hne
  | @left k hk ih =>
    by_cases hki : k = i
    · left; rw [hki]; exact InSubtree.root
    · rcases ih hki with h | h
      · exact Or.inl (InSubtree.left h)
      · exact Or.inr (InSubtree.left h)
  | @right k hk ih =>
    by_cases hki : k = i
    · right; rw [hki]; exact InSubtree.root
    · rcases ih hki with h | h
      · exact Or.inl (InSubtree.right h)
      · exact Or.inr (InSubtree.right h)

/-- Every slot `j ≥ 0` lies in the subtree of the root slot `0`. -/
theorem InSubtree.of_root (j : Int) (hj : 0 ≤ j) : InSubtree 0 j := by
  have key : ∀ n : Nat, ∀ j : Int, 0 ≤ j → j.toNat ≤ n → InSubtree 0 j := by
    intro n
    induction n with
    | zero =>
      intro j hj hn
      have : j = 0 := by omega
      rw [this]; exact InSubtree.root
    | succ n ih =>
      intro j hj hn
      by_cases h0 : j = 0
      · rw [h0]; exact InSubtree.root
      · have hp : InSubtree 0 (PARENT j) := by
          apply ih
          · rw [PARENT_eq]; omega
          · rw [PARENT_eq]; omega
        rcases child_of_parent (rfl : PARENT j = PARENT j) with h | h
        · rw [h]; exact InSubtree.left hp
        · rw [h]; exact InSubtree.right hp
  exact key j.toNat j hj (le_refl _)

/-! ## Comparators -/

section Comparator

variable {α : Type} {cmp : α → α → Int}

theorem cmp_trans (hc : SignOfTotalPreorder cmp) {a b c : α}
    (h1 : cmp a b ≤ 0) (h2 : cmp b c ≤ 0) : cmp a c ≤ 0 := by
  obtain ⟨le, _, htr, hs⟩ := hc
  have key : ∀ x y, cmp x y ≤ 0 ↔ le x y := by
    intro x y
    obtain ⟨hl, he, hg⟩ := hs x y
    constructor
    · intro h
      rcases lt_or_eq_of_le h with h | h
      · exact (hl.1 h).1
      · exact (he.1 h).1
    · intro h
      by_contra hn
      exact (hg.1 (not_le.1 hn)).2 h
  exact (key a c).2 (htr a b c ((key a b).1 h1) ((key b c).1 h2))

theorem cmp_lt_of_gt (hc : SignOfTotalPreorder cmp) {a b : α} (h : 0 < cmp a b) :
    cmp b a < 0 := by
  obtain ⟨le, _, _, hs⟩ := hc
  exact ((hs b a).1).2 ((hs a b).2.2.1 h)

theorem cmp_le_of_not_lt (hc : SignOfTotalPreorder cmp) {a b : α} (h : ¬ cmp b a < 0) :
    cmp a b ≤ 0 := by
  by_contra hn
  exact h (cmp_lt_of_gt hc (not_le.1 hn))

theorem cmp_self (hc : SignOfTotalPreorder cmp) (a : α) : cmp a a ≤ 0 :=
  cmp_le_of_not_lt hc (fun h => by
    obtain ⟨le, _, _, hs⟩ := hc
    have := (hs a a).1.1 h
    exact this.2 this.1)

theorem int_diff_sign : SignOfTotalPreorder int_diff := by
  refine ⟨fun a b => a ≤ b, fun a b => le_total a b, fun a b c => le_trans, ?_⟩
  intro a b
  unfold int_diff
  refine ⟨?_, ?_, ?_⟩ <;> constructor <;> intro h <;> omega

end Comparator

/-! ## The buffer under `swap` -/

section Swap

variable {α : Type}

theorem swap_eq_comp (data : Int → α) (a b : Int) :
    swap data a b = data ∘ (Equiv.swap a b) := by
  funext x
  unfold swap
  simp only [Function.comp_apply, Function.update_apply, Equiv.swap_apply_def]
  by_cases hb : x = b <;> by_cases ha : x = a <;> simp_all

theorem swap_left (data : Int → α) (a b : Int) : swap data a b a = data b := by
  rw [swap_eq_comp]; simp

theorem swap_right (data : Int → α) (a b : Int) : swap data a b b = data a := by
  rw [swap_eq_comp]; simp

theorem swap_other (data : Int → α) {a b x : Int} (ha : x ≠ a) (hb : x ≠ b) :
    swap data a b x = data x := by
  rw [swap_eq_comp]; simp [Equiv.swap_apply_of_ne_of_ne ha hb]

end Swap

/-! ## Sift-down: `min_heapify` -/

section MinHeapify

variable {α : Type}

theorem min_heapify_fuel_succ (fuel : Nat) (heap : MinHeap α) (idx : Int) :
    min_heapify_fuel (fuel + 1) heap idx =
      if smallest_of heap idx ≠ idx then
        min_heapify_fuel fuel
          { heap with data := swap heap.data idx (smallest_of heap idx) } (smallest_of heap idx)
      else some heap := rfl

/-- The index `smallest` is `idx` or a child of `idx` below `size`. -/
theorem smallest_of_cases (heap : MinHeap α) (idx : Int) :
    smallest_of heap idx = idx ∨
    (smallest_of heap idx = LEFT idx ∧ LEFT idx < heap.size) ∨
    (smallest_of heap idx = RIGHT idx ∧ RIGHT idx < heap.size) := by
  unfold smallest_of
  simp only
  split_ifs with h1 h2 h2
  · exact Or.inr (Or.inr ⟨rfl, h2.1⟩)
  · exact Or.inr (Or.inl ⟨rfl, h1.1⟩)
  · exact Or.inr (Or.inr ⟨rfl, h2.1⟩)
  · exact Or.inl rfl

theorem smallest_of_bounds (heap : MinHeap α) (idx : Int) (hidx : 0 ≤ idx)
    (hne : smallest_of heap idx ≠ idx) :
    idx < smallest_of heap idx ∧ smallest_of heap idx < heap.size ∧
      InSubtree idx (smallest_of heap idx) := by
  rcases smallest_of_cases heap idx with h | ⟨h, hlt⟩ | ⟨h, hlt⟩
  · exact absurd h hne
  · rw [h]; refine ⟨by rw [LEFT_eq]; omega, hlt, InSubtree.left InSubtree.root⟩
  · rw [h]; refine ⟨by rw [RIGHT_eq]; omega, hlt, InSubtree.right InSubtree.root⟩

/-- Totality and frame of `min_heapify`: with enough fuel the call returns, and the new
buffer is the old one rearranged by a permutation that moves only occupied slots of the
subtree rooted at `idx`. -/
theorem min_heapify_fuel_perm (fuel : Nat) :
    ∀ (heap : MinHeap α) (idx : Int), 0 ≤ idx → heap.size - idx < fuel → 0 < fuel →
      ∃ σ : Equiv.Perm Int,
        min_heapify_fuel fuel heap idx = some { heap with data := heap.data ∘ σ } ∧
        ∀ j, ¬ (InSubtree idx j ∧ j < heap.size) → σ j = j := by
  induction fuel with
  | zero => intro heap idx _ _ h0; exact absurd h0 (lt_irrefl 0)
  | succ n ih =>
    intro heap idx hidx hfuel _
    rw [min_heapify_fuel_succ]
    by_cases hne : smallest_of heap idx ≠ idx
    · rw [if_pos hne]
      obtain ⟨hlt, hsz, hsub⟩ := smallest_of_bounds heap idx hidx hne
      obtain ⟨σ, hσ, hfix⟩ := ih
        { heap with data := swap heap.data idx (smallest_of heap idx) } (smallest_of heap idx)
        (by omega)
        (by show heap.size - smallest_of heap idx < (n : Int); push_cast at hfuel; omega)
        (by push_cast at hfuel; omega)
      refine ⟨Equiv.swap idx (smallest_of heap idx) * σ, ?_, ?_⟩
      · rw [hσ, swap_eq_comp]; rfl
      · intro j hj
        have hj1 : ¬ (InSubtree (smallest_of heap idx) j ∧ j < heap.size) :=
          fun h => hj ⟨hsub.trans h.1, h.2⟩
        have hji : j ≠ idx := fun h => hj ⟨h ▸ InSubtree.root, by omega⟩
        have hjs : j ≠ smallest_of heap idx := fun h => hj ⟨h ▸ hsub, by omega⟩
        rw [Equiv.Perm.mul_apply, hfix j hj1, Equiv.swap_apply_of_ne_of_ne hji hjs]
    · rw [if_neg hne]
      exact ⟨1, by simp, fun j _ => rfl⟩

/-- The element that ends in `smallest` does not compare strictly above the element at `idx`
nor above an occupied child of `idx`. -/
theorem smallest_of_order (heap : MinHeap α) (idx : Int)
    (hc : SignOfTotalPreorder heap.compare) :
    (LEFT idx < heap.size →
      heap.compare (heap.data (smallest_of heap idx)) (heap.data (LEFT idx)) ≤ 0) ∧
    (RIGHT idx < heap.size →
      heap.compare (heap.data (smallest_of heap idx)) (heap.data (RIGHT idx)) ≤ 0) ∧
    heap.compare (heap.data (smallest_of heap idx)) (heap.data idx) ≤ 0 := by
  unfold smallest_of
  simp only
  split_ifs with h1 h2 h2
  · exact ⟨fun _ => le_of_lt h2.2, fun _ => cmp_self hc _,
      cmp_trans hc (le_of_lt h2.2) (le_of_lt h1.2)⟩
  · exact ⟨fun _ => cmp_self hc _,
      fun hr => cmp_le_of_not_lt hc (fun h => h2 ⟨hr, h⟩), le_of_lt h1.2⟩
  · exact ⟨fun hl => cmp_trans hc (le_of_lt h2.2) (cmp_le_of_not_lt hc (fun h => h1 ⟨hl, h⟩)),
      fun _ => cmp_self hc _, le_of_lt h2.2⟩
  · exact ⟨fun hl => cmp_le_of_not_lt hc (fun h => h1 ⟨hl, h⟩),
      fun hr => cmp_le_of_not_lt hc (fun h => h2 ⟨hr, h⟩), cmp_self hc _⟩

/-- Sift-down restores the heap property of a subtree whose two child subtrees have it.
The element that ends at `idx` was at `idx` or at an occupied child of `idx`. -/
theorem min_heapify_fuel_heap (fuel : Nat) :
    ∀ (heap : MinHeap α) (idx : Int), SignOfTotalPreorder heap.compare → 0 ≤ idx →
      heap.size - idx < fuel → 0 < fuel →
      subtree_heap heap (LEFT idx) → subtree_heap heap (RIGHT idx) →
      ∃ heap1, min_heapify_fuel fuel heap idx = some heap1 ∧ subtree_heap heap1 idx ∧
        (heap1.data idx = heap.data idx ∨
          (LEFT idx < heap.size ∧ heap1.data idx = heap.data (LEFT idx)) ∨
          (RIGHT idx < heap.size ∧ heap1.data idx = heap.data (RIGHT idx))) := by
  induction fuel with
  | zero => intro heap idx _ _ _ h0; exact absurd h0 (lt_irrefl 0)
  | succ n ih =>
    intro heap idx hc hidx hfuel _ hL hR
    obtain ⟨o1, o2, o3⟩ := smallest_of_order heap idx hc
    have hcases := smallest_of_cases heap idx
    rw [min_heapify_fuel_succ]
    by_cases hne : smallest_of heap idx ≠ idx
    · rw [if_pos hne]
      obtain ⟨hlt, hsz, hsub⟩ := smallest_of_bounds heap idx hidx hne
      generalize smallest_of heap idx = m at *
      have hf1 : heap.size - m < (n : Int) := by push_cast at hfuel; omega
      have hf2 : 0 < n := by push_cast at hfuel; omega
      have hm0 : 0 ≤ m := by omega
      have hmL : m < LEFT m := by rw [LEFT_eq]; omega
      have hmR : m < RIGHT m := by rw [RIGHT_eq]; omega
      have hpm : PARENT m = idx := by
        rcases hcases with h | ⟨h, _⟩ | ⟨h, _⟩
        · exact absurd h hne
        · rw [h, PARENT_LEFT]
        · rw [h, PARENT_RIGHT]
      have hM : subtree_heap heap m := by
        rcases hcases with h | ⟨h, _⟩ | ⟨h, _⟩
        · exact absurd h hne
        · rw [h]; exact hL
        · rw [h]; exact hR
      -- the child subtrees of `m` are untouched by the swap
      have hsub1 : ∀ c, m < c → InSubtree m c →
          subtree_heap { heap with data := swap heap.data idx m } c := by
        intro c hmc hcin j hj hjc hjs
        have hc0 : 0 ≤ c := by omega
        have hjge : c ≤ j := hj.le hc0
        rcases hj.inv with h | ⟨hp, _⟩
        · exact absurd h hjc
        · have hpge : c ≤ PARENT j := hp.le hc0
          show heap.compare (swap heap.data idx m (PARENT j)) (swap heap.data idx m j) ≤ 0
          rw [swap_other _ (by omega) (by omega), swap_other _ (by omega) (by omega)]
          exact hM j (hcin.trans hj) (by omega) hjs
      obtain ⟨σ, hσ, hfix⟩ := min_heapify_fuel_perm n
        { heap with data := swap heap.data idx m } m hm0 hf1 hf2
      obtain ⟨heap1, h1eq, h1sub, h1root⟩ := ih
        { heap with data := swap heap.data idx m } m hc hm0 hf1 hf2
        (hsub1 _ hmL (InSubtree.left InSubtree.root))
        (hsub1 _ hmR (InSubtree.right InSubtree.root))
      have hh1 : heap1 = { heap with data := swap heap.data idx m ∘ σ } := by
        rw [hσ] at h1eq; exact (Option.some.inj h1eq).symm
      have hsize : heap1.size = heap.size := by rw [hh1]
      have hcmp : heap1.compare = heap.compare := by rw [hh1]
      -- slots outside the subtree of `m` hold what the swap left there
      have hout : ∀ x, ¬ InSubtree m x → heap1.data x = swap heap.data idx m x := by
        intro x hx
        rw [hh1]
        show swap heap.data idx m (σ x) = _
        rw [hfix x (fun h => hx h.1)]
      have hidx_out : ¬ InSubtree m idx := fun h => by have := h.le hm0; omega
      have hroot : heap1.data idx = heap.data m := by
        rw [hout idx hidx_out, swap_left]
      refine ⟨heap1, h1eq, ?_, ?_⟩
      · -- the edge from `idx` to `m`
        have edge_m : heap1.compare (heap1.data idx) (heap1.data m) ≤ 0 := by
          rw [hcmp, hroot]
          rcases h1root with h | ⟨hlt1, h⟩ | ⟨hlt1, h⟩
          · rw [h]; show heap.compare _ (swap heap.data idx m m) ≤ 0
            rw [swap_right]; exact o3
          · rw [h]; show heap.compare _ (swap heap.data idx m (LEFT m)) ≤ 0
            rw [swap_other _ (by omega) (by omega)]
            have := hM (LEFT m) (InSubtree.left InSubtree.root) (by omega) hlt1
            rwa [PARENT_LEFT] at this
          · rw [h]; show heap.compare _ (swap heap.data idx m (RIGHT m)) ≤ 0
            rw [swap_other _ (by omega) (by omega)]
            have := hM (RIGHT m) (InSubtree.right InSubtree.root) (by omega) hlt1
            rwa [PARENT_RIGHT] at this
        -- the subtree of the sibling `c` of `m`
        have sibling : ∀ c, PARENT c = idx → idx < c → c ≠ m →
            (∀ x, InSubtree c x → ¬ InSubtree m x) → subtree_heap heap c →
            (c < heap.size → heap.compare (heap.data m) (heap.data c) ≤ 0) →
            ∀ j, InSubtree c j → j < heap.size →
              heap1.compare (heap1.data (PARENT j)) (heap1.data j) ≤ 0 := by
          intro c hpc hic hcm hdis hC hmc j hj hjs
          have hc0 : 0 ≤ c := by omega
          have hjge : c ≤ j := hj.le hc0
          have hjdata : heap1.data j = heap.data j := by
            rw [hout j (hdis j hj), swap_other _ (by omega)
              (fun h => hdis j hj (by rw [h]; exact InSubtree.root))]
          rw [hcmp, hjdata]
          rcases hj.inv with h | ⟨hp, _⟩
          · rw [h, hpc, hroot]; exact hmc (h ▸ hjs)
          · have hpge : c ≤ PARENT j := hp.le hc0
            rw [hout _ (hdis _ hp),
              swap_other _ (by omega) (fun h => hdis _ hp (by rw [h]; exact InSubtree.root))]
            exact hC j hj (fun h => by
              rw [h] at hpge
              rw [PARENT_eq] at hpge; omega) hjs
        intro j hj hji hjs
        rw [hsize] at hjs
        have inside : InSubtree m j →
            heap1.compare (heap1.data (PARENT j)) (heap1.data j) ≤ 0 := by
          intro hjm
          by_cases hjm2 : j = m
          · rw [hjm2, hpm]; exact edge_m
          · exact h1sub j hjm hjm2 (by rw [hsize]; exact hjs)
        have hLi : idx < LEFT idx := by rw [LEFT_eq]; omega
        have hRi : idx < RIGHT idx := by rw [RIGHT_eq]; omega
        have hLR : LEFT idx ≠ RIGHT idx := by rw [LEFT_eq, RIGHT_eq]; omega
        rcases hcases with h | ⟨h, _⟩ | ⟨h, _⟩
        · exact absurd h hne
        · rcases hj.child hji with hjl | hjr
          · exact inside (h ▸ hjl)
          · exact sibling (RIGHT idx) (PARENT_RIGHT idx) hRi (by rw [h]; exact hLR.symm)
              (fun x hx hx2 => InSubtree.disjoint hidx (h ▸ hx2) hx) hR
              (fun hr => o2 hr) j hjr hjs
        · rcases hj.child hji with hjl | hjr
          · exact sibling (LEFT idx) (PARENT_LEFT idx) hLi (by rw [h]; exact hLR)
              (fun x hx hx2 => InSubtree.disjoint hidx hx (h ▸ hx2)) hL
              (fun hl => o1 hl) j hjl hjs
          · exact inside (h ▸ hjr)
      · rcases hcases with h | ⟨h, hl⟩ | ⟨h, hl⟩
        · exact absurd h hne
        · right; left; exact ⟨hl, by rw [hroot, h]⟩
        · right; right; exact ⟨hl, by rw [hroot, h]⟩
    · rw [if_neg hne]
      have hm : smallest_of heap idx = idx := not_not.1 hne
      rw [hm] at o1 o2
      refine ⟨heap, rfl, ?_, Or.inl rfl⟩
      intro j hj hji hjs
      rcases hj.child hji with hjl | hjr
      · by_cases h : j = LEFT idx
        · rw [h, PARENT_LEFT]; exact o1 (h ▸ hjs)
        · exact hL j hjl h hjs
      · by_cases h : j = RIGHT idx
        · rw [h, PARENT_RIGHT]; exact o2 (h ▸ hjs)
        · exact hR j hjr h hjs

end MinHeapify

/-! ## Sift-up: the loop of `insert` -/

section InsertLoop

variable {α : Type}

theorem insert_loop_succ (fuel : Nat) (heap : MinHeap α) (i : Int) :
    insert_loop (fuel + 1) heap i =
      if i > 0 ∧ heap.compare (heap.data (PARENT i)) (heap.data i) > 0 then
        insert_loop fuel { heap with data := swap heap.data i (PARENT i) } (PARENT i)
      else some heap := rfl

theorem PARENT_bounds {i : Int} (hi : 0 < i) : 0 ≤ PARENT i ∧ PARENT i < i := by
  rw [PARENT_eq]; omega

/-- Totality and frame of the bubble-up loop: with more fuel than the start index the loop
stops, and the new buffer is the old one rearranged by a permutation that moves only slots
of `[0, i]`. -/
theorem insert_loop_perm (fuel : Nat) :
    ∀ (heap : MinHeap α) (i : Int), i < fuel → 0 < fuel →
      ∃ σ : Equiv.Perm Int,
        insert_loop fuel heap i = some { heap with data := heap.data ∘ σ } ∧
        ∀ j, (j < 0 ∨ i < j) → σ j = j := by
  induction fuel with
  | zero => intro heap i _ h0; exact absurd h0 (lt_irrefl 0)
  | succ n ih =>
    intro heap i hfuel _
    rw [insert_loop_succ]
    by_cases hcond : i > 0 ∧ heap.compare (heap.data (PARENT i)) (heap.data i) > 0
    · rw [if_pos hcond]
      obtain ⟨hp0, hpi⟩ := PARENT_bounds hcond.1
      obtain ⟨σ, hσ, hfix⟩ := ih { heap with data := swap heap.data i (PARENT i) } (PARENT i)
        (by push_cast at hfuel; omega) (by push_cast at hfuel; omega)
      refine ⟨Equiv.swap i (PARENT i) * σ, ?_, ?_⟩
      · rw [hσ, swap_eq_comp]; rfl
      · intro j hj
        rw [Equiv.Perm.mul_apply, hfix j (by omega),
          Equiv.swap_apply_of_ne_of_ne (by omega) (by omega)]
    · rw [if_neg hcond]
      exact ⟨1, by simp, fun j _ => rfl⟩

/-- Sift-up restores the heap property when slot `i` is the only one that may compare
strictly below its parent, and the parent of `i` is not above the children of `i`. -/
theorem insert_loop_heap (fuel : Nat) :
    ∀ (heap : MinHeap α) (i : Int), SignOfTotalPreorder heap.compare → i < fuel → 0 < fuel →
      (∀ j, 0 < j → j < heap.size → j ≠ i →
        heap.compare (heap.data (PARENT j)) (heap.data j) ≤ 0) →
      (0 < i → ∀ j, 0 < j → j < heap.size → PARENT j = i →
        heap.compare (heap.data (PARENT i)) (heap.data j) ≤ 0) →
      ∃ heap1, insert_loop fuel heap i = some heap1 ∧
        ∀ j, 0 < j → j < heap1.size →
          heap1.compare (heap1.data (PARENT j)) (heap1.data j) ≤ 0 := by
  induction fuel with
  | zero => intro heap i _ _ h0; exact absurd h0 (lt_irrefl 0)
  | succ n ih =>
    intro heap i hc hfuel _ hU1 hU2
    rw [insert_loop_succ]
    by_cases hcond : i > 0 ∧ heap.compare (heap.data (PARENT i)) (heap.data i) > 0
    · rw [if_pos hcond]
      obtain ⟨hi, hgt⟩ := hcond
      obtain ⟨hp0, hpi⟩ := PARENT_bounds hi
      have hip : heap.compare (heap.data i) (heap.data (PARENT i)) ≤ 0 :=
        le_of_lt (cmp_lt_of_gt hc hgt)
      apply ih { heap with data := swap heap.data i (PARENT i) } (PARENT i) hc
        (by push_cast at hfuel; omega) (by push_cast at hfuel; omega)
      · intro j hj hjs hjp
        have hpj := PARENT_bounds hj
        show heap.compare (swap heap.data i (PARENT i) (PARENT j))
          (swap heap.data i (PARENT i) j) ≤ 0
        by_cases hji : j = i
        · rw [hji, swap_left, swap_right]; exact hip
        · rw [swap_other _ hji hjp]
          by_cases h1 : PARENT j = i
          · rw [h1, swap_left]; exact hU2 hi j hj hjs h1
          · by_cases h2 : PARENT j = PARENT i
            · rw [h2, swap_right]
              have := hU1 j hj hjs hji
              rw [h2] at this
              exact cmp_trans hc hip this
            · rw [swap_other _ h1 h2]; exact hU1 j hj hjs hji
      · intro hp j hj hjs hjp
        have hpp := PARENT_bounds hp
        have hpj := PARENT_bounds hj
        have hps : PARENT i < heap.size := by
          have : PARENT i < j := by omega
          show PARENT i < heap.size
          exact lt_trans this hjs
        show heap.compare (swap heap.data i (PARENT i) (PARENT (PARENT i)))
          (swap heap.data i (PARENT i) j) ≤ 0
        rw [swap_other _ (by omega) (by omega)]
        have hgp : heap.compare (heap.data (PARENT (PARENT i))) (heap.data (PARENT i)) ≤ 0 :=
          hU1 (PARENT i) hp hps (by omega)
        by_cases hji : j = i
        · rw [hji, swap_left]; exact hgp
        · rw [swap_other _ hji (by omega)]
          have := hU1 j hj hjs hji
          rw [hjp] at this
          exact cmp_trans hc hgp this
    · rw [if_neg hcond]
      refine ⟨heap, rfl, ?_⟩
      intro j hj hjs
      by_cases hji : j = i
      · rw [hji]
        by_contra hn
        exact hcond ⟨hji ▸ hj, not_le.1 hn⟩
      · exact hU1 j hj hjs hji

end InsertLoop

/-! ## The public operations -/

section Operations

variable {α : Type}

theorem heap_property_iff_parent (heap : MinHeap α) :
    heap_property heap ↔
      ∀ j, 0 < j → j < heap.size → heap.compare (heap.data (PARENT j)) (heap.data j) ≤ 0 := by
  unfold heap_property
  simp only [PARENT_eq]

theorem subtree_heap_root_iff (heap : MinHeap α) :
    subtree_heap heap 0 ↔ heap_property heap := by
  rw [heap_property_iff_parent]
  constructor
  · intro h j hj hjs
    exact h j (InSubtree.of_root j (le_of_lt hj)) (by omega) hjs
  · intro h j hj hne hjs
    have := hj.le (le_refl 0)
    exact h j (by omega) hjs

/-- A subtree whose root has no occupied child has the heap property. -/
theorem subtree_heap_leaf (heap : MinHeap α) (c : Int) (hc0 : 0 ≤ c)
    (hleaf : heap.size ≤ LEFT c) : subtree_heap heap c := by
  intro j hj hjc hjs
  rw [LEFT_eq] at hleaf
  rcases hj.child hjc with h | h
  · have := h.le (by rw [LEFT_eq]; omega)
    rw [LEFT_eq] at this; omega
  · have := h.le (by rw [RIGHT_eq]; omega)
    rw [RIGHT_eq] at this; omega

/-- A permutation that fixes every slot outside a set maps the set into itself. -/
theorem perm_maps_in (σ : Equiv.Perm Int) (P : Int → Prop)
    (hfix : ∀ j, ¬ P j → σ j = j) {j : Int} (hj : P j) : P (σ j) := by
  by_contra hn
  have h1 : σ (σ j) = σ j := hfix (σ j) hn
  have h2 : σ j = j := σ.injective h1
  rw [h2] at hn
  exact hn hj

theorem insert_full (heap : MinHeap α) (x : α) (h : heap.size ≥ heap.capacity) :
    insert heap x = some (heap, true) := by
  unfold insert
  rw [if_pos h]

/-- A call of `insert` below capacity: the element is written to slot `size`, `size` grows
by one, and the loop rearranges slots of `[0, size]` only. -/
theorem insert_ok (heap : MinHeap α) (x : α) (h : heap.size < heap.capacity) :
    ∃ σ : Equiv.Perm Int,
      insert heap x = some
        ({ heap with size := heap.size + 1,
                     data := Function.update heap.data heap.size x ∘ σ }, false) ∧
      ∀ j, (j < 0 ∨ heap.size < j) → σ j = j := by
  unfold insert
  rw [if_neg (not_le.2 h)]
  simp only [add_sub_cancel_right]
  obtain ⟨σ, hσ, hfix⟩ := insert_loop_perm (heap.size.toNat + 1)
    { heap with size := heap.size + 1, data := Function.update heap.data heap.size x }
    heap.size (by push_cast; omega) (by omega)
  exact ⟨σ, by rw [hσ], hfix⟩

/-- A call of `insert` below capacity keeps the heap property. -/
theorem insert_heap (heap : MinHeap α) (x : α) (hc : SignOfTotalPreorder heap.compare)
    (h : heap.size < heap.capacity) (hp : heap_property heap) :
    ∃ heap1, insert heap x = some (heap1, false) ∧ heap_property heap1 := by
  rw [heap_property_iff_parent] at hp
  unfold insert
  rw [if_neg (not_le.2 h)]
  simp only [add_sub_cancel_right]
  obtain ⟨heap1, h1, h2⟩ := insert_loop_heap (heap.size.toNat + 1)
    { heap with size := heap.size + 1, data := Function.update heap.data heap.size x }
    heap.size hc (by push_cast; omega) (by omega)
    (by
      intro j hj hjs hji
      have hjs1 : j < heap.size + 1 := hjs
      have hpj := PARENT_bounds hj
      show heap.compare (Function.update heap.data heap.size x (PARENT j))
        (Function.update heap.data heap.size x j) ≤ 0
      rw [Function.update_noteq (by omega), Function.update_noteq (by omega)]
      exact hp j hj (by omega))
    (by
      intro hi j hj hjs hji
      have hjs1 : j < heap.size + 1 := hjs
      rw [PARENT_eq] at hji
      omega)
  refine ⟨heap1, by rw [h1], ?_⟩
  rw [heap_property_iff_parent]
  exact h2

theorem pop_empty (heap : MinHeap α) (h : heap.size ≤ 0) : pop heap = some (none, heap) := by
  unfold pop
  rw [if_pos h]

/-- A call of `pop` on a heap that is not empty: the root is returned, the last occupied
slot is copied to slot `0`, `size` shrinks by one, and the sift-down rearranges slots of
`[0, size - 1)` only. -/
theorem pop_ok (heap : MinHeap α) (h : 0 < heap.size) :
    ∃ σ : Equiv.Perm Int,
      pop heap = some (some (heap.data 0),
        { heap with size := heap.size - 1,
                    data := Function.update heap.data 0 (heap.data (heap.size - 1)) ∘ σ }) ∧
      ∀ j, (j < 0 ∨ heap.size - 1 ≤ j) → σ j = j := by
  unfold pop
  rw [if_neg (not_le.2 h)]
  simp only
  obtain ⟨σ, hσ, hfix⟩ := min_heapify_fuel_perm ((heap.size - 1).toNat + 1)
    { heap with size := heap.size - 1,
                data := Function.update heap.data 0 (heap.data (heap.size - 1)) }
    0 (le_refl 0) (by push_cast; show heap.size - 1 - 0 < _; omega) (by omega)
  refine ⟨σ, ?_, ?_⟩
  · unfold min_heapify
    simp only
    rw [hσ]
  · intro j hj
    apply hfix
    rintro ⟨h1, h2⟩
    have := h1.le (le_refl 0)
    have h3 : j < heap.size - 1 := h2
    omega

/-- A call of `pop` on a heap that is not empty keeps the heap property. -/
theorem pop_heap (heap : MinHeap α) (hc : SignOfTotalPreorder heap.compare)
    (h : 0 < heap.size) (hp : heap_property heap) :
    ∃ heap1, pop heap = some (some (heap.data 0), heap1) ∧ heap_property heap1 := by
  rw [heap_property_iff_parent] at hp
  have hsub : ∀ c, 0 < c → subtree_heap
      { heap with size := heap.size - 1,
                  data := Function.update heap.data 0 (heap.data (heap.size - 1)) } c := by
    intro c hc0 j hj hjc hjs
    have hjs1 : j < heap.size - 1 := hjs
    have hcj := hj.le (le_of_lt hc0)
    rcases hj.inv with h1 | ⟨h1, _⟩
    · exact absurd h1 hjc
    · have hcp := h1.le (le_of_lt hc0)
      show heap.compare (Function.update heap.data 0 _ (PARENT j))
        (Function.update heap.data 0 _ j) ≤ 0
      rw [Function.update_noteq (by omega), Function.update_noteq (by omega)]
      exact hp j (by omega) (by omega)
  obtain ⟨heap1, h1, h2, _⟩ := min_heapify_fuel_heap ((heap.size - 1).toNat + 1)
    { heap with size := heap.size - 1,
                data := Function.update heap.data 0 (heap.data (heap.size - 1)) }
    0 hc (le_refl 0) (by push_cast; show heap.size - 1 - 0 < _; omega) (by omega)
    (hsub _ (by rw [LEFT_eq]; omega)) (hsub _ (by rw [RIGHT_eq]; omega))
  refine ⟨heap1, ?_, (subtree_heap_root_iff heap1).1 h2⟩
  unfold pop
  rw [if_neg (not_le.2 h)]
  simp only
  unfold min_heapify
  simp only
  rw [h1]

/-- In a heap with the heap property the root does not compare strictly above any occupied
slot. -/
theorem root_le_all (heap : MinHeap α) (hc : SignOfTotalPreorder heap.compare)
    (hp : heap_property heap) :
    ∀ j, 0 ≤ j → j < heap.size → heap.compare (heap.data 0) (heap.data j) ≤ 0 := by
  rw [heap_property_iff_parent] at hp
  have key : ∀ n : Nat, ∀ j : Int, 0 ≤ j → j.toNat ≤ n → j < heap.size →
      heap.compare (heap.data 0) (heap.data j) ≤ 0 := by
    intro n
    induction n with
    | zero =>
      intro j hj hn _
      have : j = 0 := by omega
      rw [this]; exact cmp_self hc _
    | succ n ih =>
      intro j hj hn hjs
      by_cases h0 : j = 0
      · rw [h0]; exact cmp_self hc _
      · have hj0 : 0 < j := by omega
        have hpj := PARENT_bounds hj0
        exact cmp_trans hc (ih (PARENT j) hpj.1 (by omega) (by omega)) (hp j hj0 hjs)
  intro j hj hjs
  exact key j.toNat j hj (le_refl _) hjs

/-- Every call of `insert` returns; what it returns, in one statement. -/
theorem insert_spec (heap : MinHeap α) (x : α) :
    ∃ heap1 full, insert heap x = some (heap1, full) ∧
      heap1.compare = heap.compare ∧ heap1.capacity = heap.capacity ∧
      (full = true ↔ heap.size ≥ heap.capacity) ∧
      (full = true → heap1 = heap) ∧
      (full = false → heap1.size = heap.size + 1) ∧
      (0 ≤ heap.size → ∀ j, (j < 0 ∨ heap.capacity ≤ j) → heap1.data j = heap.data j) ∧
      (SignOfTotalPreorder heap.compare → heap_property heap → heap_property heap1) := by
  by_cases h : heap.size ≥ heap.capacity
  · refine ⟨heap, true, insert_full heap x h, rfl, rfl, ?_, fun _ => rfl, ?_, fun _ _ _ => rfl,
      fun _ hp => hp⟩
    · simp [h]
    · intro hf; exact absurd hf (by simp)
  · have hlt : heap.size < heap.capacity := not_le.1 h
    obtain ⟨σ, hσ, hfix⟩ := insert_ok heap x hlt
    refine ⟨_, false, hσ, rfl, rfl, ?_, ?_, fun _ => rfl, ?_, ?_⟩
    · simp [h]
    · intro hf; exact absurd hf (by simp)
    · intro h0 j hj
      show Function.update heap.data heap.size x (σ j) = heap.data j
      rw [hfix j (by omega), Function.update_noteq (by omega)]
    · intro hc hp
      obtain ⟨heap1, h1, h2⟩ := insert_heap heap x hc hlt hp
      rw [hσ] at h1
      have := (Prod.mk.inj (Option.some.inj h1)).1
      rw [this]; exact h2

/-- Every call of `pop` returns; what it returns, in one statement. -/
theorem pop_spec (heap : MinHeap α) :
    ∃ r heap1, pop heap = some (r, heap1) ∧
      heap1.compare = heap.compare ∧ heap1.capacity = heap.capacity ∧
      (r = none ↔ heap.size ≤ 0) ∧
      (r = none → heap1 = heap) ∧
      (r ≠ none → r = some (heap.data 0) ∧ heap1.size = heap.size - 1) ∧
      (heap.size ≤ heap.capacity →
        ∀ j, (j < 0 ∨ heap.capacity ≤ j) → heap1.data j = heap.data j) ∧
      (SignOfTotalPreorder heap.compare → heap_property heap → heap_property heap1) ∧
      (∀ y, occupied heap1 y → occupied heap y) := by
  by_cases h : heap.size ≤ 0
  · refine ⟨none, heap, pop_empty heap h, rfl, rfl, ?_, fun _ => rfl, ?_, fun _ _ _ => rfl,
      fun _ hp => hp, fun _ hy => hy⟩
    · simp [h]
    · intro hf; exact absurd rfl hf
  · have hlt : 0 < heap.size := not_le.1 h
    obtain ⟨σ, hσ, hfix⟩ := pop_ok heap hlt
    refine ⟨_, _, hσ, rfl, rfl, ?_, ?_, fun _ => ⟨rfl, rfl⟩, ?_, ?_, ?_⟩
    · simp [h]
    · intro hf; exact absurd hf (by simp)
    · intro hcap j hj
      show Function.update heap.data 0 _ (σ j) = heap.data j
      rw [hfix j (by omega), Function.update_noteq (by omega)]
    · intro hc hp
      obtain ⟨heap1, h1, h2⟩ := pop_heap heap hc hlt hp
      rw [hσ] at h1
      have := (Prod.mk.inj (Option.some.inj h1)).2
      rw [this]; exact h2
    · rintro y ⟨j, hj0, hjs, hjy⟩
      have hjs1 : j < heap.size - 1 := hjs
      have hin : 0 ≤ σ j ∧ σ j < heap.size - 1 :=
        perm_maps_in σ (fun k => 0 ≤ k ∧ k < heap.size - 1)
          (fun k hk => hfix k (by omega)) ⟨hj0, hjs1⟩
      have hjy1 : Function.update heap.data 0 (heap.data (heap.size - 1)) (σ j) = y := hjy
      by_cases h0 : σ j = 0
      · rw [h0, Function.update_same] at hjy1
        exact ⟨heap.size - 1, by omega, by omega, hjy1⟩
      · rw [Function.update_noteq h0] at hjy1
        exact ⟨σ j, hin.1, by omega, hjy1⟩

theorem call_total (heap : MinHeap α) (c : Call α) :
    ∃ o heap1, call heap c = some (o, heap1) := by
  cases c with
  | insert x =>
    obtain ⟨heap1, full, h, _⟩ := insert_spec heap x
    cases full with
    | true => exact ⟨Outcome.full, heap1, by simp [call, h]⟩
    | false => exact ⟨Outcome.inserted, heap1, by simp [call, h]⟩
  | pop =>
    obtain ⟨r, heap1, h, _⟩ := pop_spec heap
    cases r with
    | none => exact ⟨Outcome.null, heap1, by simp [call, h]⟩
    | some x => exact ⟨Outcome.popped x, heap1, by simp [call, h]⟩

/-- A property of heaps kept by every `insert` and every `pop` holds after every finite
sequence of calls, and the sequence runs to its end. -/
theorem run_invariant (I : MinHeap α → Prop)
    (hins : ∀ heap x heap1 full, I heap → insert heap x = some (heap1, full) → I heap1)
    (hpop : ∀ heap r heap1, I heap → pop heap = some (r, heap1) → I heap1) :
    ∀ (ops : List (Call α)) (heap : MinHeap α), I heap →
      ∃ os heap1, run heap ops = some (os, heap1) ∧ I heap1 := by
  intro ops
  induction ops with
  | nil => intro heap hI; exact ⟨[], heap, rfl, hI⟩
  | cons c cs ih =>
    intro heap hI
    obtain ⟨o, heap1, hcall⟩ := call_total heap c
    have hI1 : I heap1 := by
      cases c with
      | insert x =>
        obtain ⟨heap2, full, h, _⟩ := insert_spec heap x
        cases full <;> simp [call, h] at hcall <;> exact hcall.2 ▸ hins heap x heap2 _ hI h
      | pop =>
        obtain ⟨r, heap2, h, _⟩ := pop_spec heap
        cases r <;> simp [call, h] at hcall <;> exact hcall.2 ▸ hpop heap _ heap2 hI h
    obtain ⟨os, heap2, hrun, hI2⟩ := ih heap1 hI1
    exact ⟨o :: os, heap2, by simp [run, hcall, hrun], hI2⟩

end Operations

/-! ## Heaps that agree on their occupied slots -/

section Agree

variable {α : Type}

theorem smallest_of_agree {h g : MinHeap α} (ha : agree h g) {idx : Int} (hidx : 0 ≤ idx) :
    smallest_of h idx = smallest_of g idx := by
  obtain ⟨hs, _, hcmp, hd⟩ := ha
  have hL : idx < LEFT idx := by rw [LEFT_eq]; omega
  have hR : LEFT idx < RIGHT idx := by rw [LEFT_eq, RIGHT_eq]; omega
  have e1 : (LEFT idx < h.size ∧ h.compare (h.data (LEFT idx)) (h.data idx) < 0) ↔
      (LEFT idx < g.size ∧ g.compare (g.data (LEFT idx)) (g.data idx) < 0) := by
    rw [← hs, ← hcmp]
    constructor
    · rintro ⟨a, b⟩
      rw [← hd _ (by omega) a, ← hd idx hidx (by omega)]; exact ⟨a, b⟩
    · rintro ⟨a, b⟩
      rw [← hd _ (by omega) a, ← hd idx hidx (by omega)] at b; exact ⟨a, b⟩
  have e2 : ∀ s, 0 ≤ s → s < RIGHT idx →
      ((RIGHT idx < h.size ∧ h.compare (h.data (RIGHT idx)) (h.data s) < 0) ↔
        (RIGHT idx < g.size ∧ g.compare (g.data (RIGHT idx)) (g.data s) < 0)) := by
    intro s hs0 hsR
    rw [← hs, ← hcmp]
    constructor
    · rintro ⟨a, b⟩
      rw [← hd _ (by omega) a, ← hd s hs0 (by omega)]; exact ⟨a, b⟩
    · rintro ⟨a, b⟩
      rw [← hd _ (by omega) a, ← hd s hs0 (by omega)] at b; exact ⟨a, b⟩
  unfold smallest_of
  simp only
  rw [if_congr e1 rfl rfl]
  by_cases c1 : LEFT idx < g.size ∧ g.compare (g.data (LEFT idx)) (g.data idx) < 0
  · rw [if_pos c1]
    exact if_congr (e2 _ (by omega) hR) rfl rfl
  · rw [if_neg c1]
    exact if_congr (e2 _ hidx (by omega)) rfl rfl

theorem swap_agree {h g : MinHeap α} (ha : agree h g) {a b : Int}
    (ha0 : 0 ≤ a) (has : a < h.size) (hb0 : 0 ≤ b) (hbs : b < h.size) :
    agree { h with data := swap h.data a b } { g with data := swap g.data a b } := by
  obtain ⟨hs, hcap, hcmp, hd⟩ := ha
  refine ⟨hs, hcap, hcmp, ?_⟩
  intro j hj0 hjs
  have hjs1 : j < h.size := hjs
  show swap h.data a b j = swap g.data a b j
  by_cases hja : j = a
  · rw [hja, swap_left, swap_left]; exact hd b hb0 hbs
  · by_cases hjb : j = b
    · rw [hjb, swap_right, swap_right]; exact hd a ha0 has
    · rw [swap_other _ hja hjb, swap_other _ hja hjb]; exact hd j hj0 hjs1

/-- The sift-down reads and writes occupied slots only: on heaps that agree it returns heaps
that agree. -/
theorem min_heapify_fuel_agree (fuel : Nat) :
    ∀ (h g : MinHeap α) (idx : Int), agree h g → 0 ≤ idx →
      ∀ h1, min_heapify_fuel fuel h idx = some h1 →
        ∃ g1, min_heapify_fuel fuel g idx = some g1 ∧ agree h1 g1 := by
  induction fuel with
  | zero => intro h g idx _ _ h1 he; exact absurd he (by simp [min_heapify_fuel])
  | succ n ih =>
    intro h g idx ha hidx h1 he
    rw [min_heapify_fuel_succ] at he ⊢
    rw [← smallest_of_agree ha hidx]
    by_cases hne : smallest_of h idx ≠ idx
    · rw [if_pos hne] at he ⊢
      obtain ⟨hlt, hsz, _⟩ := smallest_of_bounds h idx hidx hne
      exact ih _ _ _ (swap_agree ha hidx (by omega) (by omega) hsz) (by omega) h1 he
    · rw [if_neg hne] at he ⊢
      exact ⟨g, rfl, (Option.some.inj he) ▸ ha⟩

/-- The bubble-up loop reads and writes occupied slots only. -/
theorem insert_loop_agree (fuel : Nat) :
    ∀ (h g : MinHeap α) (i : Int), agree h g → i < h.size →
      ∀ h1, insert_loop fuel h i = some h1 →
        ∃ g1, insert_loop fuel g i = some g1 ∧ agree h1 g1 := by
  induction fuel with
  | zero => intro h g i _ _ h1 he; exact absurd he (by simp [insert_loop])
  | succ n ih =>
    intro h g i ha his h1 he
    rw [insert_loop_succ] at he ⊢
    have e1 : (i > 0 ∧ h.compare (h.data (PARENT i)) (h.data i) > 0) ↔
        (i > 0 ∧ g.compare (g.data (PARENT i)) (g.data i) > 0) := by
      obtain ⟨_, _, hcmp, hd⟩ := ha
      rw [← hcmp]
      constructor
      · rintro ⟨a, b⟩
        have hp := PARENT_bounds a
        rw [← hd _ hp.1 (by omega), ← hd i (by omega) his]; exact ⟨a, b⟩
      · rintro ⟨a, b⟩
        have hp := PARENT_bounds a
        rw [← hd _ hp.1 (by omega), ← hd i (by omega) his] at b; exact ⟨a, b⟩
    by_cases hcond : i > 0 ∧ h.compare (h.data (PARENT i)) (h.data i) > 0
    · rw [if_pos hcond] at he
      rw [if_pos (e1.1 hcond)]
      have hp := PARENT_bounds hcond.1
      exact ih _ _ _ (swap_agree ha (by omega) his hp.1 (by omega))
        (show PARENT i < h.size by omega) h1 he
    · rw [if_neg hcond] at he
      rw [if_neg (fun hh => hcond (e1.2 hh))]
      exact ⟨g, rfl, (Option.some.inj he) ▸ ha⟩

theorem insert_agree {h g : MinHeap α} (ha : agree h g) (x : α) {h1 : MinHeap α} {full : Bool}
    (he : insert h x = some (h1, full)) :
    ∃ g1, insert g x = some (g1, full) ∧ agree h1 g1 := by
  have ha1 := ha
  obtain ⟨hs, hcap, hcmp, hd⟩ := ha1
  unfold insert at he ⊢
  by_cases hfull : h.size ≥ h.capacity
  · rw [if_pos hfull] at he
    rw [if_pos (by rw [← hs, ← hcap]; exact hfull)]
    obtain ⟨rfl, rfl⟩ := Prod.mk.inj (Option.some.inj he)
    exact ⟨g, rfl, ha⟩
  · rw [if_neg hfull] at he
    rw [if_neg (by rw [← hs, ← hcap]; exact hfull)]
    simp only [add_sub_cancel_right] at he ⊢
    have ha2 : agree
        { h with size := h.size + 1, data := Function.update h.data h.size x }
        { g with size := g.size + 1, data := Function.update g.data g.size x } := by
      refine ⟨by show h.size + 1 = g.size + 1; rw [hs], hcap, hcmp, ?_⟩
      intro j hj0 hjs
      have hjs1 : j < h.size + 1 := hjs
      show Function.update h.data h.size x j = Function.update g.data g.size x j
      rw [← hs]
      by_cases hj : j = h.size
      · rw [hj, Function.update_same, Function.update_same]
      · rw [Function.update_noteq hj, Function.update_noteq hj]
        exact hd j hj0 (by omega)
    cases hl : insert_loop (h.size.toNat + 1)
        { h with size := h.size + 1, data := Function.update h.data h.size x } h.size with
    | none => rw [hl] at he; exact absurd he (by simp)
    | some h3 =>
      rw [hl] at he
      obtain ⟨rfl, rfl⟩ := Prod.mk.inj (Option.some.inj he)
      obtain ⟨g3, hg3, ha3⟩ := insert_loop_agree _ _ _ _ ha2
        (show h.size < h.size + 1 by omega) _ hl
      rw [← hs] at hg3 ⊢
      rw [hg3]
      exact ⟨g3, rfl, ha3⟩

theorem pop_agree {h g : MinHeap α} (ha : agree h g) {r : Option α} {h1 : MinHeap α}
    (he : pop h = some (r, h1)) :
    ∃ g1, pop g = some (r, g1) ∧ agree h1 g1 := by
  have ha1 := ha
  obtain ⟨hs, hcap, hcmp, hd⟩ := ha1
  unfold pop at he ⊢
  by_cases hempty : h.size ≤ 0
  · rw [if_pos hempty] at he
    rw [if_pos (by rw [← hs]; exact hempty)]
    obtain ⟨rfl, rfl⟩ := Prod.mk.inj (Option.some.inj he)
    exact ⟨g, rfl, ha⟩
  · rw [if_neg hempty] at he
    rw [if_neg (by rw [← hs]; exact hempty)]
    simp only at he ⊢
    have hpos : 0 < h.size := not_le.1 hempty
    have ha2 : agree
        { h with size := h.size - 1,
                 data := Function.update h.data 0 (h.data (h.size - 1)) }
        { g with size := g.size - 1,
                 data := Function.update g.data 0 (g.data (g.size - 1)) } := by
      refine ⟨by show h.size - 1 = g.size - 1; rw [hs], hcap, hcmp, ?_⟩
      intro j hj0 hjs
      have hjs1 : j < h.size - 1 := hjs
      show Function.update h.data 0 _ j = Function.update g.data 0 _ j
      rw [← hs]
      by_cases hj : j = 0
      · rw [hj, Function.update_same, Function.update_same]
        exact hd _ (by omega) (by omega)
      · rw [Function.update_noteq hj, Function.update_noteq hj]
        exact hd j hj0 (by omega)
    unfold min_heapify at he ⊢
    simp only at he ⊢
    cases hl : min_heapify_fuel ((h.size - 1).toNat + 1)
        { h with size := h.size - 1,
                 data := Function.update h.data 0 (h.data (h.size - 1)) } 0 with
    | none => rw [hl] at he; exact absurd he (by simp)
    | some h3 =>
      rw [hl] at he
      obtain ⟨rfl, rfl⟩ := Prod.mk.inj (Option.some.inj he)
      obtain ⟨g3, hg3, ha3⟩ := min_heapify_fuel_agree _ _ _ _ ha2 (le_refl 0) _ hl
      rw [← hs] at hg3 ⊢
      rw [hg3, hd 0 (le_refl 0) hpos]
      exact ⟨g3, rfl, ha3⟩

theorem call_agree {h g : MinHeap α} (ha : agree h g) (c : Call α) {o : Outcome α}
    {h1 : MinHeap α} (he : call h c = some (o, h1)) :
    ∃ g1, call g c = some (o, g1) ∧ agree h1 g1 := by
  cases c with
  | insert x =>
    obtain ⟨h2, full, hi, _⟩ := insert_spec h x
    obtain ⟨g2, hg2, ha2⟩ := insert_agree ha x hi
    cases full <;> simp [call, hi] at he <;> obtain ⟨rfl, rfl⟩ := he <;>
      exact ⟨g2, by simp [call, hg2], ha2⟩
  | pop =>
    obtain ⟨r, h2, hi, _⟩ := pop_spec h
    obtain ⟨g2, hg2, ha2⟩ := pop_agree ha hi
    cases r <;> simp [call, hi] at he <;> obtain ⟨rfl, rfl⟩ := he <;>
      exact ⟨g2, by simp [call, hg2], ha2⟩

/-- Heaps that agree give the same outcomes on every sequence of calls, and agree after it. -/
theorem run_agree (ops : List (Call α)) :
    ∀ (h g : MinHeap α), agree h g →
      ∃ os h1 g1, run h ops = some (os, h1) ∧ run g ops = some (os, g1) ∧ agree h1 g1 := by
  induction ops with
  | nil => intro h g ha; exact ⟨[], h, g, rfl, rfl, ha⟩
  | cons c cs ih =>
    intro h g ha
    obtain ⟨o, h1, hcall⟩ := call_total h c
    obtain ⟨g1, hg1, ha1⟩ := call_agree ha c hcall
    obtain ⟨os, h2, g2, hr1, hr2, ha2⟩ := ih h1 g1 ha1
    exact ⟨o :: os, h2, g2, by simp [run, hcall, hr1], by simp [run, hg1, hr2], ha2⟩

theorem insert_all_agree (xs : List α) :
    ∀ (h g : MinHeap α), agree h g →
      ∀ h1 fulls, insert_all h xs = some (h1, fulls) →
        ∃ g1, insert_all g xs = some (g1, fulls) ∧ agree h1 g1 := by
  induction xs with
  | nil =>
    intro h g ha h1 fulls he
    simp only [insert_all] at he
    obtain ⟨rfl, rfl⟩ := Prod.mk.inj (Option.some.inj he)
    exact ⟨g, rfl, ha⟩
  | cons x xs ih =>
    intro h g ha h1 fulls he
    obtain ⟨h2, full, hi, _⟩ := insert_spec h x
    obtain ⟨g2, hg2, ha2⟩ := insert_agree ha x hi
    simp only [insert_all, hi] at he
    cases hr : insert_all h2 xs with
    | none => rw [hr] at he; exact absurd he (by simp)
    | some p =>
      obtain ⟨h3, fs⟩ := p
      rw [hr] at he
      obtain ⟨rfl, rfl⟩ := Prod.mk.inj (Option.some.inj he)
      obtain ⟨g3, hg3, ha3⟩ := ih h2 g2 ha2 h3 fs hr
      exact ⟨g3, by simp [insert_all, hg2, hg3], ha3⟩

theorem pop_all_fuel_agree (fuel : Nat) :
    ∀ (h g : MinHeap α), agree h g →
      ∀ out h1, pop_all_fuel fuel h = some (out, h1) →
        ∃ g1, pop_all_fuel fuel g = some (out, g1) ∧ agree h1 g1 := by
  induction fuel with
  | zero => intro h g _ out h1 he; exact absurd he (by simp [pop_all_fuel])
  | succ n ih =>
    intro h g ha out h1 he
    obtain ⟨r, h2, hp, _⟩ := pop_spec h
    obtain ⟨g2, hg2, ha2⟩ := pop_agree ha hp
    cases r with
    | none =>
      simp only [pop_all_fuel, hp] at he
      obtain ⟨rfl, rfl⟩ := Prod.mk.inj (Option.some.inj he)
      exact ⟨g2, by simp [pop_all_fuel, hg2], ha2⟩
    | some y =>
      simp only [pop_all_fuel, hp] at he
      cases hr : pop_all_fuel n h2 with
      | none => rw [hr] at he; exact absurd he (by simp)
      | some p =>
        obtain ⟨ys, h3⟩ := p
        rw [hr] at he
        obtain ⟨rfl, rfl⟩ := Prod.mk.inj (Option.some.inj he)
        obtain ⟨g3, hg3, ha3⟩ := ih h2 g2 ha2 ys h3 hr
        exact ⟨g3, by simp [pop_all_fuel, hg2, hg3], ha3⟩

/-- The scenario of `main` does not depend on the initial content of the buffer nor on the
element size. -/
theorem insert_then_pop_all_agree (mem1 mem2 : Int → α) (es1 es2 : Nat) (capacity : Int)
    (cmp : α → α → Int) (xs : List α) (out : List α)
    (he : insert_then_pop_all mem1 es1 capacity cmp xs = some out) :
    insert_then_pop_all mem2 es2 capacity cmp xs = some out := by
  unfold insert_then_pop_all create_min_heap at he ⊢
  simp only at he ⊢
  have ha0 : agree
      ({ data := mem1, elem_size := es1, capacity := capacity, size := 0, compare := cmp } :
        MinHeap α)
      { data := mem2, elem_size := es2, capacity := capacity, size := 0, compare := cmp } :=
    ⟨rfl, rfl, rfl, fun j hj0 hjs => by
      have hjs1 : j < 0 := hjs
      omega⟩
  cases hi : insert_all
      ({ data := mem1, elem_size := es1, capacity := capacity, size := 0, compare := cmp } :
        MinHeap α) xs with
  | none => rw [hi] at he; exact absurd he (by simp)
  | some p =>
    obtain ⟨h1, fulls⟩ := p
    rw [hi] at he
    simp only at he
    obtain ⟨g1, hg1, ha1⟩ := insert_all_agree xs _ _ ha0 h1 fulls hi
    rw [hg1]
    simp only
    unfold pop_all at he ⊢
    cases hq : pop_all_fuel (h1.size.toNat + 1) h1 with
    | none => rw [hq] at he; exact absurd he (by simp)
    | some q =>
      obtain ⟨ys, h2⟩ := q
      rw [hq] at he
      simp only at he
      obtain ⟨g2, hg2, _⟩ := pop_all_fuel_agree _ _ _ ha1 ys h2 hq
      rw [← ha1.1, hg2]
      exact he

end Agree

/-! ## Inserting a list and popping until `NULL` -/

section Scenario

variable {α : Type}

/-- Inserting a list that fits below the capacity stores every element and keeps the heap
property. -/
theorem insert_all_spec (xs : List α) :
    ∀ (heap : MinHeap α), SignOfTotalPreorder heap.compare → heap_property heap →
      heap.size + xs.length ≤ heap.capacity →
      ∃ heap1 fulls, insert_all heap xs = some (heap1, fulls) ∧
        heap1.size = heap.size + xs.length ∧ heap_property heap1 ∧
        heap1.compare = heap.compare := by
  induction xs with
  | nil =>
    intro heap _ hp _
    exact ⟨heap, [], rfl, by simp, hp, rfl⟩
  | cons x xs ih =>
    intro heap hc hp hlen
    simp only [List.length_cons] at hlen
    push_cast at hlen
    obtain ⟨h1, full, hi, e1, e2, e3, _, e5, _, e7⟩ := insert_spec heap x
    have hnf : full = false := by
      cases full with
      | false => rfl
      | true =>
        have := e3.1 rfl
        omega
    have hsz := e5 hnf
    obtain ⟨h2, fulls, hr, s2, p2, c2⟩ := ih h1 (e1 ▸ hc) (e7 hc hp) (by rw [hsz, e2]; omega)
    refine ⟨h2, full :: fulls, by simp [insert_all, hi, hr], ?_, p2, c2.trans e1⟩
    rw [s2, hsz]
    simp only [List.length_cons]
    push_cast
    ring

/-- Popping a heap that has the heap property until `pop` returns `NULL` gives `size`
elements, each not strictly above the next, all of them taken from the occupied slots. -/
theorem pop_all_fuel_sorted (cmp : α → α → Int) (hc : SignOfTotalPreorder cmp) (fuel : Nat) :
    ∀ (heap : MinHeap α), heap.compare = cmp → heap_property heap → 0 ≤ heap.size →
      heap.size < fuel →
      ∃ out heap1, pop_all_fuel fuel heap = some (out, heap1) ∧
        (out.length : Int) = heap.size ∧
        List.Chain' (fun a b => cmp a b ≤ 0) out ∧
        ∀ y ∈ out, occupied heap y := by
  induction fuel with
  | zero => intro heap _ _ h0 hf; exact absurd hf (by push_cast; omega)
  | succ n ih =>
    intro heap hcmp hp h0 hf
    push_cast at hf
    obtain ⟨r, h1, hpop, e1, _, e3, e4, e5, _, e7, e8⟩ := pop_spec heap
    cases r with
    | none =>
      have hz : heap.size ≤ 0 := e3.1 rfl
      refine ⟨[], h1, by simp [pop_all_fuel, hpop], ?_, List.chain'_nil, ?_⟩
      · simp only [List.length_nil]; push_cast; omega
      · intro y hy; exact absurd hy (List.not_mem_nil y)
    | some x =>
      obtain ⟨hx, hsz⟩ := e5 (by simp)
      have hpos : 0 < heap.size := by
        by_contra hn
        have := e3.2 (not_lt.1 hn)
        exact absurd this (by simp)
      have hx0 : x = heap.data 0 := (Option.some.inj hx)
      have hc1 : SignOfTotalPreorder heap.compare := hcmp ▸ hc
      obtain ⟨out, h2, hr, hl, hch, hocc⟩ := ih h1 (e1.trans hcmp) (e7 hc1 hp)
        (by omega) (by omega)
      refine ⟨x :: out, h2, by simp [pop_all_fuel, hpop, hr], ?_, ?_, ?_⟩
      · simp only [List.length_cons]; push_cast; omega
      · rw [List.chain'_cons']
        refine ⟨?_, hch⟩
        intro y hy
        obtain ⟨j, hj0, hjs, hjy⟩ := e8 y (hocc y (List.mem_of_mem_head? hy))
        rw [hx0, ← hjy, ← hcmp]
        exact root_le_all heap hc1 hp j hj0 hjs
      · intro y hy
        rcases List.mem_cons.1 hy with h | h
        · exact ⟨0, le_refl 0, hpos, by rw [h, hx0]⟩
        · exact e8 y (hocc y h)

end Scenario

/-! ## The specification -/

section Claims

variable {α : Type}

/-- C4 (capacity bound).  For every heap with `size == capacity` and every element `x`,
`insert(heap, x)` reports a full heap and returns the heap unchanged: `size`, `capacity`,
the comparator and every slot of the buffer are the same as before the call. -/
theorem insert_at_capacity (heap : MinHeap α) (x : α) (hfull : heap.size = heap.capacity) :
    insert heap x = some (heap, true) :=
  insert_full heap x (le_of_eq hfull.symm)

theorem insert_at_capacity_witness :
    insert ({ data := fun i => i, elem_size := 4, capacity := 3, size := 3,
              compare := compare_int } : MinHeap Int) 7
      = some ({ data := fun i => i, elem_size := 4, capacity := 3, size := 3,
                compare := compare_int }, true) :=
  insert_at_capacity _ 7 rfl

/-- C5 (empty extraction).  On a heap with `size >= 0`, `pop` returns `NULL` if and only if
`size` is `0` at the call, and in that case the heap (its `size` and every buffer slot) is
unchanged; in particular `pop` on a freshly created heap returns `NULL`. -/
theorem pop_null_iff_empty (heap : MinHeap α) (h0 : 0 ≤ heap.size) :
    (∃ r heap1, pop heap = some (r, heap1) ∧ (r = none ↔ heap.size = 0) ∧
      (heap.size = 0 → heap1 = heap)) ∧
    (∀ (mem : Int → α) (elem_size : Nat) (capacity : Int) (cmp : α → α → Int),
      ∃ fresh, create_min_heap mem elem_size capacity cmp = some fresh ∧
        pop fresh = some (none, fresh)) := by
  constructor
  · obtain ⟨r, heap1, heq, _, _, e1, e2, _⟩ := pop_spec heap
    refine ⟨r, heap1, heq, ?_, ?_⟩
    · rw [e1]; constructor <;> intro h <;> omega
    · intro h; exact e2 (e1.2 (le_of_eq h))
  · intro mem elem_size capacity cmp
    exact ⟨_, rfl, pop_empty _ (le_refl 0)⟩

theorem pop_null_iff_empty_witness :
    (∃ r heap1, pop ({ data := fun i => i, elem_size := 4, capacity := 5, size := 2,
                       compare := compare_int } : MinHeap Int) = some (r, heap1) ∧
      (r = none ↔ (2 : Int) = 0) ∧
      ((2 : Int) = 0 → heap1 = { data := fun i => i, elem_size := 4, capacity := 5, size := 2,
                                 compare := compare_int })) ∧
    (∀ (mem : Int → Int) (elem_size : Nat) (capacity : Int) (cmp : Int → Int → Int),
      ∃ fresh, create_min_heap mem elem_size capacity cmp = some fresh ∧
        pop fresh = some (none, fresh)) :=
  pop_null_iff_empty
    ({ data := fun i => i, elem_size := 4, capacity := 5, size := 2, compare := compare_int } :
      MinHeap Int)
    (by decide)

/-- C7, as stated, fails: `create_min_heap` has no test of `capacity` and returns a heap,
not `NULL`, for the capacities `0` and `-3`. -/
theorem create_min_heap_accepts_nonpositive_capacity :
    ((0 : Int) ≤ 0 ∧ create_min_heap (fun _ => (0 : Int)) 4 0 compare_int ≠ none) ∧
    ((-3 : Int) ≤ 0 ∧ create_min_heap (fun _ => (0 : Int)) 4 (-3) compare_int ≠ none) :=
  ⟨⟨le_refl 0, by simp [create_min_heap]⟩, ⟨by decide, by simp [create_min_heap]⟩⟩

/-- C7 (amended).  For every capacity `<= 0`, `create_min_heap` does not fail: it returns a
heap with `size` 0 and the given capacity and comparator.  On that heap every `insert`
reports a full heap and every `pop` returns `NULL`, both leaving the heap unchanged. -/
theorem create_min_heap_nonpositive_capacity (mem : Int → α) (elem_size : Nat)
    (capacity : Int) (cmp : α → α → Int) (hcap : capacity ≤ 0) :
    ∃ heap, create_min_heap mem elem_size capacity cmp = some heap ∧
      heap.size = 0 ∧ heap.capacity = capacity ∧ heap.compare = cmp ∧
      (∀ x, insert heap x = some (heap, true)) ∧ pop heap = some (none, heap) :=
  ⟨_, rfl, rfl, rfl, rfl, fun x => insert_full _ x hcap, pop_empty _ (le_refl 0)⟩

theorem create_min_heap_nonpositive_capacity_witness :
    (-3 : Int) ≤ 0 ∧
    ∃ heap, create_min_heap (fun _ => (0 : Int)) 4 (-3) compare_int = some heap ∧
      heap.size = 0 ∧ heap.capacity = -3 ∧ heap.compare = compare_int ∧
      (∀ x, insert heap x = some (heap, true)) ∧ pop heap = some (none, heap) :=
  ⟨by decide, create_min_heap_nonpositive_capacity (fun _ => (0 : Int)) 4 (-3) compare_int
    (by decide)⟩

end Claims

/-! ## Single calls on small heaps -/

section SmallSteps

variable {α : Type}

/-- The bubble-up loop started at the root stops at once. -/
theorem insert_loop_root (fuel : Nat) (heap : MinHeap α) :
    insert_loop (fuel + 1) heap 0 = some heap := by
  rw [insert_loop_succ, if_neg (fun h => absurd h.1 (lt_irrefl 0))]

/-- When no occupied child compares strictly below the element at `idx`, the index
`smallest` stays `idx`. -/
theorem smallest_of_eq_self (heap : MinHeap α) (idx : Int)
    (hl : LEFT idx < heap.size →
      ¬ heap.compare (heap.data (LEFT idx)) (heap.data idx) < 0)
    (hr : RIGHT idx < heap.size →
      ¬ heap.compare (heap.data (RIGHT idx)) (heap.data idx) < 0) :
    smallest_of heap idx = idx := by
  have h1 : ¬ (LEFT idx < heap.size ∧
      heap.compare (heap.data (LEFT idx)) (heap.data idx) < 0) := fun h => hl h.1 h.2
  have h2 : ¬ (RIGHT idx < heap.size ∧
      heap.compare (heap.data (RIGHT idx)) (heap.data idx) < 0) := fun h => hr h.1 h.2
  unfold smallest_of
  simp only
  rw [if_neg h1, if_neg h2]

/-- In that case `min_heapify` returns the heap as it is. -/
theorem min_heapify_fuel_stop (fuel : Nat) (heap : MinHeap α) (idx : Int)
    (h : smallest_of heap idx = idx) :
    min_heapify_fuel (fuel + 1) heap idx = some heap := by
  rw [min_heapify_fuel_succ, if_neg (not_not.2 h)]

/-- A call of `pop` on a heap with one element. -/
theorem pop_single (heap : MinHeap α) (hs : heap.size = 1) :
    pop heap = some (some (heap.data 0),
      { heap with size := heap.size - 1,
                  data := Function.update heap.data 0 (heap.data (heap.size - 1)) }) := by
  unfold pop
  rw [if_neg (by omega)]
  simp only
  unfold min_heapify
  simp only
  rw [min_heapify_fuel_stop _ _ _ (smallest_of_eq_self _ _
    (fun h => by
      have h1 : LEFT 0 < heap.size - 1 := h
      rw [LEFT_eq] at h1; omega)
    (fun h => by
      have h1 : RIGHT 0 < heap.size - 1 := h
      rw [RIGHT_eq] at h1; omega))]

end SmallSteps

/-! ## More on sift-down -/

section SiftDown

variable {α : Type}

/-- More fuel does not change the result of `min_heapify`. -/
theorem min_heapify_fuel_mono (fuel : Nat) :
    ∀ (heap : MinHeap α) (idx : Int) (heap1 : MinHeap α),
      min_heapify_fuel fuel heap idx = some heap1 →
      ∀ fuel1, fuel ≤ fuel1 → min_heapify_fuel fuel1 heap idx = some heap1 := by
  induction fuel with
  | zero => intro heap idx heap1 h; exact absurd h (by simp [min_heapify_fuel])
  | succ n ih =>
    intro heap idx heap1 h fuel1 hle
    obtain ⟨k, rfl⟩ : ∃ k, fuel1 = k + 1 := ⟨fuel1 - 1, by omega⟩
    rw [min_heapify_fuel_succ] at h ⊢
    by_cases hne : smallest_of heap idx ≠ idx
    · rw [if_pos hne] at h ⊢
      exact ih _ _ _ h k (by omega)
    · rw [if_neg hne] at h ⊢
      exact h

/-- The characterisation of the index `smallest`. -/
theorem smallest_of_iff (heap : MinHeap α) (idx : Int) (hidx : 0 ≤ idx) :
    (smallest_of heap idx = idx ↔
      ¬ (LEFT idx < heap.size ∧ heap.compare (heap.data (LEFT idx)) (heap.data idx) < 0) ∧
      ¬ (RIGHT idx < heap.size ∧
          heap.compare (heap.data (RIGHT idx)) (heap.data idx) < 0)) ∧
    (smallest_of heap idx = LEFT idx ↔
      (LEFT idx < heap.size ∧ heap.compare (heap.data (LEFT idx)) (heap.data idx) < 0) ∧
      ¬ (RIGHT idx < heap.size ∧
          heap.compare (heap.data (RIGHT idx)) (heap.data (LEFT idx)) < 0)) ∧
    (smallest_of heap idx = RIGHT idx ↔
      RIGHT idx < heap.size ∧
      (((LEFT idx < heap.size ∧ heap.compare (heap.data (LEFT idx)) (heap.data idx) < 0) ∧
          heap.compare (heap.data (RIGHT idx)) (heap.data (LEFT idx)) < 0) ∨
       (¬ (LEFT idx < heap.size ∧ heap.compare (heap.data (LEFT idx)) (heap.data idx) < 0) ∧
          heap.compare (heap.data (RIGHT idx)) (heap.data idx) < 0))) := by
  have hL : LEFT idx ≠ idx := by rw [LEFT_eq]; omega
  have hR : RIGHT idx ≠ idx := by rw [RIGHT_eq]; omega
  have hLR : LEFT idx ≠ RIGHT idx := by rw [LEFT_eq, RIGHT_eq]; omega
  unfold smallest_of
  simp only
  by_cases c1 : LEFT idx < heap.size ∧ heap.compare (heap.data (LEFT idx)) (heap.data idx) < 0
  · rw [if_pos c1]
    by_cases c2 : RIGHT idx < heap.size ∧
        heap.compare (heap.data (RIGHT idx)) (heap.data (LEFT idx)) < 0
    · rw [if_pos c2]
      refine ⟨⟨fun h => absurd h hR, fun h => absurd c1 h.1⟩,
        ⟨fun h => absurd h hLR.symm, fun h => absurd c2 h.2⟩,
        ⟨fun _ => ⟨c2.1, Or.inl ⟨c1, c2.2⟩⟩, fun _ => rfl⟩⟩
    · rw [if_neg c2]
      refine ⟨⟨fun h => absurd h hL, fun h => absurd c1 h.1⟩,
        ⟨fun _ => ⟨c1, c2⟩, fun _ => rfl⟩,
        ⟨fun h => absurd h hLR, ?_⟩⟩
      rintro ⟨hr, ⟨_, h⟩ | ⟨h, _⟩⟩
      · exact absurd ⟨hr, h⟩ c2
      · exact absurd c1 h
  · rw [if_neg c1]
    by_cases c2 : RIGHT idx < heap.size ∧
        heap.compare (heap.data (RIGHT idx)) (heap.data idx) < 0
    · rw [if_pos c2]
      refine ⟨⟨fun h => absurd h hR, fun h => absurd c2 h.2⟩,
        ⟨fun h => absurd h hLR.symm, fun h => absurd h.1 c1⟩,
        ⟨fun _ => ⟨c2.1, Or.inr ⟨c1, c2.2⟩⟩, fun _ => rfl⟩⟩
    · rw [if_neg c2]
      refine ⟨⟨fun _ => ⟨c1, c2⟩, fun _ => rfl⟩,
        ⟨fun h => absurd h.symm hL, fun h => absurd h.1 c1⟩,
        ⟨fun h => absurd h.symm hR, ?_⟩⟩
      rintro ⟨hr, ⟨h, _⟩ | ⟨_, h⟩⟩
      · exact absurd h c1
      · exact absurd ⟨hr, h⟩ c2

/-- One level of `min_heapify` that swaps: the element of `smallest` moves to `idx`, the
element of `idx` ends in the subtree of `smallest`, and nothing else outside that subtree
changes. -/
theorem min_heapify_swapped (heap : MinHeap α) (idx : Int) (hidx : 0 ≤ idx)
    (hne : smallest_of heap idx ≠ idx) :
    ∃ heap1, min_heapify heap idx = some heap1 ∧
      heap1.data idx = heap.data (smallest_of heap idx) ∧
      (∀ j, ¬ InSubtree (smallest_of heap idx) j → j ≠ idx → heap1.data j = heap.data j) ∧
      ∃ j, InSubtree (smallest_of heap idx) j ∧ heap1.data j = heap.data idx := by
  obtain ⟨hlt, hsz, _⟩ := smallest_of_bounds heap idx hidx hne
  have hm0 : 0 ≤ smallest_of heap idx := by omega
  obtain ⟨σ, hσ, hfix⟩ := min_heapify_fuel_perm heap.size.toNat
    { heap with data := swap heap.data idx (smallest_of heap idx) } (smallest_of heap idx)
    hm0 (by show heap.size - smallest_of heap idx < _; omega) (by omega)
  have hidx_out : ¬ InSubtree (smallest_of heap idx) idx := fun h => by
    have := h.le hm0; omega
  refine ⟨{ heap with data := swap heap.data idx (smallest_of heap idx) ∘ σ }, ?_, ?_, ?_, ?_⟩
  · unfold min_heapify
    rw [min_heapify_fuel_succ, if_pos hne]
    exact hσ
  · show swap heap.data idx (smallest_of heap idx) (σ idx) = _
    rw [hfix idx (fun h => hidx_out h.1), swap_left]
  · intro j hj hji
    show swap heap.data idx (smallest_of heap idx) (σ j) = _
    rw [hfix j (fun h => hj h.1), swap_other _ hji (fun h => hj (h ▸ InSubtree.root))]
  · refine ⟨σ.symm (smallest_of heap idx), ?_, ?_⟩
    · by_contra hn
      have h1 : σ (σ.symm (smallest_of heap idx)) = σ.symm (smallest_of heap idx) :=
        hfix _ (fun h => hn h.1)
      rw [Equiv.apply_symm_apply] at h1
      rw [← h1] at hn
      exact hn InSubtree.root
    · show swap heap.data idx (smallest_of heap idx)
        (σ (σ.symm (smallest_of heap idx))) = _
      rw [Equiv.apply_symm_apply, swap_right]

/-- The recursive calls of `min_heapify` go to strictly increasing indices below `size`. -/
theorem min_heapify_calls_chain (fuel : Nat) :
    ∀ (heap : MinHeap α) (idx : Int), 0 ≤ idx → heap.size - idx < fuel → 0 < fuel →
      ∃ calls, min_heapify_calls fuel heap idx = some calls ∧
        List.Chain (fun a b => a < b) idx calls ∧ ∀ m ∈ calls, m < heap.size := by
  induction fuel with
  | zero => intro heap idx _ _ h0; exact absurd h0 (lt_irrefl 0)
  | succ n ih =>
    intro heap idx hidx hfuel _
    by_cases hne : smallest_of heap idx ≠ idx
    · obtain ⟨hlt, hsz, _⟩ := smallest_of_bounds heap idx hidx hne
      obtain ⟨calls, hc, hchain, hall⟩ := ih
        { heap with data := swap heap.data idx (smallest_of heap idx) } (smallest_of heap idx)
        (by omega)
        (by show heap.size - smallest_of heap idx < (n : Int); push_cast at hfuel; omega)
        (by push_cast at hfuel; omega)
      refine ⟨smallest_of heap idx :: calls, ?_, List.Chain.cons hlt hchain, ?_⟩
      · simp only [min_heapify_calls, if_pos hne, hc]
      · intro m hm
        rcases List.mem_cons.1 hm with h | h
        · rw [h]; exact hsz
        · exact hall m h
    · exact ⟨[], by simp only [min_heapify_calls, if_neg hne], List.Chain.nil,
        fun m hm => absurd hm (List.not_mem_nil m)⟩

end SiftDown

/-! ## The path of sift-up and the multiset of the elements -/

section Contents

variable {α : Type}

/-- The bubble-up loop started at `i` changes only slots whose subtree holds `i`, that is
`i` and its ancestors. -/
theorem insert_loop_path (fuel : Nat) :
    ∀ (heap : MinHeap α) (i : Int) (heap1 : MinHeap α),
      insert_loop fuel heap i = some heap1 →
      ∀ j, ¬ InSubtree j i → heap1.data j = heap.data j := by
  induction fuel with
  | zero => intro heap i heap1 h; exact absurd h (by simp [insert_loop])
  | succ n ih =>
    intro heap i heap1 h j hj
    rw [insert_loop_succ] at h
    by_cases hcond : i > 0 ∧ heap.compare (heap.data (PARENT i)) (heap.data i) > 0
    · rw [if_pos hcond] at h
      have hpi : InSubtree (PARENT i) i := by
        rcases child_of_parent (rfl : PARENT i = PARENT i) with hc | hc
        · have := InSubtree.left (InSubtree.root : InSubtree (PARENT i) (PARENT i))
          rwa [← hc] at this
        · have := InSubtree.right (InSubtree.root : InSubtree (PARENT i) (PARENT i))
          rwa [← hc] at this
      have hjp : ¬ InSubtree j (PARENT i) := fun hh => hj (hh.trans hpi)
      have h1 := ih _ _ _ h j hjp
      rw [h1]
      show swap heap.data i (PARENT i) j = heap.data j
      exact swap_other _ (fun e => hj (e ▸ InSubtree.root)) (fun e => hj (e ▸ hpi))
    · rw [if_neg hcond] at h
      rw [← Option.some.inj h]

/-- Reading a buffer through a permutation that moves only slots of `[0, n)` does not change
the multiset of the elements of `[0, n)`. -/
theorem map_comp_perm_Ico (f : Int → α) (σ : Equiv.Perm Int) (n : Int)
    (hfix : ∀ j, (j < 0 ∨ n ≤ j) → σ j = j) :
    (Finset.Ico 0 n).val.map (f ∘ σ) = (Finset.Ico 0 n).val.map f := by
  have h1 : (Finset.Ico (0 : Int) n).map (σ : Int ↪ Int) = Finset.Ico 0 n := by
    apply Finset.map_perm
    intro a ha
    simp only [Set.mem_setOf_eq] at ha
    simp only [Finset.coe_Ico, Set.mem_Ico]
    by_contra hn
    exact ha (hfix a (by omega))
  have h2 : ((Finset.Ico (0 : Int) n).map (σ : Int ↪ Int)).val
      = (Finset.Ico (0 : Int) n).val.map σ := rfl
  rw [← Multiset.map_map, ← h2, h1]

theorem Ico_succ_val (n : Int) (hn : 0 ≤ n) :
    (Finset.Ico 0 (n + 1)).val = n ::ₘ (Finset.Ico 0 n).val := by
  have h : Finset.Ico 0 (n + 1) = Insert.insert n (Finset.Ico 0 n) := by
    ext a
    simp only [Finset.mem_Ico, Finset.mem_insert]
    omega
  rw [h, Finset.insert_val_of_not_mem (by simp)]

theorem Ico_zero_val (n : Int) (hn : 0 < n) :
    (Finset.Ico 0 n).val = 0 ::ₘ (Finset.Ico 1 n).val := by
  have h : Finset.Ico 0 n = Insert.insert 0 (Finset.Ico 1 n) := by
    ext a
    simp only [Finset.mem_Ico, Finset.mem_insert]
    omega
  rw [h, Finset.insert_val_of_not_mem (by simp)]

/-- A permutation of the occupied slots keeps the multiset of the elements. -/
theorem contents_comp_perm (heap : MinHeap α) (σ : Equiv.Perm Int)
    (hfix : ∀ j, (j < 0 ∨ heap.size ≤ j) → σ j = j) :
    contents { heap with data := heap.data ∘ σ } = contents heap :=
  map_comp_perm_Ico heap.data σ heap.size hfix

/-- A successful `insert` adds one copy of the element to the multiset. -/
theorem insert_contents (heap : MinHeap α) (x : α) (h0 : 0 ≤ heap.size)
    (hlt : heap.size < heap.capacity) :
    ∃ heap1, insert heap x = some (heap1, false) ∧ contents heap1 = x ::ₘ contents heap := by
  obtain ⟨σ, hσ, hfix⟩ := insert_ok heap x hlt
  refine ⟨_, hσ, ?_⟩
  show (Finset.Ico 0 (heap.size + 1)).val.map (Function.update heap.data heap.size x ∘ σ) = _
  rw [map_comp_perm_Ico _ σ _ (fun j hj => hfix j (by omega)), Ico_succ_val _ h0,
    Multiset.map_cons, Function.update_same]
  congr 1
  apply Multiset.map_congr rfl
  intro j hj
  have : j ∈ Finset.Ico 0 heap.size := hj
  rw [Finset.mem_Ico] at this
  exact Function.update_noteq (by omega) _ _

/-- A successful `pop` takes one copy of the returned element from the multiset. -/
theorem pop_contents (heap : MinHeap α) (hpos : 0 < heap.size) :
    ∃ heap1, pop heap = some (some (heap.data 0), heap1) ∧
      contents heap = heap.data 0 ::ₘ contents heap1 := by
  obtain ⟨σ, hσ, hfix⟩ := pop_ok heap hpos
  refine ⟨_, hσ, ?_⟩
  show (Finset.Ico 0 heap.size).val.map heap.data = heap.data 0 ::ₘ
    (Finset.Ico 0 (heap.size - 1)).val.map
      (Function.update heap.data 0 (heap.data (heap.size - 1)) ∘ σ)
  rw [map_comp_perm_Ico _ σ _ (fun j hj => hfix j (by omega))]
  obtain ⟨n, hn⟩ : ∃ n, heap.size = n + 1 := ⟨heap.size - 1, by omega⟩
  rw [hn, add_sub_cancel_right, Ico_succ_val n (by omega), Multiset.map_cons]
  by_cases hz : n = 0
  · rw [hz]; simp
  · rw [Ico_zero_val n (by omega), Multiset.map_cons, Multiset.map_cons, Function.update_same,
      Multiset.cons_swap]
    congr 2
    apply Multiset.map_congr rfl
    intro j hj
    have : j ∈ Finset.Ico 1 n := hj
    rw [Finset.mem_Ico] at this
    exact (Function.update_noteq (by omega) _ _).symm

end Contents

/-! ## Bulk build -/

section Build

variable {α : Type}

theorem build_loop_succ (fuel : Nat) (heap : MinHeap α) (i : Int) :
    build_loop (fuel + 1) heap i =
      if i ≥ 0 then
        match min_heapify heap i with
        | none => none
        | some heap1 => build_loop fuel heap1 (i - 1)
      else some heap := rfl

/-- The indices `i, i - 1, ..., 0`, in decreasing order. -/
theorem range_reverse_succ (n : Nat) :
    (List.range (n + 1)).reverse.map (fun k : Nat => (k : Int))
      = (n : Int) :: (List.range n).reverse.map (fun k : Nat => (k : Int)) := by
  rw [List.range_succ, List.reverse_append]
  rfl

/-- With enough fuel the loop of `build_min_heap` started at `i` is the run of `min_heapify`
over `i, i - 1, ..., 0`. -/
theorem build_loop_eq_each (fuel : Nat) :
    ∀ (heap : MinHeap α) (n : Nat), n < fuel →
      build_loop fuel heap ((n : Int) - 1) =
        min_heapify_each heap ((List.range n).reverse.map (fun k : Nat => (k : Int))) := by
  induction fuel with
  | zero => intro heap n h; exact absurd h (Nat.not_lt_zero n)
  | succ f ih =>
    intro heap n hn
    rw [build_loop_succ]
    cases n with
    | zero =>
      have hneg : ¬ (((0 : Nat) : Int) - 1 ≥ 0) := by norm_num
      rw [if_neg hneg]
      rfl
    | succ m =>
      have hpos : ((m + 1 : Nat) : Int) - 1 ≥ 0 := by push_cast; omega
      rw [if_pos hpos, range_reverse_succ]
      have e : ((m + 1 : Nat) : Int) - 1 = (m : Int) := by push_cast; omega
      rw [e]
      simp only [min_heapify_each]
      cases min_heapify heap (m : Int) with
      | none => rfl
      | some heap1 => exact ih heap1 m (by omega)

/-- A sift-down at `i` keeps the heap property of every subtree rooted above `i`. -/
theorem subtree_heap_after (heap : MinHeap α) (i : Int) (hi : 0 ≤ i) (σ : Equiv.Perm Int)
    (hfix : ∀ j, ¬ (InSubtree i j ∧ j < heap.size) → σ j = j)
    (hsub : subtree_heap { heap with data := heap.data ∘ σ } i)
    (k : Int) (hk : i < k) (hold : subtree_heap heap k) :
    subtree_heap { heap with data := heap.data ∘ σ } k := by
  intro j hj hjk hjs
  have hk0 : 0 ≤ k := by omega
  have hkj := hj.le hk0
  by_cases hik : InSubtree i k
  · exact hsub j (hik.trans hj) (by omega) hjs
  · have hout : ∀ a, InSubtree k a → ¬ InSubtree i a := by
      intro a ha hia
      rcases hia.comparable ha with h | h
      · exact hik h
      · have := h.le hk0
        omega
    rcases hj.inv with h | ⟨hp, _⟩
    · exact absurd h hjk
    · show heap.compare (heap.data (σ (PARENT j))) (heap.data (σ j)) ≤ 0
      rw [hfix j (fun h => hout j hj h.1), hfix _ (fun h => hout _ hp h.1)]
      exact hold j hj hjk hjs

/-- The loop of `build_min_heap`, started at `i` when every subtree rooted above `i` has the
heap property, returns a heap with the heap property whose buffer is the old one rearranged
by a permutation of the occupied slots. -/
theorem build_loop_heap (fuel : Nat) :
    ∀ (heap : MinHeap α) (i : Int), SignOfTotalPreorder heap.compare → -1 ≤ i →
      i + 1 < fuel →
      (∀ k, i < k → 0 ≤ k → subtree_heap heap k) →
      ∃ σ : Equiv.Perm Int,
        build_loop fuel heap i = some { heap with data := heap.data ∘ σ } ∧
        (∀ j, (j < 0 ∨ heap.size ≤ j) → σ j = j) ∧
        heap_property { heap with data := heap.data ∘ σ } := by
  induction fuel with
  | zero => intro heap i _ h1 h2; exact absurd h2 (by push_cast; omega)
  | succ n ih =>
    intro heap i hc hi hfuel hinv
    rw [build_loop_succ]
    by_cases h0 : i ≥ 0
    · rw [if_pos h0]
      have hLi : i < LEFT i := by rw [LEFT_eq]; omega
      have hRi : i < RIGHT i := by rw [RIGHT_eq]; omega
      obtain ⟨σ1, hσ1, hfix1⟩ := min_heapify_fuel_perm (heap.size.toNat + 1) heap i h0
        (by push_cast; omega) (by omega)
      obtain ⟨heap1, h1, hsub1, _⟩ := min_heapify_fuel_heap (heap.size.toNat + 1) heap i hc h0
        (by push_cast; omega) (by omega)
        (hinv _ hLi (by omega)) (hinv _ hRi (by omega))
      have e1 : heap1 = { heap with data := heap.data ∘ σ1 } := by
        rw [hσ1] at h1; exact (Option.some.inj h1).symm
      rw [e1] at hsub1
      have hmh : min_heapify heap i = some { heap with data := heap.data ∘ σ1 } := hσ1
      rw [hmh]
      simp only
      obtain ⟨σ2, hσ2, hfix2, hp2⟩ := ih { heap with data := heap.data ∘ σ1 } (i - 1) hc
        (by omega) (by push_cast at hfuel; omega)
        (by
          intro k hk hk0
          by_cases hki : k = i
          · rw [hki]; exact hsub1
          · exact subtree_heap_after heap i h0 σ1 hfix1 hsub1 k (by omega)
              (hinv k (by omega) hk0))
      refine ⟨σ1 * σ2, hσ2, ?_, hp2⟩
      intro j hj
      rw [Equiv.Perm.mul_apply, hfix2 j hj]
      apply hfix1
      rintro ⟨hin, hlt⟩
      have := hin.le h0
      omega
    · rw [if_neg h0]
      refine ⟨1, by simp, fun j _ => rfl, ?_⟩
      have hroot : subtree_heap heap 0 := hinv 0 (by omega) (le_refl 0)
      have e : ({ heap with data := heap.data ∘ ((1 : Equiv.Perm Int) : Int → Int) }
          : MinHeap α) = heap := by simp
      rw [e]
      exact (subtree_heap_root_iff heap).1 hroot

end Build

/-! ## Memory safety: the checked operations never fault -/

section Checked

variable {α : Type}

theorem compare_slots_ok (heap : MinHeap α) (i j : Int) (hcap : heap.size ≤ heap.capacity)
    (hi0 : 0 ≤ i) (hi : i < heap.size) (hj0 : 0 ≤ j) (hj : j < heap.size) :
    compare_slots heap i j = Except.ok (heap.compare (heap.data i) (heap.data j)) := by
  unfold compare_slots
  rw [if_pos ⟨⟨hi0, hi, by omega⟩, ⟨hj0, hj, by omega⟩⟩]

theorem swap_slots_ok (heap : MinHeap α) (a b : Int) (hcap : heap.size ≤ heap.capacity)
    (ha0 : 0 ≤ a) (ha : a < heap.size) (hb0 : 0 ≤ b) (hb : b < heap.size) :
    swap_slots heap a b = Except.ok { heap with data := swap heap.data a b } := by
  unfold swap_slots
  rw [if_pos ⟨⟨ha0, by omega⟩, ⟨hb0, by omega⟩⟩]

/-- One level of the checked `min_heapify` on a well-formed heap is one level of
`min_heapify`: no access faults. -/
theorem min_heapify_checked_succ (fuel : Nat) (heap : MinHeap α) (idx : Int)
    (hcap : heap.size ≤ heap.capacity) (hov : 2 * heap.size + 2 ≤ INT_MAX)
    (hidx : 0 ≤ idx) (his : idx ≤ heap.size) :
    min_heapify_checked (fuel + 1) heap idx =
      if smallest_of heap idx ≠ idx then
        min_heapify_checked fuel
          { heap with data := swap heap.data idx (smallest_of heap idx) } (smallest_of heap idx)
      else Except.ok heap := by
  have hL : idx < LEFT idx := by rw [LEFT_eq]; omega
  have hLR : LEFT idx < RIGHT idx := by rw [LEFT_eq, RIGHT_eq]; omega
  have hnov : ¬ (idx < 0 ∨ INT_MAX < RIGHT idx) := by
    rw [RIGHT_eq]; omega
  have e1 : (if LEFT idx < heap.size then compare_slots heap (LEFT idx) idx
      else Except.ok 0) = Except.ok
        (if LEFT idx < heap.size then heap.compare (heap.data (LEFT idx)) (heap.data idx)
         else 0) := by
    by_cases h : LEFT idx < heap.size
    · rw [if_pos h, if_pos h, compare_slots_ok heap _ _ hcap (by omega) h hidx (by omega)]
    · rw [if_neg h, if_neg h]
  have s1 : (if LEFT idx < heap.size ∧
        (if LEFT idx < heap.size then heap.compare (heap.data (LEFT idx)) (heap.data idx)
         else 0) < 0 then LEFT idx else idx)
      = (if LEFT idx < heap.size ∧ heap.compare (heap.data (LEFT idx)) (heap.data idx) < 0
         then LEFT idx else idx) := by
    by_cases h : LEFT idx < heap.size
    · rw [if_pos h]
    · rw [if_neg (fun hh => h hh.1), if_neg (fun hh => h hh.1)]
  have e2 : ∀ s, 0 ≤ s → s < RIGHT idx →
      (if RIGHT idx < heap.size then compare_slots heap (RIGHT idx) s
       else Except.ok 0) = Except.ok
        (if RIGHT idx < heap.size then heap.compare (heap.data (RIGHT idx)) (heap.data s)
         else 0) := by
    intro s hs0 hsR
    by_cases h : RIGHT idx < heap.size
    · rw [if_pos h, if_pos h, compare_slots_ok heap _ _ hcap (by omega) h hs0 (by omega)]
    · rw [if_neg h, if_neg h]
  have s2 : ∀ s, (if RIGHT idx < heap.size ∧
        (if RIGHT idx < heap.size then heap.compare (heap.data (RIGHT idx)) (heap.data s)
         else 0) < 0 then RIGHT idx else s)
      = (if RIGHT idx < heap.size ∧ heap.compare (heap.data (RIGHT idx)) (heap.data s) < 0
         then RIGHT idx else s) := by
    intro s
    by_cases h : RIGHT idx < heap.size
    · rw [if_pos h]
    · rw [if_neg (fun hh => h hh.1), if_neg (fun hh => h hh.1)]
  have hs1 : 0 ≤ (if LEFT idx < heap.size ∧
        heap.compare (heap.data (LEFT idx)) (heap.data idx) < 0 then LEFT idx else idx) ∧
      (if LEFT idx < heap.size ∧
        heap.compare (heap.data (LEFT idx)) (heap.data idx) < 0 then LEFT idx else idx)
        < RIGHT idx := by
    split_ifs <;> constructor <;> omega
  have hsm : smallest_of heap idx =
      (if RIGHT idx < heap.size ∧ heap.compare (heap.data (RIGHT idx))
          (heap.data (if LEFT idx < heap.size ∧
            heap.compare (heap.data (LEFT idx)) (heap.data idx) < 0 then LEFT idx else idx)) < 0
       then RIGHT idx
       else (if LEFT idx < heap.size ∧
            heap.compare (heap.data (LEFT idx)) (heap.data idx) < 0 then LEFT idx else idx)) :=
    rfl
  rw [min_heapify_checked, if_neg hnov, e1]
  simp only
  rw [s1, e2 _ hs1.1 hs1.2]
  simp only
  rw [s2, ← hsm]
  by_cases hne : smallest_of heap idx ≠ idx
  · obtain ⟨hlt, hsz, _⟩ := smallest_of_bounds heap idx hidx hne
    rw [if_pos hne, if_pos hne,
      swap_slots_ok heap _ _ hcap hidx (by omega) (by omega) hsz]
  · rw [if_neg hne, if_neg hne]

/-- The checked `min_heapify` on a well-formed heap returns what `min_heapify` returns. -/
theorem min_heapify_checked_ok (fuel : Nat) :
    ∀ (heap : MinHeap α) (idx : Int) (heap1 : MinHeap α),
      heap.size ≤ heap.capacity → 2 * heap.size + 2 ≤ INT_MAX → 0 ≤ idx → idx ≤ heap.size →
      min_heapify_fuel fuel heap idx = some heap1 →
      min_heapify_checked fuel heap idx = Except.ok heap1 := by
  induction fuel with
  | zero => intro heap idx heap1 _ _ _ _ h; exact absurd h (by simp [min_heapify_fuel])
  | succ n ih =>
    intro heap idx heap1 hcap hov hidx his h
    rw [min_heapify_fuel_succ] at h
    rw [min_heapify_checked_succ n heap idx hcap hov hidx his]
    by_cases hne : smallest_of heap idx ≠ idx
    · rw [if_pos hne] at h ⊢
      obtain ⟨hlt, hsz, _⟩ := smallest_of_bounds heap idx hidx hne
      exact ih _ _ _ hcap hov (by omega) (le_of_lt hsz) h
    · rw [if_neg hne] at h ⊢
      rw [Option.some.inj h]

/-- One turn of the checked bubble-up loop on a well-formed heap is one turn of the loop. -/
theorem insert_loop_checked_succ (fuel : Nat) (heap : MinHeap α) (i : Int)
    (hcap : heap.size ≤ heap.capacity) (his : i < heap.size) :
    insert_loop_checked (fuel + 1) heap i =
      if i > 0 ∧ heap.compare (heap.data (PARENT i)) (heap.data i) > 0 then
        insert_loop_checked fuel { heap with data := swap heap.data i (PARENT i) } (PARENT i)
      else Except.ok heap := by
  rw [insert_loop_checked]
  by_cases hi : i > 0
  · have hp := PARENT_bounds hi
    rw [if_pos hi, compare_slots_ok heap _ _ hcap hp.1 (by omega) (by omega) his]
    simp only
    by_cases hc : heap.compare (heap.data (PARENT i)) (heap.data i) > 0
    · rw [if_pos hc, if_pos ⟨hi, hc⟩,
        swap_slots_ok heap _ _ hcap (by omega) his hp.1 (by omega)]
    · rw [if_neg hc, if_neg (fun h => hc h.2)]
  · rw [if_neg hi, if_neg (fun h => hi h.1)]

/-- The checked bubble-up loop on a well-formed heap returns what the loop returns. -/
theorem insert_loop_checked_ok (fuel : Nat) :
    ∀ (heap : MinHeap α) (i : Int) (heap1 : MinHeap α),
      heap.size ≤ heap.capacity → i < heap.size →
      insert_loop fuel heap i = some heap1 →
      insert_loop_checked fuel heap i = Except.ok heap1 := by
  induction fuel with
  | zero => intro heap i heap1 _ _ h; exact absurd h (by simp [insert_loop])
  | succ n ih =>
    intro heap i heap1 hcap his h
    rw [insert_loop_succ] at h
    rw [insert_loop_checked_succ n heap i hcap his]
    by_cases hcond : i > 0 ∧ heap.compare (heap.data (PARENT i)) (heap.data i) > 0
    · rw [if_pos hcond] at h ⊢
      have hp := PARENT_bounds hcond.1
      exact ih _ _ _ hcap (show PARENT i < heap.size by omega) h
    · rw [if_neg hcond] at h ⊢
      rw [Option.some.inj h]

/-- The checked `insert` on a well-formed heap returns what `insert` returns. -/
theorem insert_checked_ok (heap : MinHeap α) (x : α) (h0 : 0 ≤ heap.size) :
    ∃ r, insert heap x = some r ∧ insert_checked heap x = Except.ok r := by
  by_cases hfull : heap.size ≥ heap.capacity
  · refine ⟨(heap, true), insert_full heap x hfull, ?_⟩
    unfold insert_checked
    rw [if_pos hfull]
  · have hlt : heap.size < heap.capacity := not_le.1 hfull
    obtain ⟨σ, hσ, _⟩ := insert_ok heap x hlt
    refine ⟨_, hσ, ?_⟩
    have hloop : insert_loop (heap.size.toNat + 1)
        { heap with size := heap.size + 1, data := Function.update heap.data heap.size x }
        heap.size = some { heap with size := heap.size + 1,
                                     data := Function.update heap.data heap.size x ∘ σ } := by
      have h := hσ
      unfold insert at h
      rw [if_neg hfull] at h
      simp only [add_sub_cancel_right] at h
      cases hl : insert_loop (heap.size.toNat + 1)
          { heap with size := heap.size + 1, data := Function.update heap.data heap.size x }
          heap.size with
      | none => rw [hl] at h; exact absurd h (by simp)
      | some h3 =>
        rw [hl] at h
        rw [(Prod.mk.inj (Option.some.inj h)).1]
    have hw : write_slot { heap with size := heap.size + 1 } heap.size x
        = Except.ok { heap with size := heap.size + 1,
                                data := Function.update heap.data heap.size x } := by
      unfold write_slot
      rw [if_pos ⟨h0, hlt⟩]
    unfold insert_checked
    rw [if_neg hfull]
    simp only [add_sub_cancel_right]
    rw [hw]
    simp only
    rw [insert_loop_checked_ok _ _ _ _ (show heap.size + 1 ≤ heap.capacity by omega)
      (show heap.size < heap.size + 1 by omega) hloop]

/-- The checked `pop` on a well-formed heap returns what `pop` returns. -/
theorem pop_checked_ok (heap : MinHeap α) (h0 : 0 ≤ heap.size)
    (hcap : heap.size ≤ heap.capacity) (hov : 2 * heap.size + 2 ≤ INT_MAX) :
    ∃ r, pop heap = some r ∧ pop_checked heap = Except.ok r := by
  have _ := h0
  by_cases hempty : heap.size ≤ 0
  · refine ⟨(none, heap), pop_empty heap hempty, ?_⟩
    unfold pop_checked
    rw [if_pos hempty]
  · have hpos : 0 < heap.size := not_le.1 hempty
    obtain ⟨σ, hσ, _⟩ := pop_ok heap hpos
    refine ⟨_, hσ, ?_⟩
    have hmh : min_heapify_fuel ((heap.size - 1).toNat + 1)
        { heap with size := heap.size - 1,
                    data := Function.update heap.data 0 (heap.data (heap.size - 1)) } 0
        = some { heap with size := heap.size - 1,
                           data := Function.update heap.data 0 (heap.data (heap.size - 1)) ∘ σ }
        := by
      have h := hσ
      unfold pop at h
      rw [if_neg hempty] at h
      simp only at h
      unfold min_heapify at h
      simp only at h
      cases hl : min_heapify_fuel ((heap.size - 1).toNat + 1)
          { heap with size := heap.size - 1,
                      data := Function.update heap.data 0 (heap.data (heap.size - 1)) } 0 with
      | none => rw [hl] at h; exact absurd h (by simp)
      | some h3 =>
        rw [hl] at h
        rw [(Prod.mk.inj (Option.some.inj h)).2]
    have hr0 : read_slot heap 0 = Except.ok (heap.data 0) := by
      unfold read_slot
      rw [if_pos ⟨le_refl 0, by omega⟩]
    have hr1 : read_slot heap (heap.size - 1) = Except.ok (heap.data (heap.size - 1)) := by
      unfold read_slot
      rw [if_pos ⟨by omega, by omega⟩]
    have hw : write_slot heap 0 (heap.data (heap.size - 1))
        = Except.ok { heap with
            data := Function.update heap.data 0 (heap.data (heap.size - 1)) } := by
      unfold write_slot
      rw [if_pos ⟨le_refl 0, by omega⟩]
    unfold pop_checked
    rw [if_neg hempty, hr0]
    simp only
    rw [hr1]
    simp only
    rw [hw]
    simp only
    rw [min_heapify_checked_ok _ _ _ _ (show heap.size - 1 ≤ heap.capacity by omega)
      (show 2 * (heap.size - 1) + 2 ≤ INT_MAX by omega) (le_refl 0)
      (show (0 : Int) ≤ heap.size - 1 by omega) hmh]

/-- The checked loop of `build_min_heap` on a well-formed heap returns what the loop
returns. -/
theorem build_loop_checked_ok (fuel : Nat) :
    ∀ (heap : MinHeap α) (i : Int) (heap1 : MinHeap α),
      heap.size ≤ heap.capacity → 2 * heap.size + 2 ≤ INT_MAX → i < heap.size →
      build_loop fuel heap i = some heap1 →
      build_loop_checked fuel heap i = Except.ok heap1 := by
  induction fuel with
  | zero => intro heap i heap1 _ _ _ h; exact absurd h (by simp [build_loop])
  | succ n ih =>
    intro heap i heap1 hcap hov his h
    rw [build_loop_succ] at h
    rw [build_loop_checked]
    by_cases hi : i ≥ 0
    · rw [if_pos hi] at h ⊢
      obtain ⟨σ, hσ, _⟩ := min_heapify_fuel_perm (heap.size.toNat + 1) heap i hi
        (by push_cast; omega) (by omega)
      have hmh : min_heapify heap i = some { heap with data := heap.data ∘ σ } := hσ
      rw [hmh] at h
      simp only at h
      rw [min_heapify_checked_ok _ heap i _ hcap hov hi (le_of_lt his) hσ]
      simp only
      exact ih _ _ _ hcap hov (show i - 1 < heap.size by omega) h
    · rw [if_neg hi] at h ⊢
      rw [Option.some.inj h]

end Checked

section Claims2

variable {α : Type}

/-- C12 (capacity-one scenario).  For every empty heap with capacity at least 1 and every
element `x`, `insert(x)` succeeds and a following `pop` returns `x` and leaves the heap
empty (`size` 0); a `pop` after that returns `NULL`.  With capacity exactly 1, a second
`insert` before the `pop` reports a full heap and does not change the heap. -/
theorem single_element_scenario (heap : MinHeap α) (x : α) (hsize : heap.size = 0)
    (hcap : 1 ≤ heap.capacity) :
    ∃ h1 h2, insert heap x = some (h1, false) ∧ h1.size = 1 ∧
      pop h1 = some (some x, h2) ∧ h2.size = 0 ∧ pop h2 = some (none, h2) ∧
      (heap.capacity = 1 → ∀ y, insert h1 y = some (h1, true)) := by
  have hins : insert heap x = some
      ({ heap with size := heap.size + 1,
                   data := Function.update heap.data heap.size x }, false) := by
    unfold insert
    rw [if_neg (by omega)]
    simp only [add_sub_cancel_right]
    rw [hsize, Int.toNat_zero, insert_loop_root]
  have key : ∀ h1 : MinHeap α, h1.size = 1 → h1.data 0 = x → h1.capacity = heap.capacity →
      ∃ h2, pop h1 = some (some x, h2) ∧ h2.size = 0 ∧ pop h2 = some (none, h2) ∧
        (heap.capacity = 1 → ∀ y, insert h1 y = some (h1, true)) := by
    intro h1 hs hx hc
    refine ⟨_, by rw [pop_single h1 hs, hx], by show h1.size - 1 = 0; omega,
      pop_empty _ (by show h1.size - 1 ≤ 0; omega), ?_⟩
    intro hc1 y
    exact insert_full _ y (by omega)
  obtain ⟨h2, e1, e2, e3, e4⟩ := key
    { heap with size := heap.size + 1, data := Function.update heap.data heap.size x }
    (by show heap.size + 1 = 1; omega)
    (by show Function.update heap.data heap.size x 0 = x; rw [hsize, Function.update_same])
    rfl
  exact ⟨_, h2, hins, by show heap.size + 1 = 1; omega, e1, e2, e3, e4⟩

theorem single_element_scenario_witness :
    ∃ h1 h2,
      insert ({ data := fun _ => 0, elem_size := 4, capacity := 1, size := 0,
                compare := compare_int } : MinHeap Int) 42 = some (h1, false) ∧
      h1.size = 1 ∧ pop h1 = some (some 42, h2) ∧ h2.size = 0 ∧ pop h2 = some (none, h2) ∧
      ((1 : Int) = 1 → ∀ y, insert h1 y = some (h1, true)) :=
  single_element_scenario
    ({ data := fun _ => 0, elem_size := 4, capacity := 1, size := 0, compare := compare_int } :
      MinHeap Int)
    42 rfl (by decide)

/-- C13 fails on the code: `compare_int` subtracts, and the difference of `2147483647` and
`-1` wraps to `-2147483648`, so the result is negative although the first argument is the
larger one; both arguments are 32-bit signed integers. -/
theorem compare_int_overflow :
    (-2 ^ 31 ≤ (2147483647 : Int) ∧ (2147483647 : Int) < 2 ^ 31) ∧
    (-2 ^ 31 ≤ (-1 : Int) ∧ (-1 : Int) < 2 ^ 31) ∧
    (2147483647 : Int) > -1 ∧
    compare_int 2147483647 (-1) = -2147483648 ∧ compare_int 2147483647 (-1) < 0 := by
  decide

/-- C20 (index macros).  For every `i >= 0` with `2 * i + 2` in the range of `int`:
`LEFT(i) = 2i+1` and `RIGHT(i) = 2i+2`, both representable; `PARENT(LEFT(i)) = i` and
`PARENT(RIGHT(i)) = i`; and for `i > 0`, `PARENT(i) = (i-1) >> 1` is the floor of
`(i-1)/2` and satisfies `0 <= PARENT(i) < i`. -/
theorem index_macros (i : Int) (hi : 0 ≤ i) (hov : 2 * i + 2 < 2 ^ 31) :
    LEFT i = 2 * i + 1 ∧ RIGHT i = 2 * i + 2 ∧
    wrap32 (LEFT i) = LEFT i ∧ wrap32 (RIGHT i) = RIGHT i ∧
    PARENT (LEFT i) = i ∧ PARENT (RIGHT i) = i ∧
    (0 < i → PARENT i = (i - 1) >>> (1 : Int) ∧ PARENT i = (i - 1) / 2 ∧
      2 * PARENT i ≤ i - 1 ∧ i - 1 < 2 * PARENT i + 2 ∧ 0 ≤ PARENT i ∧ PARENT i < i) := by
  refine ⟨LEFT_eq i, RIGHT_eq i, ?_, ?_, PARENT_LEFT i, PARENT_RIGHT i, ?_⟩
  · rw [LEFT_eq]; unfold wrap32; omega
  · rw [RIGHT_eq]; unfold wrap32; omega
  · intro h
    refine ⟨rfl, PARENT_eq i, ?_, ?_, ?_, ?_⟩ <;> rw [PARENT_eq] <;> omega

theorem index_macros_witness :
    (0 : Int) ≤ 5 ∧ (2 * 5 + 2 : Int) < 2 ^ 31 ∧
    LEFT 5 = 2 * 5 + 1 ∧ RIGHT 5 = 2 * 5 + 2 ∧
    wrap32 (LEFT 5) = LEFT 5 ∧ wrap32 (RIGHT 5) = RIGHT 5 ∧
    PARENT (LEFT 5) = 5 ∧ PARENT (RIGHT 5) = 5 ∧
    ((0 : Int) < 5 → PARENT 5 = (5 - 1) >>> (1 : Int) ∧ PARENT 5 = (5 - 1) / 2 ∧
      2 * PARENT 5 ≤ 5 - 1 ∧ 5 - 1 < 2 * PARENT 5 + 2 ∧ 0 ≤ PARENT 5 ∧ PARENT 5 < 5) :=
  ⟨by decide, by decide, index_macros 5 (by decide) (by decide)⟩

/-- C18 (frame of insert).  For every heap with `size < capacity` and every element `x`, a
successful `insert(x)` changes only slots on the path from index `size` (the old size) up to
the root through `PARENT`: every slot that is neither the old `size` nor one of its
ancestors keeps its element, in particular every such slot `j < size`.  If the heap was
empty, or the parent of the new slot does not compare strictly greater than `x`, all
previously occupied slots are unchanged and `x` is stored at index old `size`. -/
theorem insert_frame (heap : MinHeap α) (x : α) (hlt : heap.size < heap.capacity) :
    ∃ heap1, insert heap x = some (heap1, false) ∧
      (∀ j, ¬ InSubtree j heap.size → heap1.data j = heap.data j) ∧
      ((heap.size = 0 ∨ ¬ heap.compare (heap.data (PARENT heap.size)) x > 0) →
        heap1 = { heap with size := heap.size + 1,
                            data := Function.update heap.data heap.size x } ∧
        (∀ j, j < heap.size → heap1.data j = heap.data j) ∧
        heap1.data heap.size = x) := by
  obtain ⟨σ, hσ, _⟩ := insert_ok heap x hlt
  have hloop : insert_loop (heap.size.toNat + 1)
      { heap with size := heap.size + 1, data := Function.update heap.data heap.size x }
      heap.size = some { heap with size := heap.size + 1,
                                   data := Function.update heap.data heap.size x ∘ σ } := by
    have h := hσ
    unfold insert at h
    rw [if_neg (not_le.2 hlt)] at h
    simp only [add_sub_cancel_right] at h
    cases hl : insert_loop (heap.size.toNat + 1)
        { heap with size := heap.size + 1, data := Function.update heap.data heap.size x }
        heap.size with
    | none => rw [hl] at h; exact absurd h (by simp)
    | some h3 =>
      rw [hl] at h
      rw [(Prod.mk.inj (Option.some.inj h)).1]
  refine ⟨_, hσ, ?_, ?_⟩
  · intro j hj
    rw [insert_loop_path _ _ _ _ hloop j hj]
    show Function.update heap.data heap.size x j = heap.data j
    exact Function.update_noteq (fun e => hj (by rw [e]; exact InSubtree.root)) _ _
  · intro hstop
    have hnone : ¬ (heap.size > 0 ∧
        heap.compare (Function.update heap.data heap.size x (PARENT heap.size))
          (Function.update heap.data heap.size x heap.size) > 0) := by
      rintro ⟨hpos, hgt⟩
      have hp := PARENT_bounds hpos
      rw [Function.update_same, Function.update_noteq (by omega)] at hgt
      rcases hstop with h | h
      · omega
      · exact h hgt
    have hloop2 : insert_loop (heap.size.toNat + 1)
        { heap with size := heap.size + 1, data := Function.update heap.data heap.size x }
        heap.size = some { heap with size := heap.size + 1,
                                     data := Function.update heap.data heap.size x } := by
      rw [insert_loop_succ]
      exact if_neg hnone
    have heq : ({ heap with size := heap.size + 1,
                            data := Function.update heap.data heap.size x ∘ σ } : MinHeap α)
        = { heap with size := heap.size + 1,
                      data := Function.update heap.data heap.size x } := by
      rw [hloop2] at hloop
      exact (Option.some.inj hloop).symm
    refine ⟨heq, ?_, ?_⟩
    · intro j hj
      rw [heq]
      exact Function.update_noteq (by omega) _ _
    · rw [heq]
      exact Function.update_same _ _ _

theorem insert_frame_witness :
    ∃ heap1,
      insert ({ data := fun i => i, elem_size := 4, capacity := 9, size := 5,
                compare := int_diff } : MinHeap Int) 0 = some (heap1, false) ∧
      (∀ j, ¬ InSubtree j 5 → heap1.data j = j) ∧
      (((5 : Int) = 0 ∨ ¬ int_diff (PARENT 5) 0 > 0) →
        heap1 = { data := Function.update (fun i => i) 5 0, elem_size := 4, capacity := 9,
                  size := 5 + 1, compare := int_diff } ∧
        (∀ j, j < 5 → heap1.data j = j) ∧ heap1.data 5 = 0) :=
  insert_frame
    ({ data := fun i => i, elem_size := 4, capacity := 9, size := 5, compare := int_diff } :
      MinHeap Int)
    0 (by decide)

/-- C17 (memory safety).  For every heap with `0 <= size <= capacity` and `2*size+2` within
the range of `int`, the operations with every access checked return what the unchecked ones
return, so the out-of-bounds branch is never taken: every slot read or written by `insert`,
`pop`, `min_heapify` (called with `0 <= idx < size`, or with `idx = 0` on an empty heap)
and `build_min_heap` has an index in `[0, capacity)`, every slot passed to the comparator
has an index in `[0, size)`, and no index computation overflows. -/
theorem memory_safety (heap : MinHeap α) (h0 : 0 ≤ heap.size)
    (hcap : heap.size ≤ heap.capacity) (hov : 2 * heap.size + 2 ≤ INT_MAX) :
    (∀ x, ∃ r, insert heap x = some r ∧ insert_checked heap x = Except.ok r) ∧
    (∃ r, pop heap = some r ∧ pop_checked heap = Except.ok r) ∧
    (∀ idx, ((0 ≤ idx ∧ idx < heap.size) ∨ (idx = 0 ∧ heap.size = 0)) →
      ∃ heap1, min_heapify heap idx = some heap1 ∧
        min_heapify_checked (heap.size.toNat + 1) heap idx = Except.ok heap1) ∧
    (∃ heap1, build_min_heap heap = some heap1 ∧
      build_min_heap_checked heap = Except.ok heap1) := by
  refine ⟨fun x => insert_checked_ok heap x h0, pop_checked_ok heap h0 hcap hov, ?_, ?_⟩
  · intro idx hidx
    have hi0 : 0 ≤ idx := by omega
    have his : idx ≤ heap.size := by omega
    obtain ⟨σ, hσ, _⟩ := min_heapify_fuel_perm (heap.size.toNat + 1) heap idx hi0
      (by push_cast; omega) (by omega)
    exact ⟨_, hσ, min_heapify_checked_ok _ heap idx _ hcap hov hi0 his hσ⟩
  · have htd : Int.tdiv heap.size 2 = heap.size / 2 := Int.tdiv_eq_ediv h0 (by decide)
    have hlt : Int.tdiv heap.size 2 - 1 < heap.size := by rw [htd]; omega
    cases hb : build_min_heap heap with
    | none =>
      exfalso
      unfold build_min_heap at hb
      have key : ∀ (fuel : Nat) (h : MinHeap α) (i : Int), i + 1 < fuel → -1 ≤ i →
          build_loop fuel h i ≠ none := by
        intro fuel
        induction fuel with
        | zero => intro h i hf hi; exact absurd hf (by push_cast; omega)
        | succ n ih =>
          intro h i hf hi
          rw [build_loop_succ]
          by_cases hi0 : i ≥ 0
          · rw [if_pos hi0]
            obtain ⟨σ, hσ, _⟩ := min_heapify_fuel_perm (h.size.toNat + 1) h i hi0
              (by push_cast; omega) (by omega)
            have hmh : min_heapify h i = some { h with data := h.data ∘ σ } := hσ
            rw [hmh]
            simp only
            exact ih _ _ (by push_cast at hf; omega) (by omega)
          · rw [if_neg hi0]; simp
      exact key _ heap _ (by rw [htd]; push_cast; omega) (by rw [htd]; omega) hb
    | some heap1 =>
      refine ⟨heap1, rfl, ?_⟩
      unfold build_min_heap at hb
      unfold build_min_heap_checked
      exact build_loop_checked_ok _ heap _ heap1 hcap hov hlt hb

theorem memory_safety_witness :
    (∀ x, ∃ r,
      insert ({ data := fun j => 9 - j, elem_size := 4, capacity := 8, size := 6,
                compare := int_diff } : MinHeap Int) x = some r ∧
      insert_checked ({ data := fun j => 9 - j, elem_size := 4, capacity := 8, size := 6,
                        compare := int_diff } : MinHeap Int) x = Except.ok r) ∧
    (∃ r,
      pop ({ data := fun j => 9 - j, elem_size := 4, capacity := 8, size := 6,
             compare := int_diff } : MinHeap Int) = some r ∧
      pop_checked ({ data := fun j => 9 - j, elem_size := 4, capacity := 8, size := 6,
                     compare := int_diff } : MinHeap Int) = Except.ok r) ∧
    (∃ heap1,
      build_min_heap ({ data := fun j => 9 - j, elem_size := 4, capacity := 8, size := 6,
                        compare := int_diff } : MinHeap Int) = some heap1 ∧
      build_min_heap_checked ({ data := fun j => 9 - j, elem_size := 4, capacity := 8,
                                size := 6, compare := int_diff } : MinHeap Int)
        = Except.ok heap1) :=
  ⟨(memory_safety
      ({ data := fun j => 9 - j, elem_size := 4, capacity := 8, size := 6,
         compare := int_diff } : MinHeap Int) (by decide) (by decide) (by decide)).1,
   (memory_safety
      ({ data := fun j => 9 - j, elem_size := 4, capacity := 8, size := 6,
         compare := int_diff } : MinHeap Int) (by decide) (by decide) (by decide)).2.1,
   (memory_safety
      ({ data := fun j => 9 - j, elem_size := 4, capacity := 8, size := 6,
         compare := int_diff } : MinHeap Int) (by decide) (by decide) (by decide)).2.2.2⟩

end Claims2

/-! ## Runs of checked calls -/

section CheckedRuns

variable {α : Type}

/-- At an index that is negative or whose right child index exceeds `INT_MAX` the checked
`min_heapify` reports the overflow. -/
theorem min_heapify_checked_overflow (fuel : Nat) (heap : MinHeap α) (idx : Int)
    (h : idx < 0 ∨ INT_MAX < RIGHT idx) :
    min_heapify_checked (fuel + 1) heap idx = Except.error Fault.overflow := by
  rw [min_heapify_checked, if_pos h]

/-- One level of the checked `min_heapify` at an index whose child indices are representable
is one level of `min_heapify`. -/
theorem min_heapify_checked_step (fuel : Nat) (heap : MinHeap α) (idx : Int)
    (hcap : heap.size ≤ heap.capacity) (hov : 2 * idx + 2 ≤ INT_MAX) (hidx : 0 ≤ idx) :
    min_heapify_checked (fuel + 1) heap idx =
      if smallest_of heap idx ≠ idx then
        min_heapify_checked fuel
          { heap with data := swap heap.data idx (smallest_of heap idx) } (smallest_of heap idx)
      else Except.ok heap := by
  have hL : idx < LEFT idx := by rw [LEFT_eq]; omega
  have hLR : LEFT idx < RIGHT idx := by rw [LEFT_eq, RIGHT_eq]; omega
  have hnov : ¬ (idx < 0 ∨ INT_MAX < RIGHT idx) := by
    rw [RIGHT_eq]; omega
  have e1 : (if LEFT idx < heap.size then compare_slots heap (LEFT idx) idx
      else Except.ok 0) = Except.ok
        (if LEFT idx < heap.size then heap.compare (heap.data (LEFT idx)) (heap.data idx)
         else 0) := by
    by_cases h : LEFT idx < heap.size
    · rw [if_pos h, if_pos h, compare_slots_ok heap _ _ hcap (by omega) h hidx (by omega)]
    · rw [if_neg h, if_neg h]
  have s1 : (if LEFT idx < heap.size ∧
        (if LEFT idx < heap.size then heap.compare (heap.data (LEFT idx)) (heap.data idx)
         else 0) < 0 then LEFT idx else idx)
      = (if LEFT idx < heap.size ∧ heap.compare (heap.data (LEFT idx)) (heap.data idx) < 0
         then LEFT idx else idx) := by
    by_cases h : LEFT idx < heap.size
    · rw [if_pos h]
    · rw [if_neg (fun hh => h hh.1), if_neg (fun hh => h hh.1)]
  have e2 : ∀ s, 0 ≤ s → s < RIGHT idx →
      (if RIGHT idx < heap.size then compare_slots heap (RIGHT idx) s
       else Except.ok 0) = Except.ok
        (if RIGHT idx < heap.size then heap.compare (heap.data (RIGHT idx)) (heap.data s)
         else 0) := by
    intro s hs0 hsR
    by_cases h : RIGHT idx < heap.size
    · rw [if_pos h, if_pos h, compare_slots_ok heap _ _ hcap (by omega) h hs0 (by omega)]
    · rw [if_neg h, if_neg h]
  have s2 : ∀ s, (if RIGHT idx < heap.size ∧
        (if RIGHT idx < heap.size then heap.compare (heap.data (RIGHT idx)) (heap.data s)
         else 0) < 0 then RIGHT idx else s)
      = (if RIGHT idx < heap.size ∧ heap.compare (heap.data (RIGHT idx)) (heap.data s) < 0
         then RIGHT idx else s) := by
    intro s
    by_cases h : RIGHT idx < heap.size
    · rw [if_pos h]
    · rw [if_neg (fun hh => h hh.1), if_neg (fun hh => h hh.1)]
  have hs1 : 0 ≤ (if LEFT idx < heap.size ∧
        heap.compare (heap.data (LEFT idx)) (heap.data idx) < 0 then LEFT idx else idx) ∧
      (if LEFT idx < heap.size ∧
        heap.compare (heap.data (LEFT idx)) (heap.data idx) < 0 then LEFT idx else idx)
        < RIGHT idx := by
    split_ifs <;> constructor <;> omega
  have hsm : smallest_of heap idx =
      (if RIGHT idx < heap.size ∧ heap.compare (heap.data (RIGHT idx))
          (heap.data (if LEFT idx < heap.size ∧
            heap.compare (heap.data (LEFT idx)) (heap.data idx) < 0 then LEFT idx else idx)) < 0
       then RIGHT idx
       else (if LEFT idx < heap.size ∧
            heap.compare (heap.data (LEFT idx)) (heap.data idx) < 0 then LEFT idx else idx)) :=
    rfl
  rw [min_heapify_checked, if_neg hnov, e1]
  simp only
  rw [s1, e2 _ hs1.1 hs1.2]
  simp only
  rw [s2, ← hsm]
  by_cases hne : smallest_of heap idx ≠ idx
  · obtain ⟨hlt, hsz, _⟩ := smallest_of_bounds heap idx hidx hne
    rw [if_pos hne, if_pos hne,
      swap_slots_ok heap _ _ hcap hidx (by omega) (by omega) hsz]
  · rw [if_neg hne, if_neg hne]

/-- A call keeps `0 ≤ size ≤ capacity` and the capacity. -/
theorem call_bounds (heap : MinHeap α) (c : Call α) (o : Outcome α) (heap1 : MinHeap α)
    (h : call heap c = some (o, heap1)) (h0 : 0 ≤ heap.size)
    (hcap : heap.size ≤ heap.capacity) :
    0 ≤ heap1.size ∧ heap1.size ≤ heap1.capacity ∧ heap1.capacity = heap.capacity := by
  cases c with
  | insert x =>
    obtain ⟨h2, full, hi, _, e2, e3, e4, e5, _⟩ := insert_spec heap x
    cases full with
    | true =>
      simp [call, hi] at h
      rw [← h.2, e4 rfl]
      exact ⟨h0, hcap, rfl⟩
    | false =>
      simp [call, hi] at h
      rw [← h.2]
      have hsz := e5 rfl
      have hnf : ¬ heap.size ≥ heap.capacity := fun hge => by
        have := e3.2 hge
        exact absurd this (by simp)
      exact ⟨by omega, by omega, e2⟩
  | pop =>
    obtain ⟨r, h2, hp, _, e2, e3, e4, e5, _⟩ := pop_spec heap
    cases r with
    | none =>
      simp [call, hp] at h
      rw [← h.2, e4 rfl]
      exact ⟨h0, hcap, rfl⟩
    | some y =>
      simp [call, hp] at h
      rw [← h.2]
      have hsz := (e5 (by simp)).2
      have hpos : ¬ heap.size ≤ 0 := fun hle => by
        have := e3.2 hle
        exact absurd this (by simp)
      exact ⟨by omega, by omega, e2⟩

/-- On a well-formed heap without index overflow a checked call returns what the call
returns. -/
theorem call_checked_ok (heap : MinHeap α) (c : Call α) (h0 : 0 ≤ heap.size)
    (hcap : heap.size ≤ heap.capacity) (hov : 2 * heap.size + 2 ≤ INT_MAX)
    (r : Outcome α × MinHeap α) (h : call heap c = some r) :
    call_checked heap c = Except.ok r := by
  cases c with
  | insert x =>
    obtain ⟨⟨h1, full⟩, hi, hic⟩ := insert_checked_ok heap x h0
    cases full <;> simp [call, hi] at h <;> simp [call_checked, hic, h]
  | pop =>
    obtain ⟨⟨y, h1⟩, hp, hpc⟩ := pop_checked_ok heap h0 hcap hov
    cases y <;> simp [call, hp] at h <;> simp [call_checked, hpc, h]

/-- On a well-formed heap whose capacity keeps the index computations within `int`, a
checked run returns what the run returns. -/
theorem run_checked_ok (ops : List (Call α)) :
    ∀ (heap : MinHeap α) (r : List (Outcome α) × MinHeap α), 0 ≤ heap.size →
      heap.size ≤ heap.capacity → 2 * heap.capacity + 2 ≤ INT_MAX →
      run heap ops = some r → run_checked heap ops = Except.ok r := by
  induction ops with
  | nil =>
    intro heap r _ _ _ h
    simp only [run] at h
    simp only [run_checked]
    rw [Option.some.inj h]
  | cons c cs ih =>
    intro heap r h0 hcap hov h
    obtain ⟨o, h1, hcall⟩ := call_total heap c
    obtain ⟨b1, b2, b3⟩ := call_bounds heap c o h1 hcall h0 hcap
    have hcc := call_checked_ok heap c h0 hcap (by omega) _ hcall
    simp only [run, hcall] at h
    cases hr : run h1 cs with
    | none => rw [hr] at h; exact absurd h (by simp)
    | some p =>
      obtain ⟨os, h2⟩ := p
      rw [hr] at h
      have hrc := ih h1 _ b1 b2 (by rw [b3]; exact hov) hr
      simp only [run_checked, hcc, hrc]
      rw [← Option.some.inj h]

/-- On an empty heap the checked `pop` returns `NULL` and leaves the heap as it is. -/
theorem pop_checked_empty {α : Type} (heap : MinHeap α) (h : heap.size ≤ 0) :
    pop_checked heap = Except.ok (none, heap) := by
  unfold pop_checked
  rw [if_pos h]

/-- On a heap that is empty and full at once (a capacity of zero or below) every call
returns at once and leaves the heap as it is, also in the checked run. -/
theorem run_checked_ok_closed (ops : List (Call α)) :
    ∀ (heap : MinHeap α) (r : List (Outcome α) × MinHeap α), heap.size ≤ 0 →
      heap.size ≥ heap.capacity →
      run heap ops = some r → run_checked heap ops = Except.ok r := by
  induction ops with
  | nil =>
    intro heap r _ _ h
    simp only [run] at h
    simp only [run_checked]
    rw [Option.some.inj h]
  | cons c cs ih =>
    intro heap r he hf h
    have hcall : ∃ o, call heap c = some (o, heap) ∧
        call_checked heap c = Except.ok (o, heap) := by
      cases c with
      | insert x =>
        refine ⟨Outcome.full, ?_, ?_⟩
        · simp [call, insert_full heap x hf]
        · simp [call_checked, insert_checked, if_pos hf]
      | pop =>
        refine ⟨Outcome.null, ?_, ?_⟩
        · simp [call, pop_empty heap he]
        · simp [call_checked, pop_checked_empty heap he]
    obtain ⟨o, hc1, hc2⟩ := hcall
    simp only [run, hc1] at h
    cases hr : run heap cs with
    | none => rw [hr] at h; exact absurd h (by simp)
    | some p =>
      obtain ⟨os, h2⟩ := p
      rw [hr] at h
      have hrc := ih heap _ he hf hr
      simp only [run_checked, hc2, hrc]
      rw [← Option.some.inj h]

theorem run_checked_append_error (ops1 : List (Call α)) :
    ∀ (heap : MinHeap α) (os : List (Outcome α)) (heap1 : MinHeap α) (ops2 : List (Call α))
      (e : Fault), run_checked heap ops1 = Except.ok (os, heap1) →
      run_checked heap1 ops2 = Except.error e →
      run_checked heap (ops1 ++ ops2) = Except.error e := by
  induction ops1 with
  | nil =>
    intro heap os heap1 ops2 e h1 h2
    simp only [run_checked] at h1
    obtain ⟨_, rfl⟩ := Prod.mk.inj (Except.ok.inj h1)
    exact h2
  | cons c cs ih =>
    intro heap os heap1 ops2 e h1 h2
    simp only [List.cons_append, run_checked] at h1 ⊢
    cases hc : call_checked heap c with
    | error e1 => rw [hc] at h1; exact absurd h1 (by simp)
    | ok p =>
      obtain ⟨o, hm⟩ := p
      rw [hc] at h1
      simp only at h1 ⊢
      cases hr : run_checked hm cs with
      | error e1 => rw [hr] at h1; exact absurd h1 (by simp)
      | ok q =>
        obtain ⟨os1, hq⟩ := q
        rw [hr] at h1
        simp only at h1
        have hheap : hq = heap1 := (Prod.mk.inj (Except.ok.inj h1)).2
        rw [hheap] at hr
        have hih := ih hm os1 heap1 ops2 e hr h2
        rw [show cs.append ops2 = cs ++ ops2 from rfl, hih]

/-- Inserting keeps `0 ≤ size ≤ capacity`, the capacity, and adds at most the length of the
list to `size`. -/
theorem insert_all_bounds (xs : List α) :
    ∀ (heap heap1 : MinHeap α) (fulls : List Bool), insert_all heap xs = some (heap1, fulls) →
      0 ≤ heap.size → heap.size ≤ heap.capacity →
      0 ≤ heap1.size ∧ heap1.size ≤ heap1.capacity ∧ heap1.size ≤ heap.size + xs.length := by
  induction xs with
  | nil =>
    intro heap heap1 fulls h h0 hcap
    simp only [insert_all] at h
    obtain ⟨rfl, _⟩ := Prod.mk.inj (Option.some.inj h)
    exact ⟨h0, hcap, by simp⟩
  | cons x xs ih =>
    intro heap heap1 fulls h h0 hcap
    obtain ⟨h2, full, hi, _, e2, e3, e4, e5, _⟩ := insert_spec heap x
    simp only [insert_all, hi] at h
    cases hr : insert_all h2 xs with
    | none => rw [hr] at h; exact absurd h (by simp)
    | some p =>
      obtain ⟨h3, fs⟩ := p
      rw [hr] at h
      obtain ⟨rfl, _⟩ := Prod.mk.inj (Option.some.inj h)
      have hb : 0 ≤ h2.size ∧ h2.size ≤ h2.capacity ∧ h2.size ≤ heap.size + 1 := by
        cases full with
        | true => rw [e4 rfl]; exact ⟨h0, hcap, by omega⟩
        | false =>
          have hsz := e5 rfl
          have hnf : ¬ heap.size ≥ heap.capacity := fun hge => by
            have := e3.2 hge
            exact absurd this (by simp)
          exact ⟨by omega, by omega, by omega⟩
      obtain ⟨c1, c2, c3⟩ := ih h2 h3 fs hr hb.1 hb.2.1
      refine ⟨c1, c2, ?_⟩
      simp only [List.length_cons]
      push_cast
      omega

theorem insert_all_checked_ok (xs : List α) :
    ∀ (heap : MinHeap α) (r : MinHeap α × List Bool), 0 ≤ heap.size →
      insert_all heap xs = some r → insert_all_checked heap xs = Except.ok r := by
  induction xs with
  | nil =>
    intro heap r _ h
    simp only [insert_all] at h
    simp only [insert_all_checked]
    rw [Option.some.inj h]
  | cons x xs ih =>
    intro heap r h0 h
    obtain ⟨⟨h1, full⟩, hi, hic⟩ := insert_checked_ok heap x h0
    obtain ⟨h2, full2, hi2, _, _, _, e4, e5, _⟩ := insert_spec heap x
    rw [hi] at hi2
    obtain ⟨rfl, rfl⟩ := Prod.mk.inj (Option.some.inj hi2)
    have h10 : 0 ≤ h1.size := by
      cases full with
      | true => rw [e4 rfl]; exact h0
      | false => rw [e5 rfl]; omega
    simp only [insert_all, hi] at h
    cases hr : insert_all h1 xs with
    | none => rw [hr] at h; exact absurd h (by simp)
    | some p =>
      obtain ⟨h3, fs⟩ := p
      rw [hr] at h
      simp only [insert_all_checked, hic, ih h1 _ h10 hr]
      rw [← Option.some.inj h]

theorem pop_all_fuel_checked_ok (fuel : Nat) :
    ∀ (heap : MinHeap α) (r : List α × MinHeap α), 0 ≤ heap.size →
      heap.size ≤ heap.capacity → 2 * heap.size + 2 ≤ INT_MAX →
      pop_all_fuel fuel heap = some r → pop_all_fuel_checked fuel heap = Except.ok r := by
  induction fuel with
  | zero => intro heap r _ _ _ h; exact absurd h (by simp [pop_all_fuel])
  | succ n ih =>
    intro heap r h0 hcap hov h
    obtain ⟨⟨y, h1⟩, hp, hpc⟩ := pop_checked_ok heap h0 hcap hov
    obtain ⟨b1, b2, b3⟩ := call_bounds heap Call.pop
      (match y with | none => Outcome.null | some x => Outcome.popped x) h1
      (by cases y <;> simp [call, hp]) h0 hcap
    obtain ⟨y2, h2, hp2, _, _, e3, e4, e5, _⟩ := pop_spec heap
    rw [hp] at hp2
    obtain ⟨rfl, rfl⟩ := Prod.mk.inj (Option.some.inj hp2)
    cases y with
    | none =>
      simp only [pop_all_fuel, hp] at h
      simp only [pop_all_fuel_checked, hpc]
      rw [← Option.some.inj h]
    | some x =>
      have hsz := (e5 (by simp)).2
      simp only [pop_all_fuel, hp] at h
      cases hr : pop_all_fuel n h1 with
      | none => rw [hr] at h; exact absurd h (by simp)
      | some p =>
        obtain ⟨ys, h3⟩ := p
        rw [hr] at h
        simp only [pop_all_fuel_checked, hpc, ih h1 _ b1 b2 (by omega) hr]
        rw [← Option.some.inj h]

/-- The checked scenario of `main` returns what the scenario returns, when the list fits
the capacity and its length keeps the index computations within `int`. -/
theorem insert_then_pop_all_checked_ok (mem : Int → α) (elem_size : Nat) (capacity : Int)
    (cmp : α → α → Int) (xs : List α) (out : List α)
    (hlen : (xs.length : Int) ≤ capacity) (hov : 2 * (xs.length : Int) + 2 ≤ INT_MAX)
    (h : insert_then_pop_all mem elem_size capacity cmp xs = some out) :
    insert_then_pop_all_checked mem elem_size capacity cmp xs = Except.ok out := by
  unfold insert_then_pop_all create_min_heap at h
  unfold insert_then_pop_all_checked create_min_heap
  simp only at h ⊢
  cases hi : insert_all
      ({ data := mem, elem_size := elem_size, capacity := capacity, size := 0,
         compare := cmp } : MinHeap α) xs with
  | none => rw [hi] at h; exact absurd h (by simp)
  | some p =>
    obtain ⟨h1, fulls⟩ := p
    rw [hi] at h
    simp only at h
    obtain ⟨b1, b2, b3⟩ := insert_all_bounds xs _ h1 fulls hi (le_refl 0)
      (show (0 : Int) ≤ capacity by omega)
    have b4 : h1.size ≤ (xs.length : Int) := by
      have : h1.size ≤ (0 : Int) + xs.length := b3
      omega
    rw [insert_all_checked_ok xs _ _ (le_refl 0) hi]
    simp only
    unfold pop_all at h
    cases hq : pop_all_fuel (h1.size.toNat + 1) h1 with
    | none => rw [hq] at h; exact absurd h (by simp)
    | some q =>
      obtain ⟨ys, h2⟩ := q
      rw [hq] at h
      simp only at h
      rw [pop_all_fuel_checked_ok _ h1 _ b1 b2 (by omega) hq]
      simp only
      rw [← Option.some.inj h]

end CheckedRuns

/-! ## Heaps beyond the range of `int` indices -/

section Overflow

/-- A call of `insert` that does not enter the bubble-up loop. -/
theorem insert_no_swap {α : Type} (heap : MinHeap α) (x : α)
    (hlt : heap.size < heap.capacity)
    (hstop : heap.size ≤ 0 ∨ ¬ heap.compare (heap.data (PARENT heap.size)) x > 0) :
    insert heap x = some
      ({ heap with size := heap.size + 1,
                   data := Function.update heap.data heap.size x }, false) := by
  have hnone : ¬ (heap.size > 0 ∧
      heap.compare (Function.update heap.data heap.size x (PARENT heap.size))
        (Function.update heap.data heap.size x heap.size) > 0) := by
    rintro ⟨hpos, hgt⟩
    have hp := PARENT_bounds hpos
    rw [Function.update_same, Function.update_noteq (by omega)] at hgt
    rcases hstop with h | h
    · omega
    · exact h hgt
  unfold insert
  rw [if_neg (not_le.2 hlt)]
  simp only [add_sub_cancel_right]
  rw [insert_loop_succ, if_neg hnone]

/-- Inserting the integer `size` into a heap whose slot `j` holds `j`. -/
theorem insert_ascending (heap : MinHeap Int) (hcmp : heap.compare = int_diff)
    (h0 : 0 ≤ heap.size) (hlt : heap.size < heap.capacity)
    (hdata : ∀ j, 0 ≤ j → j < heap.size → heap.data j = j) :
    ∃ heap1, insert heap heap.size = some (heap1, false) ∧
      insert_checked heap heap.size = Except.ok (heap1, false) ∧
      heap1.size = heap.size + 1 ∧ heap1.capacity = heap.capacity ∧
      heap1.compare = int_diff ∧ ∀ j, 0 ≤ j → j < heap.size + 1 → heap1.data j = j := by
  have hins := insert_no_swap heap heap.size hlt (by
    by_cases hz : heap.size ≤ 0
    · exact Or.inl hz
    · right
      have hp := PARENT_bounds (not_le.1 hz)
      rw [hcmp, hdata _ hp.1 (by omega)]
      unfold int_diff
      omega)
  obtain ⟨r, hi, hic⟩ := insert_checked_ok heap heap.size h0
  rw [hins] at hi
  rw [← Option.some.inj hi] at hic
  refine ⟨_, hins, hic, rfl, rfl, hcmp, ?_⟩
  intro j hj0 hjs
  show Function.update heap.data heap.size heap.size j = j
  by_cases hj : j = heap.size
  · rw [hj, Function.update_same]
  · rw [Function.update_noteq hj]
    exact hdata j hj0 (by omega)

/-- Inserting `size, size + 1, ...` one after the other: no call faults, and slot `j` holds
`j` afterwards. -/
theorem run_checked_ascending (n : Nat) :
    ∀ (heap : MinHeap Int), heap.compare = int_diff → 0 ≤ heap.size →
      heap.size + n ≤ heap.capacity →
      (∀ j, 0 ≤ j → j < heap.size → heap.data j = j) →
      ∃ os heap1,
        run heap ((ascending_list heap.size n).map Call.insert) = some (os, heap1) ∧
        run_checked heap ((ascending_list heap.size n).map Call.insert)
          = Except.ok (os, heap1) ∧
        heap1.size = heap.size + n ∧ heap1.capacity = heap.capacity ∧
        heap1.compare = int_diff ∧ ∀ j, 0 ≤ j → j < heap1.size → heap1.data j = j := by
  induction n with
  | zero =>
    intro heap hcmp h0 _ hdata
    exact ⟨[], heap, rfl, rfl, by simp, rfl, hcmp, hdata⟩
  | succ n ih =>
    intro heap hcmp h0 hcap hdata
    push_cast at hcap
    obtain ⟨h1, hi, hic, hs1, hc1, hcmp1, hd1⟩ :=
      insert_ascending heap hcmp h0 (by omega) hdata
    obtain ⟨os, h2, hr, hrc, hs2, hc2, hcmp2, hd2⟩ := ih h1 hcmp1 (by omega)
      (by rw [hs1, hc1]; omega) (by rw [hs1]; exact hd1)
    rw [hs1] at hr hrc
    refine ⟨Outcome.inserted :: os, h2, ?_, ?_, ?_, hc2.trans hc1, hcmp2, hd2⟩
    · simp only [ascending_list, List.map_cons, run, call, hi, hr]
    · simp only [ascending_list, List.map_cons, run_checked, call_checked, hic, hrc]
    · rw [hs2, hs1]; push_cast; ring

/-- The same for the insertion loop of `main`. -/
theorem insert_all_checked_ascending (n : Nat) :
    ∀ (heap : MinHeap Int), heap.compare = int_diff → 0 ≤ heap.size →
      heap.size + n ≤ heap.capacity →
      (∀ j, 0 ≤ j → j < heap.size → heap.data j = j) →
      ∃ fulls heap1,
        insert_all_checked heap (ascending_list heap.size n) = Except.ok (heap1, fulls) ∧
        heap1.size = heap.size + n ∧ heap1.capacity = heap.capacity ∧
        heap1.compare = int_diff ∧ ∀ j, 0 ≤ j → j < heap1.size → heap1.data j = j := by
  induction n with
  | zero =>
    intro heap hcmp h0 _ hdata
    exact ⟨[], heap, rfl, by simp, rfl, hcmp, hdata⟩
  | succ n ih =>
    intro heap hcmp h0 hcap hdata
    push_cast at hcap
    obtain ⟨h1, _, hic, hs1, hc1, hcmp1, hd1⟩ :=
      insert_ascending heap hcmp h0 (by omega) hdata
    obtain ⟨fulls, h2, hrc, hs2, hc2, hcmp2, hd2⟩ := ih h1 hcmp1 (by omega)
      (by rw [hs1, hc1]; omega) (by rw [hs1]; exact hd1)
    rw [hs1] at hrc
    refine ⟨false :: fulls, h2, ?_, ?_, hc2.trans hc1, hcmp2, hd2⟩
    · simp only [ascending_list, insert_all_checked, hic, hrc]
    · rw [hs2, hs1]; push_cast; ring

/-- The sift-down of an element that is larger than every other one, in a heap of `2^30`
elements whose other slots `j` hold `j`: it goes down the left spine and, `d` levels
further, calls itself on the index `2^30 - 1`, whose right child index `2^31` is not an
`int`. -/
theorem spine_overflow (d : Nat) :
    ∀ (heap : MinHeap Int) (idx : Int) (fuel : Nat), heap.compare = int_diff →
      heap.size = 1073741824 → heap.size ≤ heap.capacity → 0 ≤ idx →
      (idx + 1) * 2 ^ d = 1073741824 → 1073741824 ≤ heap.data idx →
      (∀ j, idx < j → j < heap.size → heap.data j = j) → d < fuel →
      min_heapify_checked fuel heap idx = Except.error Fault.overflow := by
  induction d with
  | zero =>
    intro heap idx fuel _ _ _ hidx hpow _ _ hfuel
    obtain ⟨f, rfl⟩ : ∃ f, fuel = f + 1 := ⟨fuel - 1, by omega⟩
    apply min_heapify_checked_overflow
    right
    rw [RIGHT_eq]
    unfold INT_MAX
    simp only [pow_zero, mul_one] at hpow
    omega
  | succ d ih =>
    intro heap idx fuel hcmp hsize hcap hidx hpow hv hdata hfuel
    obtain ⟨f, rfl⟩ : ∃ f, fuel = f + 1 := ⟨fuel - 1, by omega⟩
    have hp1 : (1 : Int) ≤ 2 ^ d := one_le_pow₀ (by norm_num)
    have hpow2 : (2 * idx + 2) * 2 ^ d = 1073741824 := by
      rw [← hpow, pow_succ]; ring
    have hle : 2 * idx + 2 ≤ 1073741824 := by
      have h1 : (2 * idx + 2) * 1 ≤ (2 * idx + 2) * 2 ^ d :=
        mul_le_mul_of_nonneg_left hp1 (by omega)
      rw [hpow2] at h1
      omega
    have hL : LEFT idx = 2 * idx + 1 := LEFT_eq idx
    have hR : RIGHT idx = 2 * idx + 2 := RIGHT_eq idx
    have hLs : LEFT idx < heap.size := by rw [hL, hsize]; omega
    have hdL : heap.data (LEFT idx) = LEFT idx := hdata _ (by rw [hL]; omega) hLs
    have hm : smallest_of heap idx = LEFT idx := by
      apply (smallest_of_iff heap idx hidx).2.1.2
      refine ⟨⟨hLs, ?_⟩, ?_⟩
      · rw [hcmp, hdL, hL]; unfold int_diff; omega
      · rintro ⟨hRs, hlt⟩
        rw [hcmp, hdL, hdata _ (by rw [hR]; omega) hRs, hL, hR] at hlt
        unfold int_diff at hlt
        omega
    have hne : smallest_of heap idx ≠ idx := by rw [hm, hL]; omega
    rw [min_heapify_checked_step f heap idx hcap (by unfold INT_MAX; omega) hidx,
      if_pos hne, hm]
    refine ih { heap with data := swap heap.data idx (LEFT idx) } (LEFT idx) f hcmp hsize hcap
      (by rw [hL]; omega) ?_ ?_ ?_ ?_
    · rw [hL]
      have : 2 * idx + 1 + 1 = 2 * idx + 2 := by ring
      rw [this]; exact hpow2
    · show 1073741824 ≤ swap heap.data idx (LEFT idx) (LEFT idx)
      rw [swap_right]; exact hv
    · intro j hj hjs
      show swap heap.data idx (LEFT idx) j = j
      rw [swap_other _ (by rw [hL] at hj; omega) (by omega)]
      exact hdata j (by rw [hL] at hj; omega) hjs
    · omega

/-- On a heap of `2^30 + 1` elements whose slot `j` holds `j`, the sift-down of `pop`
overflows `int`. -/
theorem pop_checked_ascending_overflow (heap : MinHeap Int) (hcmp : heap.compare = int_diff)
    (hsize : heap.size = 1073741825) (hcap : heap.size ≤ heap.capacity)
    (hdata : ∀ j, 0 ≤ j → j < heap.size → heap.data j = j) :
    pop_checked heap = Except.error Fault.overflow := by
  have hr0 : read_slot heap 0 = Except.ok (heap.data 0) := by
    unfold read_slot
    rw [if_pos ⟨le_refl 0, by omega⟩]
  have hr1 : read_slot heap (heap.size - 1) = Except.ok (heap.data (heap.size - 1)) := by
    unfold read_slot
    rw [if_pos ⟨by omega, by omega⟩]
  have hw : write_slot heap 0 (heap.data (heap.size - 1))
      = Except.ok { heap with
          data := Function.update heap.data 0 (heap.data (heap.size - 1)) } := by
    unfold write_slot
    rw [if_pos ⟨le_refl 0, by omega⟩]
  have hmh : min_heapify_checked ((heap.size - 1).toNat + 1)
      { heap with size := heap.size - 1,
                  data := Function.update heap.data 0 (heap.data (heap.size - 1)) } 0
      = Except.error Fault.overflow := by
    refine spine_overflow 30
      { heap with size := heap.size - 1,
                  data := Function.update heap.data 0 (heap.data (heap.size - 1)) }
      0 ((heap.size - 1).toNat + 1) hcmp (by show heap.size - 1 = 1073741824; omega)
      (by show heap.size - 1 ≤ heap.capacity; omega) (le_refl 0) (by norm_num) ?_ ?_ ?_
    · show 1073741824 ≤ Function.update heap.data 0 (heap.data (heap.size - 1)) 0
      rw [Function.update_same, hdata _ (by omega) (by omega)]
      omega
    · intro j hj hjs
      have hjs1 : j < heap.size - 1 := hjs
      show Function.update heap.data 0 (heap.data (heap.size - 1)) j = j
      rw [Function.update_noteq (by omega)]
      exact hdata j (by omega) (by omega)
    · omega
  unfold pop_checked
  rw [if_neg (by omega), hr0]
  simp only
  rw [hr1]
  simp only
  rw [hw]
  simp only
  rw [hmh]

theorem ascending_list_length (n : Nat) : ∀ start : Int, (ascending_list start n).length = n := by
  induction n with
  | zero => intro start; rfl
  | succ n ih => intro start; simp only [ascending_list, List.length_cons, ih]

theorem ascending_heap_property (n : Int) : heap_property (ascending_heap n) := by
  intro i hi _
  show int_diff ((i - 1) / 2) i ≤ 0
  unfold int_diff
  omega

/-- The checked `min_heapify` on a well-formed heap, started at any index whose child
indices are representable, returns what `min_heapify` returns. -/
theorem min_heapify_checked_ok_at {α : Type} (fuel : Nat) :
    ∀ (heap : MinHeap α) (idx : Int) (heap1 : MinHeap α),
      heap.size ≤ heap.capacity → 2 * heap.size + 2 ≤ INT_MAX → 0 ≤ idx →
      2 * idx + 2 ≤ INT_MAX →
      min_heapify_fuel fuel heap idx = some heap1 →
      min_heapify_checked fuel heap idx = Except.ok heap1 := by
  induction fuel with
  | zero => intro heap idx heap1 _ _ _ _ h; exact absurd h (by simp [min_heapify_fuel])
  | succ n ih =>
    intro heap idx heap1 hcap hov hidx hovi h
    rw [min_heapify_fuel_succ] at h
    rw [min_heapify_checked_step n heap idx hcap hovi hidx]
    by_cases hne : smallest_of heap idx ≠ idx
    · rw [if_pos hne] at h ⊢
      obtain ⟨hlt, hsz, _⟩ := smallest_of_bounds heap idx hidx hne
      exact ih _ _ _ hcap hov (by omega) (by omega) h
    · rw [if_neg hne] at h ⊢
      rw [Option.some.inj h]

/-- The heap returned by `min_heapify` is the heap with the swaps along the indices of its
recursive calls, and the last of these indices is one where `smallest` stays put. -/
theorem min_heapify_calls_path {α : Type} (fuel : Nat) :
    ∀ (heap : MinHeap α) (idx : Int) (calls : List Int),
      min_heapify_calls fuel heap idx = some calls →
      min_heapify_fuel fuel heap idx = some (swap_path heap idx calls) ∧
      smallest_of (swap_path heap idx calls) (calls.getLastD idx) = calls.getLastD idx := by
  induction fuel with
  | zero => intro heap idx calls h; exact absurd h (by simp [min_heapify_calls])
  | succ n ih =>
    intro heap idx calls h
    rw [min_heapify_fuel_succ]
    by_cases hne : smallest_of heap idx ≠ idx
    · simp only [min_heapify_calls, if_pos hne] at h
      rw [if_pos hne]
      cases hr : min_heapify_calls n
          { heap with data := swap heap.data idx (smallest_of heap idx) }
          (smallest_of heap idx) with
      | none => rw [hr] at h; exact absurd h (by simp)
      | some rest =>
        rw [hr] at h
        have hc : calls = smallest_of heap idx :: rest := (Option.some.inj h).symm
        obtain ⟨h1, h2⟩ := ih _ _ _ hr
        rw [hc]
        refine ⟨h1, ?_⟩
        show smallest_of
          (swap_path { heap with data := swap heap.data idx (smallest_of heap idx) }
            (smallest_of heap idx) rest)
          ((smallest_of heap idx :: rest).getLastD idx)
            = (smallest_of heap idx :: rest).getLastD idx
        rw [List.getLastD_cons]
        exact h2
    · simp only [min_heapify_calls, if_neg hne] at h
      rw [if_neg hne, ← Option.some.inj h]
      exact ⟨rfl, not_not.1 hne⟩

/-- A fault of the first `pop` of the extraction is the fault of the whole scenario. -/
theorem insert_then_pop_all_checked_error {α : Type} (mem : Int → α) (elem_size : Nat)
    (capacity : Int) (cmp : α → α → Int) (xs : List α) (heap1 : MinHeap α)
    (fulls : List Bool) (e : Fault)
    (hi : insert_all_checked
      { data := mem, elem_size := elem_size, capacity := capacity, size := 0, compare := cmp }
      xs = Except.ok (heap1, fulls))
    (hp : pop_checked heap1 = Except.error e) :
    insert_then_pop_all_checked mem elem_size capacity cmp xs = Except.error e := by
  unfold insert_then_pop_all_checked
  simp only [create_min_heap]
  rw [hi]
  simp only [pop_all_fuel_checked, hp]

/-- A fault of the first `min_heapify` of `build_min_heap` is the fault of the whole call. -/
theorem build_min_heap_checked_error {α : Type} (heap : MinHeap α) (e : Fault)
    (hi : Int.tdiv heap.size 2 - 1 ≥ 0)
    (h : min_heapify_checked (heap.size.toNat + 1) heap (Int.tdiv heap.size 2 - 1)
      = Except.error e) :
    build_min_heap_checked heap = Except.error e := by
  unfold build_min_heap_checked
  simp only [build_loop_checked, if_pos hi, h]

/-- On the heap of size `2^30 + 1` that holds `-j` in slot `j`, the first `min_heapify` of
`build_min_heap`, at index `2^29 - 1`, swaps with the right child `2^30` and recurses
there, where the child indices overflow `int`. -/
theorem min_heapify_checked_descending_overflow :
    min_heapify_checked ((descending_heap 1073741825).size.toNat + 1)
      (descending_heap 1073741825) 536870911 = Except.error Fault.overflow := by
  have hstep := min_heapify_checked_step (descending_heap 1073741825).size.toNat
    (descending_heap 1073741825) 536870911 (le_refl _) (by decide) (by decide)
  have hsm : smallest_of (descending_heap 1073741825) 536870911 = 1073741824 := by decide
  rw [hsm, if_pos (by decide)] at hstep
  rw [hstep]
  exact min_heapify_checked_overflow 1073741824 _ _ (Or.inr (by decide))

end Overflow

section Claims3

variable {α : Type}

/-- C1, as stated, fails beyond the range of `int` indices: on a heap of capacity
`2^30 + 1`, after the inserts of `0, 1, ..., 2^30` the call of `pop` sifts down to index
`2^30 - 1`, where `RIGHT` is `2^31`: the `int` computation overflows (it wraps to `-2^31`),
so the call leaves the defined behaviour instead of returning a heap. -/
theorem heap_property_after_calls_overflow :
    (0 : Int) < 1073741825 ∧ SignOfTotalPreorder int_diff ∧
    wrap32 (RIGHT 1073741823) = -2147483648 ∧
    ∃ heap0, create_min_heap (fun _ => (0 : Int)) 4 1073741825 int_diff = some heap0 ∧
      run_checked heap0 ((ascending_list 0 1073741825).map Call.insert ++ [Call.pop])
        = Except.error Fault.overflow := by
  refine ⟨by decide, int_diff_sign, by decide, _, rfl, ?_⟩
  obtain ⟨os, h1, _, hrc, hs, hc, hcmp, hd⟩ := run_checked_ascending 1073741825
    ({ data := fun _ => (0 : Int), elem_size := 4, capacity := 1073741825, size := 0,
       compare := int_diff } : MinHeap Int)
    rfl (le_refl 0) (by decide) (fun j hj0 hjs => absurd hjs (not_lt.2 hj0))
  have hpop : pop_checked h1 = Except.error Fault.overflow :=
    pop_checked_ascending_overflow h1 hcmp (by rw [hs]; rfl) (by rw [hs, hc]; decide) hd
  exact run_checked_append_error _ _ os h1 [Call.pop] Fault.overflow hrc
    (by simp only [run_checked, call_checked, hpop])

/-- C1 (amended: heap invariant within the range of `int` indices).  For every capacity
above zero with `2 * capacity + 2 <= INT_MAX`, every comparator with the sign of a total
preorder and every finite sequence of `insert` and `pop` calls on the heap returned by
`create_min_heap`, the calls all return, without leaving the buffer and without `int`
overflow, and the resulting heap has the heap property:
`compare(data[(i-1)/2], data[i]) <= 0` for every index `0 < i < size`. -/
theorem heap_property_after_calls (mem : Int → α) (elem_size : Nat) (capacity : Int)
    (hcap : 0 < capacity) (hov : 2 * capacity + 2 ≤ INT_MAX) (cmp : α → α → Int)
    (hc : SignOfTotalPreorder cmp) (ops : List (Call α)) :
    ∃ heap0 os heap, create_min_heap mem elem_size capacity cmp = some heap0 ∧
      run heap0 ops = some (os, heap) ∧ run_checked heap0 ops = Except.ok (os, heap) ∧
      heap.compare = cmp ∧
      ∀ i : Int, 0 < i → i < heap.size →
        heap.compare (heap.data ((i - 1) / 2)) (heap.data i) ≤ 0 := by
  obtain ⟨os, heap, hrun, hcmp, hp⟩ :=
    run_invariant (fun h : MinHeap α => h.compare = cmp ∧ heap_property h)
      (by
        intro heap x heap1 full hI h
        obtain ⟨h1, f1, heq, e1, _, _, _, _, _, e2⟩ := insert_spec heap x
        rw [heq] at h
        obtain ⟨rfl, rfl⟩ := Prod.mk.inj (Option.some.inj h)
        exact ⟨e1.trans hI.1, e2 (hI.1 ▸ hc) hI.2⟩)
      (by
        intro heap r heap1 hI h
        obtain ⟨r1, h1, heq, e1, _, _, _, _, _, e2, _⟩ := pop_spec heap
        rw [heq] at h
        obtain ⟨rfl, rfl⟩ := Prod.mk.inj (Option.some.inj h)
        exact ⟨e1.trans hI.1, e2 (hI.1 ▸ hc) hI.2⟩)
      ops
      { data := mem, elem_size := elem_size, capacity := capacity, size := 0, compare := cmp }
      ⟨rfl, fun i hi his => by
        have his1 : i < 0 := his
        omega⟩
  exact ⟨_, os, heap, rfl, hrun,
    run_checked_ok ops _ _ (le_refl 0) (le_of_lt hcap) hov hrun, hcmp, hp⟩

theorem heap_property_after_calls_witness :
    (0 : Int) < 10 ∧ (2 * 10 + 2 : Int) ≤ INT_MAX ∧ SignOfTotalPreorder int_diff ∧
    ∃ heap0 os heap, create_min_heap (fun _ => 0) 4 10 int_diff = some heap0 ∧
      run heap0 [Call.insert 5, Call.insert 3, Call.pop, Call.insert 1] = some (os, heap) ∧
      run_checked heap0 [Call.insert 5, Call.insert 3, Call.pop, Call.insert 1]
        = Except.ok (os, heap) ∧
      heap.compare = int_diff ∧
      ∀ i : Int, 0 < i → i < heap.size →
        heap.compare (heap.data ((i - 1) / 2)) (heap.data i) ≤ 0 :=
  ⟨by decide, by decide, int_diff_sign,
    heap_property_after_calls (fun _ => 0) 4 10 (by decide) (by decide) int_diff int_diff_sign
      [Call.insert 5, Call.insert 3, Call.pop, Call.insert 1]⟩

/-- C8, as stated, fails beyond the range of `int` indices: on a heap of capacity
`2^30 + 1` the inserts of `0, 1, ..., 2^30` fill the heap, and the next `pop` does not
return: its sift-down reaches index `2^30 - 1`, whose right child index `2^31` overflows
`int` (it wraps to `-2^31`, which passes the test `right < size`). -/
theorem size_within_capacity_overflow :
    (0 : Int) < 1073741825 ∧ wrap32 (RIGHT 1073741823) = -2147483648 ∧
    (-2147483648 : Int) < 1073741824 ∧
    ∃ heap0, create_min_heap (fun j => j) 4 1073741825 int_diff = some heap0 ∧
      ∃ os heap1,
        run_checked heap0 ((ascending_list 0 1073741825).map Call.insert)
          = Except.ok (os, heap1) ∧
        heap1.size = 1073741825 ∧ heap1.capacity = 1073741825 ∧
        run_checked heap1 [Call.pop] = Except.error Fault.overflow := by
  refine ⟨by decide, by decide, by decide, _, rfl, ?_⟩
  obtain ⟨os, h1, _, hrc, hs, hc, hcmp, hd⟩ := run_checked_ascending 1073741825
    ({ data := fun j => j, elem_size := 4, capacity := 1073741825, size := 0,
       compare := int_diff } : MinHeap Int)
    rfl (le_refl 0) (by decide) (fun j hj0 hjs => absurd hjs (not_lt.2 hj0))
  have hpop : pop_checked h1 = Except.error Fault.overflow :=
    pop_checked_ascending_overflow h1 hcmp (by rw [hs]; rfl) (by rw [hs, hc]; decide) hd
  exact ⟨os, h1, hrc, by rw [hs]; rfl, hc,
    by simp only [run_checked, call_checked, hpop]⟩

/-- C8 (amended: size stays within capacity, within the range of `int` indices).  For every
capacity above zero with `2 * capacity + 2 <= INT_MAX`, `create_min_heap` returns a heap
with `size` 0 and the given capacity and comparator, and every finite sequence of `insert`
and `pop` calls on it returns, without leaving the buffer and without `int` overflow; after
it the heap has `0 <= size <= capacity`, its capacity is the given one, and no slot outside
`[0, capacity)` has been written. -/
theorem size_within_capacity (mem : Int → α) (elem_size : Nat) (capacity : Int)
    (hcap : 0 < capacity) (hov : 2 * capacity + 2 ≤ INT_MAX) (cmp : α → α → Int)
    (ops : List (Call α)) :
    ∃ heap0, create_min_heap mem elem_size capacity cmp = some heap0 ∧
      heap0.size = 0 ∧ heap0.capacity = capacity ∧ heap0.compare = cmp ∧
      ∃ os heap, run heap0 ops = some (os, heap) ∧
        run_checked heap0 ops = Except.ok (os, heap) ∧
        0 ≤ heap.size ∧ heap.size ≤ heap.capacity ∧ heap.capacity = capacity ∧
        ∀ j : Int, (j < 0 ∨ capacity ≤ j) → heap.data j = mem j := by
  refine ⟨_, rfl, rfl, rfl, rfl, ?_⟩
  obtain ⟨os, heap, hrun, h1, h2, h3, h4⟩ :=
    run_invariant
      (fun h : MinHeap α => 0 ≤ h.size ∧ h.size ≤ h.capacity ∧ h.capacity = capacity ∧
        ∀ j : Int, (j < 0 ∨ capacity ≤ j) → h.data j = mem j)
      (by
        intro heap x heap1 full hI h
        obtain ⟨h1, f1, heq, _, e2, e3, e4, e5, e6, _⟩ := insert_spec heap x
        rw [heq] at h
        obtain ⟨rfl, rfl⟩ := Prod.mk.inj (Option.some.inj h)
        obtain ⟨i1, i2, i3, i4⟩ := hI
        cases f1 with
        | true => rw [e4 rfl]; exact ⟨i1, i2, i3, i4⟩
        | false =>
          have hsz := e5 rfl
          have hnf : ¬ heap.size ≥ heap.capacity := fun hge => by
            have := e3.2 hge
            exact absurd this (by simp)
          refine ⟨by omega, by omega, e2.trans i3, fun j hj => ?_⟩
          rw [e6 i1 j (by rw [i3]; exact hj)]
          exact i4 j hj)
      (by
        intro heap r heap1 hI h
        obtain ⟨r1, h1, heq, _, e2, e3, e4, e5, e6, _⟩ := pop_spec heap
        rw [heq] at h
        obtain ⟨rfl, rfl⟩ := Prod.mk.inj (Option.some.inj h)
        obtain ⟨i1, i2, i3, i4⟩ := hI
        cases r1 with
        | none => rw [e4 rfl]; exact ⟨i1, i2, i3, i4⟩
        | some y =>
          have hsz := (e5 (by simp)).2
          have hpos : ¬ heap.size ≤ 0 := fun hle => by
            have := e3.2 hle
            exact absurd this (by simp)
          refine ⟨by omega, by omega, e2.trans i3, fun j hj => ?_⟩
          rw [e6 i2 j (by rw [i3]; exact hj)]
          exact i4 j hj)
      ops
      { data := mem, elem_size := elem_size, capacity := capacity, size := 0, compare := cmp }
      ⟨le_refl 0, le_of_lt hcap, rfl, fun _ _ => rfl⟩
  exact ⟨os, heap, hrun, run_checked_ok ops _ _ (le_refl 0) (le_of_lt hcap) hov hrun,
    h1, h2, h3, h4⟩

theorem size_within_capacity_witness :
    (0 : Int) < 2 ∧ (2 * 2 + 2 : Int) ≤ INT_MAX ∧
    ∃ heap0, create_min_heap (fun _ => (0 : Int)) 4 2 compare_int = some heap0 ∧
      heap0.size = 0 ∧ heap0.capacity = 2 ∧ heap0.compare = compare_int ∧
      ∃ os heap,
        run heap0 [Call.insert 5, Call.insert 3, Call.insert 7, Call.pop] = some (os, heap) ∧
        run_checked heap0 [Call.insert 5, Call.insert 3, Call.insert 7, Call.pop]
          = Except.ok (os, heap) ∧
        0 ≤ heap.size ∧ heap.size ≤ heap.capacity ∧ heap.capacity = 2 ∧
        ∀ j : Int, (j < 0 ∨ 2 ≤ j) → heap.data j = (fun _ => (0 : Int)) j :=
  ⟨by decide, by decide, size_within_capacity (fun _ => (0 : Int)) 4 2 (by decide) (by decide)
    compare_int [Call.insert 5, Call.insert 3, Call.insert 7, Call.pop]⟩

/-- C9, as stated, fails beyond the range of `int` indices: on a heap of capacity
`2^30 + 1` emptied by an `insert` and a `pop`, and on a fresh heap of the same capacity and
comparator, the sequence of the inserts of `0, 1, ..., 2^30` followed by `pop` does not run
to its end: the `pop` overflows `int` in the right child index at `2^30 - 1`. -/
theorem emptied_heap_behaves_like_fresh_overflow :
    ∃ h0 os1 h f,
      create_min_heap (fun _ => (0 : Int)) 4 1073741825 int_diff = some h0 ∧
      run h0 [Call.insert 7, Call.pop] = some (os1, h) ∧ h.size = 0 ∧ h.data 0 = 7 ∧
      create_min_heap (fun _ => (0 : Int)) 4 1073741825 int_diff = some f ∧
      run_checked h ((ascending_list 0 1073741825).map Call.insert ++ [Call.pop])
        = Except.error Fault.overflow ∧
      run_checked f ((ascending_list 0 1073741825).map Call.insert ++ [Call.pop])
        = Except.error Fault.overflow := by
  have key : ∀ heap : MinHeap Int, heap.compare = int_diff → heap.size = 0 →
      heap.capacity = 1073741825 →
      run_checked heap ((ascending_list 0 1073741825).map Call.insert ++ [Call.pop])
        = Except.error Fault.overflow := by
    intro heap hcmp0 hs0 hc0
    obtain ⟨os, h1, _, hrc, hs, hc, hcmp, hd⟩ := run_checked_ascending 1073741825 heap
      hcmp0 (by rw [hs0]) (by rw [hs0, hc0]; decide)
      (fun j hj0 hjs => by rw [hs0] at hjs; exact absurd hjs (not_lt.2 hj0))
    rw [hs0] at hrc hs
    have hpop : pop_checked h1 = Except.error Fault.overflow :=
      pop_checked_ascending_overflow h1 hcmp (by rw [hs]; rfl) (by rw [hs, hc, hc0]; decide) hd
    exact run_checked_append_error _ _ os h1 [Call.pop] Fault.overflow hrc
      (by simp only [run_checked, call_checked, hpop])
  exact ⟨_, _, _, _, rfl, rfl, rfl, rfl, rfl, key _ rfl rfl rfl, key _ rfl rfl rfl⟩

/-- C9 (amended: no residual state, within the range of `int` indices).  Let `h` be a heap
brought to `size` 0 by any sequence of `insert` and `pop` calls on a created heap, and `f`
a freshly created heap with the same capacity and comparator, where
`2 * capacity + 2 <= INT_MAX`.  Every further sequence of calls runs to its end on
both, without leaving the buffer and without `int` overflow, gives the same outcomes
(popped values, `NULL`, full signals), the same `size` and the same contents of the
occupied slots `[0, size)`.  As the sequence is arbitrary this holds after each of its
calls: what the unused slots hold never influences the behaviour. -/
theorem emptied_heap_behaves_like_fresh (mem1 mem2 : Int → α) (es1 es2 : Nat)
    (capacity : Int) (hov : 2 * capacity + 2 ≤ INT_MAX)
    (cmp : α → α → Int) (ops1 : List (Call α)) (os1 : List (Outcome α))
    (h0 h f : MinHeap α)
    (hcreate : create_min_heap mem1 es1 capacity cmp = some h0)
    (hrun : run h0 ops1 = some (os1, h)) (hempty : h.size = 0)
    (hfresh : create_min_heap mem2 es2 capacity cmp = some f)
    (ops : List (Call α)) :
    ∃ os h1 f1, run h ops = some (os, h1) ∧ run f ops = some (os, f1) ∧
      run_checked h ops = Except.ok (os, h1) ∧ run_checked f ops = Except.ok (os, f1) ∧
      h1.size = f1.size ∧ ∀ j : Int, 0 ≤ j → j < h1.size → h1.data j = f1.data j := by
  have hh0 : h0 = { data := mem1, elem_size := es1, capacity := capacity, size := 0,
                    compare := cmp } := (Option.some.inj hcreate).symm
  have hf : f = { data := mem2, elem_size := es2, capacity := capacity, size := 0,
                  compare := cmp } := (Option.some.inj hfresh).symm
  obtain ⟨os2, h2, hrun2, hcap2, hcmp2⟩ :=
    run_invariant (fun k : MinHeap α => k.capacity = capacity ∧ k.compare = cmp)
      (by
        intro heap x heap1 full hI he
        obtain ⟨k1, f1, heq, e1, e2, _⟩ := insert_spec heap x
        rw [heq] at he
        obtain ⟨rfl, rfl⟩ := Prod.mk.inj (Option.some.inj he)
        exact ⟨e2.trans hI.1, e1.trans hI.2⟩)
      (by
        intro heap r heap1 hI he
        obtain ⟨r1, k1, heq, e1, e2, _⟩ := pop_spec heap
        rw [heq] at he
        obtain ⟨rfl, rfl⟩ := Prod.mk.inj (Option.some.inj he)
        exact ⟨e2.trans hI.1, e1.trans hI.2⟩)
      ops1 h0 (by rw [hh0]; exact ⟨rfl, rfl⟩)
  rw [hrun] at hrun2
  obtain ⟨_, rfl⟩ := Prod.mk.inj (Option.some.inj hrun2)
  have ha : agree h f := by
    rw [hf]
    exact ⟨hempty, hcap2, hcmp2, fun j hj0 hjs => by omega⟩
  obtain ⟨os, h1, f1, r1, r2, a1, _, _, a4⟩ := run_agree ops h f ha
  have hchk : ∀ k : MinHeap α, k.size = 0 → k.capacity = capacity →
      ∀ r, run k ops = some r → run_checked k ops = Except.ok r := by
    intro k hk0 hkc r hr
    by_cases hc0 : 0 ≤ capacity
    · exact run_checked_ok ops k r (by omega) (by omega) (by rw [hkc]; exact hov) hr
    · exact run_checked_ok_closed ops k r (by omega) (by omega) hr
  have hfs : f.size = 0 := by rw [hf]
  have hfc : f.capacity = capacity := by rw [hf]
  exact ⟨os, h1, f1, r1, r2, hchk h hempty hcap2 _ r1, hchk f hfs hfc _ r2, a1, a4⟩

theorem emptied_heap_behaves_like_fresh_witness :
    (2 * 3 + 2 : Int) ≤ INT_MAX ∧
    ∃ os1 h,
      run ({ data := fun i => i, elem_size := 4, capacity := 3, size := 0,
             compare := compare_int } : MinHeap Int)
        [Call.insert 4, Call.insert 2, Call.pop, Call.pop] = some (os1, h) ∧
      h.size = 0 ∧ h.data 0 = 4 ∧
      ∃ os h1 f1,
        run h [Call.insert 7, Call.pop, Call.pop] = some (os, h1) ∧
        run ({ data := fun _ => 0, elem_size := 4, capacity := 3, size := 0,
               compare := compare_int } : MinHeap Int)
          [Call.insert 7, Call.pop, Call.pop] = some (os, f1) ∧
        run_checked h [Call.insert 7, Call.pop, Call.pop] = Except.ok (os, h1) ∧
        run_checked ({ data := fun _ => 0, elem_size := 4, capacity := 3, size := 0,
                       compare := compare_int } : MinHeap Int)
          [Call.insert 7, Call.pop, Call.pop] = Except.ok (os, f1) ∧
        h1.size = f1.size ∧ ∀ j : Int, 0 ≤ j → j < h1.size → h1.data j = f1.data j :=
  ⟨by decide, _, _, rfl, rfl, rfl,
    emptied_heap_behaves_like_fresh (fun i => i) (fun _ => 0) 4 4 3 (by decide)
      compare_int [Call.insert 4, Call.insert 2, Call.pop, Call.pop] _ _ _ _ rfl rfl rfl rfl
      [Call.insert 7, Call.pop, Call.pop]⟩

/-- C2, as stated, fails beyond the range of `int` indices: with a capacity of `2^30 + 1`
and the list `0, 1, ..., 2^30` (its length is the capacity) the inserts all return, and the
first `pop` of the extraction does not: its sift-down overflows `int` in the right child
index at `2^30 - 1`. -/
theorem sorted_extraction_overflow :
    SignOfTotalPreorder int_diff ∧
    ((ascending_list 0 1073741825).length : Int) ≤ 1073741825 ∧
    insert_then_pop_all_checked (fun _ => (0 : Int)) 4 1073741825 int_diff
      (ascending_list 0 1073741825) = Except.error Fault.overflow := by
  refine ⟨int_diff_sign, ?_, ?_⟩
  · rw [ascending_list_length]; norm_num
  · obtain ⟨fulls, h1, hia, hs, hc, hcmp, hd⟩ := insert_all_checked_ascending 1073741825
      ({ data := fun _ => (0 : Int), elem_size := 4, capacity := 1073741825, size := 0,
         compare := int_diff } : MinHeap Int)
      rfl (le_refl 0) (by decide) (fun j hj0 hjs => absurd hjs (not_lt.2 hj0))
    have hpop : pop_checked h1 = Except.error Fault.overflow :=
      pop_checked_ascending_overflow h1 hcmp (by rw [hs]; rfl) (by rw [hs, hc]; decide) hd
    exact insert_then_pop_all_checked_error _ _ _ _ _ h1 fulls _ hia hpop

/-- C2 (amended: sorted extraction, within the range of `int` indices).  For every
comparator with the sign of a total preorder and every list `xs` with length at most the
capacity and `2 * |xs| + 2 <= INT_MAX`, inserting the elements of `xs` in order into a fresh
heap and then calling `pop` until it returns `NULL` runs to its end, without leaving the
buffer and without `int` overflow, and yields a sequence of length `|xs|` in which each
popped element compares `<= 0` against the next one.  The scenario of `main`: inserting
5,3,7,1,4,6,2 into a capacity-10 heap ordered by `compare_int` pops exactly 1,2,3,4,5,6,7,
whatever the buffer held at allocation. -/
theorem sorted_extraction (cmp : α → α → Int) (hc : SignOfTotalPreorder cmp) (xs : List α)
    (capacity : Int) (hlen : (xs.length : Int) ≤ capacity)
    (hov : 2 * (xs.length : Int) + 2 ≤ INT_MAX) (mem : Int → α) (elem_size : Nat) :
    (∃ out, insert_then_pop_all mem elem_size capacity cmp xs = some out ∧
      insert_then_pop_all_checked mem elem_size capacity cmp xs = Except.ok out ∧
      out.length = xs.length ∧ List.Chain' (fun a b => cmp a b ≤ 0) out) ∧
    (∀ (mem1 : Int → Int) (elem_size1 : Nat),
      insert_then_pop_all mem1 elem_size1 10 compare_int [5, 3, 7, 1, 4, 6, 2]
        = some [1, 2, 3, 4, 5, 6, 7] ∧
      insert_then_pop_all_checked mem1 elem_size1 10 compare_int [5, 3, 7, 1, 4, 6, 2]
        = Except.ok [1, 2, 3, 4, 5, 6, 7]) := by
  constructor
  · obtain ⟨h1, fulls, hi, hs1, hp1, hc1⟩ := insert_all_spec xs
      ({ data := mem, elem_size := elem_size, capacity := capacity, size := 0,
         compare := cmp } : MinHeap α)
      hc (fun i hi his => by
        have his1 : i < 0 := his
        omega)
      (by show (0 : Int) + xs.length ≤ capacity; omega)
    have hs2 : h1.size = xs.length := by
      rw [hs1]; show (0 : Int) + xs.length = xs.length; omega
    obtain ⟨out, h2, hq, hl, hch, _⟩ := pop_all_fuel_sorted cmp hc (h1.size.toNat + 1) h1 hc1
      hp1 (by omega) (by omega)
    have hrun : insert_then_pop_all mem elem_size capacity cmp xs = some out := by
      simp [insert_then_pop_all, create_min_heap, hi, pop_all, hq]
    refine ⟨out, hrun, ?_, ?_, hch⟩
    · exact insert_then_pop_all_checked_ok mem elem_size capacity cmp xs out hlen hov hrun
    · have : (out.length : Int) = (xs.length : Int) := hl.trans hs2
      exact_mod_cast this
  · intro mem1 elem_size1
    have hrun : insert_then_pop_all mem1 elem_size1 10 compare_int [5, 3, 7, 1, 4, 6, 2]
        = some [1, 2, 3, 4, 5, 6, 7] :=
      insert_then_pop_all_agree (fun _ => 0) mem1 4 elem_size1 10 compare_int _ _
        (by decide!)
    exact ⟨hrun, insert_then_pop_all_checked_ok mem1 elem_size1 10 compare_int _ _
      (by decide) (by decide) hrun⟩

theorem sorted_extraction_witness :
    SignOfTotalPreorder int_diff ∧ (([9, 2, 7, 2].length : Int) ≤ 6) ∧
    (2 * ([9, 2, 7, 2].length : Int) + 2 ≤ INT_MAX) ∧
    (∃ out, insert_then_pop_all (fun _ => 0) 4 6 int_diff [9, 2, 7, 2] = some out ∧
      insert_then_pop_all_checked (fun _ => 0) 4 6 int_diff [9, 2, 7, 2] = Except.ok out ∧
      out.length = [9, 2, 7, 2].length ∧ List.Chain' (fun a b => int_diff a b ≤ 0) out) ∧
    (∀ (mem1 : Int → Int) (elem_size1 : Nat),
      insert_then_pop_all mem1 elem_size1 10 compare_int [5, 3, 7, 1, 4, 6, 2]
        = some [1, 2, 3, 4, 5, 6, 7] ∧
      insert_then_pop_all_checked mem1 elem_size1 10 compare_int [5, 3, 7, 1, 4, 6, 2]
        = Except.ok [1, 2, 3, 4, 5, 6, 7]) :=
  ⟨int_diff_sign, by decide, by decide,
    sorted_extraction int_diff int_diff_sign [9, 2, 7, 2] 6 (by decide) (by decide)
      (fun _ => 0) 4⟩

/-- C3, as stated, fails beyond the range of `int` indices: the heap of size `2^30 + 1`
that holds `j` in slot `j` has the heap property, and `pop` on it does not return: its
sift-down overflows `int` in the right child index at `2^30 - 1`. -/
theorem pop_returns_minimum_overflow :
    SignOfTotalPreorder (ascending_heap 1073741825).compare ∧
    0 < (ascending_heap 1073741825).size ∧
    (ascending_heap 1073741825).size ≤ (ascending_heap 1073741825).capacity ∧
    heap_property (ascending_heap 1073741825) ∧
    pop_checked (ascending_heap 1073741825) = Except.error Fault.overflow :=
  ⟨int_diff_sign, by decide, le_refl _, ascending_heap_property 1073741825,
    pop_checked_ascending_overflow (ascending_heap 1073741825) rfl rfl (le_refl _)
      (fun _ _ _ => rfl)⟩

/-- C3 (amended: extract-min returns the minimum, within the range of `int` indices).  For
every heap with `0 < size <= capacity` and `2 * size + 2 <= INT_MAX` that has the heap
property under a comparator with the sign of a total preorder, `pop` returns, without
leaving the buffer and without `int` overflow, a copy of the element stored at index `0`
before the call, and that element does not compare strictly above any element of the slots
`[0, size)` of the heap before the call. -/
theorem pop_returns_minimum (heap : MinHeap α) (hc : SignOfTotalPreorder heap.compare)
    (hsize : 0 < heap.size) (hcap : heap.size ≤ heap.capacity)
    (hov : 2 * heap.size + 2 ≤ INT_MAX) (hp : heap_property heap) :
    ∃ heap1, pop heap = some (some (heap.data 0), heap1) ∧
      pop_checked heap = Except.ok (some (heap.data 0), heap1) ∧
      ∀ j : Int, 0 ≤ j → j < heap.size → heap.compare (heap.data 0) (heap.data j) ≤ 0 := by
  obtain ⟨heap1, h1, _⟩ := pop_heap heap hc hsize hp
  obtain ⟨r, hr, hrc⟩ := pop_checked_ok heap (le_of_lt hsize) hcap hov
  rw [h1] at hr
  rw [← Option.some.inj hr] at hrc
  exact ⟨heap1, h1, hrc, root_le_all heap hc hp⟩

theorem pop_returns_minimum_witness :
    ∃ heap1, pop ({ data := fun i => i, elem_size := 4, capacity := 5, size := 3,
                    compare := int_diff } : MinHeap Int) = some (some 0, heap1) ∧
      pop_checked ({ data := fun i => i, elem_size := 4, capacity := 5, size := 3,
                     compare := int_diff } : MinHeap Int) = Except.ok (some 0, heap1) ∧
      ∀ j : Int, 0 ≤ j → j < 3 → int_diff 0 j ≤ 0 :=
  pop_returns_minimum
    ({ data := fun i => i, elem_size := 4, capacity := 5, size := 3, compare := int_diff } :
      MinHeap Int)
    int_diff_sign (by decide) (by decide) (by decide)
    (fun i hi his => by
      have his1 : i < 3 := his
      show int_diff ((i - 1) / 2) i ≤ 0
      unfold int_diff; omega)

/-- C6, as stated, fails beyond the range of `int` indices: on the heap of size `2^30 + 1`
(capacity `2 * 10^9`) that holds `j` in slot `j`, `pop` does not return with `size` lowered
by one: its sift-down overflows `int` in the right child index at `2^30 - 1`. -/
theorem size_accounting_overflow :
    ∃ heap : MinHeap Int, 0 ≤ heap.size ∧ heap.size ≤ heap.capacity ∧ 0 < heap.size ∧
      heap.capacity ≤ INT_MAX ∧ pop_checked heap = Except.error Fault.overflow :=
  ⟨{ data := fun j => j, elem_size := 4, capacity := 2000000000, size := 1073741825,
     compare := int_diff },
    by decide, by decide, by decide, by decide,
    pop_checked_ascending_overflow _ rfl rfl (by decide) (fun _ _ _ => rfl)⟩

/-- C6 (amended: size accounting, within the range of `int` indices).  For every heap with
`0 <= size <= capacity`: `insert` raises `size` by exactly one when `size < capacity` and
leaves it unchanged when `size == capacity`; `pop` lowers `size` by exactly one when
`size > 0` and `2 * size + 2 <= INT_MAX`, and leaves it unchanged when `size == 0`; neither
call changes `capacity`, and in each of these cases the call returns without leaving the
buffer and without `int` overflow. -/
theorem size_accounting (heap : MinHeap α) (x : α) (h0 : 0 ≤ heap.size)
    (hcap : heap.size ≤ heap.capacity) :
    (heap.size < heap.capacity →
      ∃ heap1, insert heap x = some (heap1, false) ∧
        insert_checked heap x = Except.ok (heap1, false) ∧ heap1.size = heap.size + 1 ∧
        heap1.capacity = heap.capacity) ∧
    (heap.size = heap.capacity →
      ∃ heap1, insert heap x = some (heap1, true) ∧
        insert_checked heap x = Except.ok (heap1, true) ∧ heap1.size = heap.size ∧
        heap1.capacity = heap.capacity) ∧
    (0 < heap.size → 2 * heap.size + 2 ≤ INT_MAX →
      ∃ r heap1, pop heap = some (some r, heap1) ∧
        pop_checked heap = Except.ok (some r, heap1) ∧ heap1.size = heap.size - 1 ∧
        heap1.capacity = heap.capacity) ∧
    (heap.size = 0 →
      ∃ heap1, pop heap = some (none, heap1) ∧ pop_checked heap = Except.ok (none, heap1) ∧
        heap1.size = heap.size ∧ heap1.capacity = heap.capacity) := by
  refine ⟨?_, ?_, ?_, ?_⟩
  · intro h
    obtain ⟨σ, hσ, _⟩ := insert_ok heap x h
    obtain ⟨r, hr, hrc⟩ := insert_checked_ok heap x h0
    rw [hσ] at hr
    rw [← Option.some.inj hr] at hrc
    exact ⟨_, hσ, hrc, rfl, rfl⟩
  · intro h
    have hi := insert_full heap x (le_of_eq h.symm)
    obtain ⟨r, hr, hrc⟩ := insert_checked_ok heap x h0
    rw [hi] at hr
    rw [← Option.some.inj hr] at hrc
    exact ⟨heap, hi, hrc, rfl, rfl⟩
  · intro h hov
    obtain ⟨σ, hσ, _⟩ := pop_ok heap h
    obtain ⟨r, hr, hrc⟩ := pop_checked_ok heap h0 hcap hov
    rw [hσ] at hr
    rw [← Option.some.inj hr] at hrc
    exact ⟨_, _, hσ, hrc, rfl, rfl⟩
  · intro h
    exact ⟨heap, pop_empty heap (le_of_eq h), pop_checked_empty heap (le_of_eq h), rfl, rfl⟩

theorem size_accounting_witness :
    ((2 : Int) < 5 →
      ∃ heap1, insert ({ data := fun i => i, elem_size := 4, capacity := 5, size := 2,
                         compare := compare_int } : MinHeap Int) 9 = some (heap1, false) ∧
        insert_checked ({ data := fun i => i, elem_size := 4, capacity := 5, size := 2,
                          compare := compare_int } : MinHeap Int) 9
          = Except.ok (heap1, false) ∧
        heap1.size = 2 + 1 ∧ heap1.capacity = 5) ∧
    ((2 : Int) = 5 →
      ∃ heap1, insert ({ data := fun i => i, elem_size := 4, capacity := 5, size := 2,
                         compare := compare_int } : MinHeap Int) 9 = some (heap1, true) ∧
        insert_checked ({ data := fun i => i, elem_size := 4, capacity := 5, size := 2,
                          compare := compare_int } : MinHeap Int) 9
          = Except.ok (heap1, true) ∧
        heap1.size = 2 ∧ heap1.capacity = 5) ∧
    ((0 : Int) < 2 → 2 * (2 : Int) + 2 ≤ INT_MAX →
      ∃ r heap1, pop ({ data := fun i => i, elem_size := 4, capacity := 5, size := 2,
                        compare := compare_int } : MinHeap Int) = some (some r, heap1) ∧
        pop_checked ({ data := fun i => i, elem_size := 4, capacity := 5, size := 2,
                       compare := compare_int } : MinHeap Int)
          = Except.ok (some r, heap1) ∧
        heap1.size = 2 - 1 ∧ heap1.capacity = 5) ∧
    ((2 : Int) = 0 →
      ∃ heap1, pop ({ data := fun i => i, elem_size := 4, capacity := 5, size := 2,
                      compare := compare_int } : MinHeap Int) = some (none, heap1) ∧
        pop_checked ({ data := fun i => i, elem_size := 4, capacity := 5, size := 2,
                       compare := compare_int } : MinHeap Int) = Except.ok (none, heap1) ∧
        heap1.size = 2 ∧ heap1.capacity = 5) :=
  size_accounting
    ({ data := fun i => i, elem_size := 4, capacity := 5, size := 2, compare := compare_int } :
      MinHeap Int)
    9 (by decide) (by decide)

/-- C10, as stated, fails beyond the range of `int` indices: on the heap of size `2^30 + 1`
that holds `j` in slot `j`, the index `i = 2^30 - 1` is below `size` and has no child below
`size`, so the hypotheses hold; but `min_heapify(heap, i)` computes `RIGHT(i) = 2^31`, which
overflows `int` (it wraps to `-2^31`), and the call does not return a heap. -/
theorem min_heapify_restores_subtree_overflow :
    SignOfTotalPreorder (ascending_heap 1073741825).compare ∧
    (0 : Int) ≤ 1073741823 ∧ 1073741823 < (ascending_heap 1073741825).size ∧
    ¬ LEFT 1073741823 < (ascending_heap 1073741825).size ∧
    ¬ RIGHT 1073741823 < (ascending_heap 1073741825).size ∧
    wrap32 (RIGHT 1073741823) = -2147483648 ∧
    min_heapify_checked ((ascending_heap 1073741825).size.toNat + 1)
      (ascending_heap 1073741825) 1073741823 = Except.error Fault.overflow :=
  ⟨int_diff_sign, by decide, by decide, by decide, by decide, by decide,
    min_heapify_checked_overflow _ _ _ (Or.inr (by decide))⟩

/-- C10 (amended: sift-down contract, within the range of `int` indices).  For every heap
with `size <= capacity` and `2 * size + 2 <= INT_MAX`, every comparator with the sign of a
total preorder and every index `i` with `0 <= i < size` such that the subtrees rooted at
`left(i)` and `right(i)` (those below `size`) each have the heap property,
`min_heapify(heap, i)` returns, without leaving the buffer and without `int` overflow, the
heap with the same `size`, `capacity` and comparator whose buffer is the old one read
through a permutation that moves only occupied slots of the subtree rooted at `i`, and
afterwards that whole subtree has the heap property: every slot of it other than `i`
compares `>=` its parent. -/
theorem min_heapify_restores_subtree (heap : MinHeap α)
    (hc : SignOfTotalPreorder heap.compare) (i : Int) (hi0 : 0 ≤ i) (hi : i < heap.size)
    (hcap : heap.size ≤ heap.capacity) (hov : 2 * heap.size + 2 ≤ INT_MAX)
    (hleft : LEFT i < heap.size → subtree_heap heap (LEFT i))
    (hright : RIGHT i < heap.size → subtree_heap heap (RIGHT i)) :
    ∃ (heap1 : MinHeap α) (σ : Equiv.Perm Int), min_heapify heap i = some heap1 ∧
      min_heapify_checked (heap.size.toNat + 1) heap i = Except.ok heap1 ∧
      heap1.size = heap.size ∧ heap1.capacity = heap.capacity ∧
      heap1.compare = heap.compare ∧
      (∀ j, heap1.data j = heap.data (σ j)) ∧
      (∀ j, ¬ (InSubtree i j ∧ j < heap.size) → σ j = j) ∧
      ∀ j : Int, InSubtree i j → j ≠ i → j < heap1.size →
        heap1.compare (heap1.data (PARENT j)) (heap1.data j) ≤ 0 := by
  have hsub : ∀ c, 0 ≤ c → (c < heap.size → subtree_heap heap c) → subtree_heap heap c := by
    intro c hc0 himp
    by_cases hcs : c < heap.size
    · exact himp hcs
    · intro j hj _ hjs
      have := hj.le hc0
      omega
  obtain ⟨σ, hσ, hfix⟩ := min_heapify_fuel_perm (heap.size.toNat + 1) heap i hi0
    (by push_cast; omega) (by omega)
  obtain ⟨heap1, h1, h2, _⟩ := min_heapify_fuel_heap (heap.size.toNat + 1) heap i hc hi0
    (by push_cast; omega) (by omega)
    (hsub _ (by rw [LEFT_eq]; omega) hleft) (hsub _ (by rw [RIGHT_eq]; omega) hright)
  have heq : heap1 = { heap with data := heap.data ∘ σ } := by
    rw [hσ] at h1; exact (Option.some.inj h1).symm
  subst heq
  exact ⟨_, σ, hσ, min_heapify_checked_ok _ heap i _ hcap hov hi0 (le_of_lt hi) hσ,
    rfl, rfl, rfl, fun j => rfl, hfix, h2⟩

theorem min_heapify_restores_subtree_witness :
    ∃ (heap1 : MinHeap Int) (σ : Equiv.Perm Int),
      min_heapify ({ data := fun i => if i = 0 then 9 else i, elem_size := 4, capacity := 5,
                     size := 3, compare := int_diff } : MinHeap Int) 0 = some heap1 ∧
      min_heapify_checked ((3 : Int).toNat + 1)
        ({ data := fun i => if i = 0 then 9 else i, elem_size := 4, capacity := 5,
           size := 3, compare := int_diff } : MinHeap Int) 0 = Except.ok heap1 ∧
      heap1.size = 3 ∧ heap1.capacity = 5 ∧ heap1.compare = int_diff ∧
      (∀ j, heap1.data j = (fun i => if i = 0 then 9 else i) (σ j)) ∧
      (∀ j, ¬ (InSubtree 0 j ∧ j < 3) → σ j = j) ∧
      ∀ j : Int, InSubtree 0 j → j ≠ 0 → j < heap1.size →
        heap1.compare (heap1.data (PARENT j)) (heap1.data j) ≤ 0 :=
  min_heapify_restores_subtree
    ({ data := fun i => if i = 0 then 9 else i, elem_size := 4, capacity := 5, size := 3,
       compare := int_diff } : MinHeap Int)
    int_diff_sign 0 (by decide) (by decide) (by decide) (by decide)
    (fun _ => subtree_heap_leaf _ _ (by decide) (by decide))
    (fun _ => subtree_heap_leaf _ _ (by decide) (by decide))

/-- C11, as stated, fails beyond the range of `int` indices: on the heap of size `2^30 + 1`
that holds `-j` in slot `j`, `build_min_heap` starts at index `2^29 - 1`, whose smallest
child is the right one, `2^30`; the recursive `min_heapify` there computes
`RIGHT(2^30) = 2^31 + 2`, which overflows `int`, and the call does not return a heap. -/
theorem build_min_heap_spec_overflow :
    SignOfTotalPreorder (descending_heap 1073741825).compare ∧
    0 ≤ (descending_heap 1073741825).size ∧
    (descending_heap 1073741825).size ≤ (descending_heap 1073741825).capacity ∧
    Int.tdiv (descending_heap 1073741825).size 2 - 1 = 536870911 ∧
    smallest_of (descending_heap 1073741825) 536870911 = RIGHT 536870911 ∧
    INT_MAX < RIGHT (RIGHT 536870911) ∧
    build_min_heap_checked (descending_heap 1073741825) = Except.error Fault.overflow :=
  ⟨int_diff_sign, by decide, le_refl _, by decide, by decide, by decide,
    build_min_heap_checked_error _ _ (by decide) min_heapify_checked_descending_overflow⟩

/-- C11 (amended: bulk build, within the range of `int` indices).  For every heap whose
slots `[0, size)` hold arbitrary elements (`0 <= size <= capacity`,
`2 * size + 2 <= INT_MAX`, heap property not assumed) and every comparator with the sign of
a total preorder, `build_min_heap` is the run of `min_heapify` on the indices
`size/2 - 1, ..., 0` in decreasing order; it returns, without leaving the buffer and
without `int` overflow, and afterwards the heap property holds for every index
`0 < i < size`, `size` is unchanged, and the occupied slots hold a permutation of the
elements they held before. -/
theorem build_min_heap_spec (heap : MinHeap α) (hc : SignOfTotalPreorder heap.compare)
    (h0 : 0 ≤ heap.size) (hcap : heap.size ≤ heap.capacity)
    (hov : 2 * heap.size + 2 ≤ INT_MAX) :
    build_min_heap heap = min_heapify_each heap (build_indices heap.size) ∧
    ∃ (heap1 : MinHeap α) (σ : Equiv.Perm Int), build_min_heap heap = some heap1 ∧
      build_min_heap_checked heap = Except.ok heap1 ∧
      (∀ i : Int, 0 < i → i < heap1.size →
        heap1.compare (heap1.data ((i - 1) / 2)) (heap1.data i) ≤ 0) ∧
      heap1.size = heap.size ∧ heap1.capacity = heap.capacity ∧
      heap1.compare = heap.compare ∧
      (∀ j, heap1.data j = heap.data (σ j)) ∧
      (∀ j, (j < 0 ∨ heap.size ≤ j) → σ j = j) ∧
      contents heap1 = contents heap := by
  have htd : Int.tdiv heap.size 2 = heap.size / 2 := Int.tdiv_eq_ediv h0 (by decide)
  constructor
  · unfold build_min_heap build_indices
    have e : Int.tdiv heap.size 2 - 1 = (((Int.tdiv heap.size 2).toNat : Nat) : Int) - 1 := by
      rw [htd]; omega
    rw [e]
    exact build_loop_eq_each _ heap _ (by rw [htd]; omega)
  · obtain ⟨σ, hσ, hfix, hp⟩ := build_loop_heap (heap.size.toNat + 1) heap
      (Int.tdiv heap.size 2 - 1) hc (by rw [htd]; omega) (by rw [htd]; push_cast; omega)
      (by
        intro k hk hk0
        apply subtree_heap_leaf heap k hk0
        rw [LEFT_eq]
        rw [htd] at hk
        omega)
    exact ⟨_, σ, hσ,
      build_loop_checked_ok _ heap _ _ hcap hov (by rw [htd]; omega) hσ,
      hp, rfl, rfl, rfl, fun j => rfl, hfix, contents_comp_perm heap σ hfix⟩

theorem build_min_heap_spec_witness :
    build_min_heap ({ data := fun j => 9 - j, elem_size := 4, capacity := 8, size := 6,
                      compare := int_diff } : MinHeap Int)
      = min_heapify_each ({ data := fun j => 9 - j, elem_size := 4, capacity := 8, size := 6,
                            compare := int_diff } : MinHeap Int) (build_indices 6) ∧
    ∃ (heap1 : MinHeap Int) (σ : Equiv.Perm Int),
      build_min_heap ({ data := fun j => 9 - j, elem_size := 4, capacity := 8, size := 6,
                        compare := int_diff } : MinHeap Int) = some heap1 ∧
      build_min_heap_checked ({ data := fun j => 9 - j, elem_size := 4, capacity := 8,
                                size := 6, compare := int_diff } : MinHeap Int)
        = Except.ok heap1 ∧
      (∀ i : Int, 0 < i → i < heap1.size →
        heap1.compare (heap1.data ((i - 1) / 2)) (heap1.data i) ≤ 0) ∧
      heap1.size = 6 ∧ heap1.capacity = 8 ∧ heap1.compare = int_diff ∧
      (∀ j, heap1.data j = 9 - σ j) ∧
      (∀ j, (j < 0 ∨ 6 ≤ j) → σ j = j) ∧
      contents heap1 = contents ({ data := fun j => 9 - j, elem_size := 4, capacity := 8,
                                   size := 6, compare := int_diff } : MinHeap Int) :=
  build_min_heap_spec
    ({ data := fun j => 9 - j, elem_size := 4, capacity := 8, size := 6, compare := int_diff } :
      MinHeap Int)
    int_diff_sign (by decide) (by decide) (by decide)

/-- C14, as stated, fails beyond the range of `int` indices: on the heap of size `2^30 + 1`
that holds `j` in slot `j`, at `i = 2^30 - 1` no child exists below `size` (the claim has
the heap left unchanged), but the code computes `right` in `int`: `RIGHT(i) = 2^31`
overflows, the wrapped value `-2^31` passes the test `right < size`, and the call leaves the
defined behaviour. -/
theorem min_heapify_choice_overflow :
    (0 : Int) ≤ 1073741823 ∧ 1073741823 < (ascending_heap 1073741825).size ∧
    ¬ LEFT 1073741823 < (ascending_heap 1073741825).size ∧
    ¬ RIGHT 1073741823 < (ascending_heap 1073741825).size ∧
    smallest_of (ascending_heap 1073741825) 1073741823 = 1073741823 ∧
    wrap32 (RIGHT 1073741823) = -2147483648 ∧
    wrap32 (RIGHT 1073741823) < (ascending_heap 1073741825).size ∧
    min_heapify_checked ((ascending_heap 1073741825).size.toNat + 1)
      (ascending_heap 1073741825) 1073741823 = Except.error Fault.overflow :=
  ⟨by decide, by decide, by decide, by decide,
    smallest_of_eq_self _ _ (fun h => absurd h (by decide)) (fun h => absurd h (by decide)),
    by decide, by decide,
    min_heapify_checked_overflow _ _ _ (Or.inr (by decide))⟩

/-- C14 (amended: choice of the swap index, within the range of `int` indices).  In
`min_heapify(heap, i)` with `0 <= i < size <= capacity` and `2 * size + 2 <= INT_MAX` the
child indices are computed without `int` overflow, and the index `m` chosen for the swap is
`i` unless a child below `size` compares strictly less: `m` is `left(i)` exactly when left
exists, compares strictly below `data[i]` and right does not take over; `m` is `right(i)`
exactly when right exists and compares strictly below the element of the index chosen so
far.  One level of the function swaps `i` with `m` and recurses on `m`, or returns when
`m = i`.  Hence when no existing child is strictly smaller than `data[i]` the heap is
returned unchanged, and when right compares equal to left and both are strictly smaller
than `data[i]` the element at `i` is exchanged with the left child and the right child
keeps its element. -/
theorem min_heapify_choice (heap : MinHeap α) (i : Int) (hi0 : 0 ≤ i) (hi : i < heap.size)
    (hcap : heap.size ≤ heap.capacity) (hov : 2 * heap.size + 2 ≤ INT_MAX) :
    (wrap32 (LEFT i) = LEFT i ∧ wrap32 (RIGHT i) = RIGHT i) ∧
    ((smallest_of heap i = i ↔
        ¬ (LEFT i < heap.size ∧ heap.compare (heap.data (LEFT i)) (heap.data i) < 0) ∧
        ¬ (RIGHT i < heap.size ∧ heap.compare (heap.data (RIGHT i)) (heap.data i) < 0)) ∧
      (smallest_of heap i = LEFT i ↔
        (LEFT i < heap.size ∧ heap.compare (heap.data (LEFT i)) (heap.data i) < 0) ∧
        ¬ (RIGHT i < heap.size ∧
            heap.compare (heap.data (RIGHT i)) (heap.data (LEFT i)) < 0)) ∧
      (smallest_of heap i = RIGHT i ↔
        RIGHT i < heap.size ∧
        (((LEFT i < heap.size ∧ heap.compare (heap.data (LEFT i)) (heap.data i) < 0) ∧
            heap.compare (heap.data (RIGHT i)) (heap.data (LEFT i)) < 0) ∨
         (¬ (LEFT i < heap.size ∧ heap.compare (heap.data (LEFT i)) (heap.data i) < 0) ∧
            heap.compare (heap.data (RIGHT i)) (heap.data i) < 0)))) ∧
    (∀ fuel,
      (min_heapify_fuel (fuel + 1) heap i =
        if smallest_of heap i ≠ i then
          min_heapify_fuel fuel
            { heap with data := swap heap.data i (smallest_of heap i) } (smallest_of heap i)
        else some heap) ∧
      (min_heapify_checked (fuel + 1) heap i =
        if smallest_of heap i ≠ i then
          min_heapify_checked fuel
            { heap with data := swap heap.data i (smallest_of heap i) } (smallest_of heap i)
        else Except.ok heap)) ∧
    ((LEFT i < heap.size → ¬ heap.compare (heap.data (LEFT i)) (heap.data i) < 0) →
      (RIGHT i < heap.size → ¬ heap.compare (heap.data (RIGHT i)) (heap.data i) < 0) →
      min_heapify heap i = some heap ∧
      min_heapify_checked (heap.size.toNat + 1) heap i = Except.ok heap) ∧
    (RIGHT i < heap.size →
      heap.compare (heap.data (RIGHT i)) (heap.data (LEFT i)) = 0 →
      heap.compare (heap.data (LEFT i)) (heap.data i) < 0 →
      heap.compare (heap.data (RIGHT i)) (heap.data i) < 0 →
      smallest_of heap i = LEFT i ∧
      ∃ heap1, min_heapify heap i = some heap1 ∧
        min_heapify_checked (heap.size.toNat + 1) heap i = Except.ok heap1 ∧
        heap1.data i = heap.data (LEFT i) ∧
        heap1.data (RIGHT i) = heap.data (RIGHT i) ∧
        ∃ j, InSubtree (LEFT i) j ∧ heap1.data j = heap.data i) := by
  have hov1 : 2 * heap.size + 2 ≤ 2147483647 := hov
  have hovi : 2 * i + 2 ≤ INT_MAX := by unfold INT_MAX; omega
  refine ⟨⟨?_, ?_⟩, smallest_of_iff heap i hi0,
    fun fuel => ⟨min_heapify_fuel_succ fuel heap i,
      min_heapify_checked_step fuel heap i hcap hovi hi0⟩, ?_, ?_⟩
  · unfold wrap32; rw [LEFT_eq]; omega
  · unfold wrap32; rw [RIGHT_eq]; omega
  · intro hl hr
    have hstop := min_heapify_fuel_stop heap.size.toNat heap i (smallest_of_eq_self heap i hl hr)
    exact ⟨hstop, min_heapify_checked_ok _ heap i _ hcap hov hi0 (le_of_lt hi) hstop⟩
  · intro hrs htie hli _
    have hLR : LEFT i < RIGHT i := by rw [LEFT_eq, RIGHT_eq]; omega
    have hm : smallest_of heap i = LEFT i :=
      (smallest_of_iff heap i hi0).2.1.2
        ⟨⟨by omega, hli⟩, fun h => absurd h.2 (by rw [htie]; exact lt_irrefl 0)⟩
    have hne : smallest_of heap i ≠ i := by rw [hm, LEFT_eq]; omega
    obtain ⟨heap1, h1, h2, h3, h4⟩ := min_heapify_swapped heap i hi0 hne
    rw [hm] at h2 h3 h4
    refine ⟨hm, heap1, h1, min_heapify_checked_ok _ heap i _ hcap hov hi0 (le_of_lt hi) h1,
      h2, h3 _ (fun h => ?_) (by rw [RIGHT_eq]; omega), h4⟩
    exact InSubtree.disjoint hi0 h InSubtree.root

theorem min_heapify_choice_witness :
    ∃ heap1,
      min_heapify ({ data := fun j => if j = 0 then 5 else 2, elem_size := 4, capacity := 4,
                     size := 3, compare := int_diff } : MinHeap Int) 0 = some heap1 ∧
      min_heapify_checked ((3 : Int).toNat + 1)
        ({ data := fun j => if j = 0 then 5 else 2, elem_size := 4, capacity := 4,
           size := 3, compare := int_diff } : MinHeap Int) 0 = Except.ok heap1 ∧
      heap1.data 0 = 2 ∧ heap1.data (RIGHT 0) = 2 ∧
      ∃ j, InSubtree (LEFT 0) j ∧ heap1.data j = 5 :=
  ((min_heapify_choice
    ({ data := fun j => if j = 0 then 5 else 2, elem_size := 4, capacity := 4, size := 3,
       compare := int_diff } : MinHeap Int)
    0 (by decide) (by decide) (by decide) (by decide)).2.2.2.2
      (by decide) (by decide) (by decide) (by decide)).2

/-- C15, as stated, fails beyond the range of `int` indices, even on a small heap: on a
heap of size 6 and `idx = 2^30 - 1` the code computes `RIGHT(idx) = 2^31`, which overflows
`int`; the wrapped value `-2^31` is below `size`, so the test `right < size` passes, and it
is not above `idx`: the call leaves the defined behaviour instead of stopping. -/
theorem min_heapify_terminates_overflow :
    ∃ heap : MinHeap Int, 0 ≤ heap.size ∧ heap.size ≤ heap.capacity ∧
      (0 : Int) ≤ 1073741823 ∧
      wrap32 (RIGHT 1073741823) = -2147483648 ∧ wrap32 (RIGHT 1073741823) < heap.size ∧
      ¬ (1073741823 < wrap32 (RIGHT 1073741823)) ∧
      min_heapify_checked (heap.size.toNat + 1) heap 1073741823
        = Except.error Fault.overflow :=
  ⟨{ data := fun j => 9 - j, elem_size := 4, capacity := 8, size := 6,
     compare := int_diff },
    by decide, by decide, by decide, by decide, by decide, by decide,
    min_heapify_checked_overflow _ _ _ (Or.inr (by decide))⟩

/-- C15 (amended: termination of sift-down, within the range of `int` indices).  For every
heap with `0 <= size <= capacity` and `2 * size + 2 <= INT_MAX` and every index `idx >= 0`
with `2 * idx + 2 <= INT_MAX` the recursion of `min_heapify(heap, idx)` terminates: the
call returns within `size + 1` levels (more fuel gives the same result), without leaving
the buffer and without `int` overflow; the indices of its recursive calls are strictly
increasing from `idx` and all strictly below `size`; the heap returned is the one obtained
by swapping along these indices, and at the last of them no child below `size` compares
strictly smaller; and a call whose index has no child below `size`, or no child that
compares strictly smaller, returns at once without a recursive call. -/
theorem min_heapify_terminates (heap : MinHeap α) (idx : Int) (hsize : 0 ≤ heap.size)
    (hidx : 0 ≤ idx) (hcap : heap.size ≤ heap.capacity)
    (hov : 2 * heap.size + 2 ≤ INT_MAX) (hovi : 2 * idx + 2 ≤ INT_MAX) :
    (∃ heap1, min_heapify heap idx = some heap1 ∧
      min_heapify_checked (heap.size.toNat + 1) heap idx = Except.ok heap1 ∧
      ∀ fuel, heap.size.toNat + 1 ≤ fuel → min_heapify_fuel fuel heap idx = some heap1) ∧
    (∃ calls, min_heapify_calls (heap.size.toNat + 1) heap idx = some calls ∧
      List.Chain (fun a b => a < b) idx calls ∧ (∀ m ∈ calls, m < heap.size) ∧
      min_heapify heap idx = some (swap_path heap idx calls) ∧
      smallest_of (swap_path heap idx calls) (calls.getLastD idx) = calls.getLastD idx) ∧
    (smallest_of heap idx ≠ idx →
      idx < smallest_of heap idx ∧ smallest_of heap idx < heap.size) ∧
    ((heap.size ≤ LEFT idx ∨
        ((LEFT idx < heap.size →
            ¬ heap.compare (heap.data (LEFT idx)) (heap.data idx) < 0) ∧
         (RIGHT idx < heap.size →
            ¬ heap.compare (heap.data (RIGHT idx)) (heap.data idx) < 0))) →
      min_heapify heap idx = some heap ∧
      min_heapify_checked (heap.size.toNat + 1) heap idx = Except.ok heap ∧
      min_heapify_calls (heap.size.toNat + 1) heap idx = some []) := by
  refine ⟨?_, ?_, ?_, ?_⟩
  · obtain ⟨σ, hσ, _⟩ := min_heapify_fuel_perm (heap.size.toNat + 1) heap idx hidx
      (by push_cast; omega) (by omega)
    exact ⟨_, hσ, min_heapify_checked_ok_at _ heap idx _ hcap hov hidx hovi hσ,
      fun fuel hf => min_heapify_fuel_mono _ heap idx _ hσ fuel hf⟩
  · obtain ⟨calls, h1, h2, h3⟩ := min_heapify_calls_chain (heap.size.toNat + 1) heap idx hidx
      (by push_cast; omega) (by omega)
    obtain ⟨h4, h5⟩ := min_heapify_calls_path (heap.size.toNat + 1) heap idx calls h1
    exact ⟨calls, h1, h2, h3, h4, h5⟩
  · intro hne
    obtain ⟨h1, h2, _⟩ := smallest_of_bounds heap idx hidx hne
    exact ⟨h1, h2⟩
  · intro h
    have hm : smallest_of heap idx = idx := by
      rcases h with h | ⟨hl, hr⟩
      · apply smallest_of_eq_self
        · intro hl; omega
        · intro hr; rw [RIGHT_eq] at hr; rw [LEFT_eq] at h; omega
      · exact smallest_of_eq_self heap idx hl hr
    have hstop := min_heapify_fuel_stop heap.size.toNat heap idx hm
    refine ⟨hstop, min_heapify_checked_ok_at _ heap idx _ hcap hov hidx hovi hstop, ?_⟩
    simp only [min_heapify_calls, if_neg (not_not.2 hm)]

theorem min_heapify_terminates_witness :
    (∃ heap1,
      min_heapify ({ data := fun j => 9 - j, elem_size := 4, capacity := 8, size := 6,
                     compare := int_diff } : MinHeap Int) 0 = some heap1 ∧
      min_heapify_checked ((6 : Int).toNat + 1)
        ({ data := fun j => 9 - j, elem_size := 4, capacity := 8, size := 6,
           compare := int_diff } : MinHeap Int) 0 = Except.ok heap1 ∧
      ∀ fuel, (6 : Int).toNat + 1 ≤ fuel →
        min_heapify_fuel fuel ({ data := fun j => 9 - j, elem_size := 4, capacity := 8,
                                 size := 6, compare := int_diff } : MinHeap Int) 0
          = some heap1) ∧
    (∃ calls,
      min_heapify_calls ((6 : Int).toNat + 1)
        ({ data := fun j => 9 - j, elem_size := 4, capacity := 8, size := 6,
           compare := int_diff } : MinHeap Int) 0 = some calls ∧
      List.Chain (fun a b => a < b) 0 calls ∧ (∀ m ∈ calls, m < 6) ∧
      min_heapify ({ data := fun j => 9 - j, elem_size := 4, capacity := 8, size := 6,
                     compare := int_diff } : MinHeap Int) 0
        = some (swap_path ({ data := fun j => 9 - j, elem_size := 4, capacity := 8,
                             size := 6, compare := int_diff } : MinHeap Int) 0 calls) ∧
      smallest_of (swap_path ({ data := fun j => 9 - j, elem_size := 4, capacity := 8,
                                size := 6, compare := int_diff } : MinHeap Int) 0 calls)
        (calls.getLastD 0) = calls.getLastD 0) :=
  ⟨(min_heapify_terminates
      ({ data := fun j => 9 - j, elem_size := 4, capacity := 8, size := 6,
         compare := int_diff } : MinHeap Int) 0 (by decide) (by decide) (by decide)
      (by decide) (by decide)).1,
   (min_heapify_terminates
      ({ data := fun j => 9 - j, elem_size := 4, capacity := 8, size := 6,
         compare := int_diff } : MinHeap Int) 0 (by decide) (by decide) (by decide)
      (by decide) (by decide)).2.1⟩

/-- C16, as stated, fails beyond the range of `int` indices: on the heap of size
`2^30 + 1` (capacity `1.5 * 10^9`) that holds `j` in slot `j`, the call of `pop` does not
return: its sift-down overflows `int` in the right child index at `2^30 - 1`, as does
`min_heapify` called there. -/
theorem multiset_accounting_overflow :
    ∃ heap : MinHeap Int, 0 ≤ heap.size ∧ heap.size ≤ heap.capacity ∧ 0 < heap.size ∧
      pop_checked heap = Except.error Fault.overflow ∧
      min_heapify_checked (heap.size.toNat + 1) heap 1073741823
        = Except.error Fault.overflow :=
  ⟨{ data := fun j => j, elem_size := 4, capacity := 1500000000, size := 1073741825,
     compare := int_diff },
    by decide, by decide, by decide,
    pop_checked_ascending_overflow _ rfl rfl (by decide) (fun _ _ _ => rfl),
    min_heapify_checked_overflow _ _ _ (Or.inr (by decide))⟩

/-- C16 (amended: multiset accounting, within the range of `int` indices).  For every heap
with `0 <= size <= capacity` and every comparator: a successful `insert(x)` makes the
multiset of the elements of the slots `[0, size)` the previous multiset plus one copy of
`x`; when `2 * size + 2 <= INT_MAX`, a successful `pop` makes it the previous multiset
minus one copy of the returned element; and the sift-down (from an index `idx` with
`2 * idx + 2 <= INT_MAX`, when `2 * size + 2 <= INT_MAX`), as the sift-up loop, keeps the
multiset, so no element is lost or duplicated.  In each of these cases the call returns
without leaving the buffer and without `int` overflow. -/
theorem multiset_accounting [DecidableEq α] (heap : MinHeap α) (x : α)
    (h0 : 0 ≤ heap.size) (hcap : heap.size ≤ heap.capacity) :
    (heap.size < heap.capacity →
      ∃ heap1, insert heap x = some (heap1, false) ∧
        insert_checked heap x = Except.ok (heap1, false) ∧
        contents heap1 = x ::ₘ contents heap) ∧
    (0 < heap.size → 2 * heap.size + 2 ≤ INT_MAX →
      ∃ r heap1, pop heap = some (some r, heap1) ∧
        pop_checked heap = Except.ok (some r, heap1) ∧
        contents heap = r ::ₘ contents heap1 ∧
        contents heap1 = (contents heap).erase r) ∧
    (∀ idx, 0 ≤ idx → 2 * idx + 2 ≤ INT_MAX → 2 * heap.size + 2 ≤ INT_MAX →
      ∃ heap1, min_heapify heap idx = some heap1 ∧
        min_heapify_checked (heap.size.toNat + 1) heap idx = Except.ok heap1 ∧
        contents heap1 = contents heap) ∧
    (∀ i, i < heap.size →
      ∃ heap1, insert_loop (i.toNat + 1) heap i = some heap1 ∧
        insert_loop_checked (i.toNat + 1) heap i = Except.ok heap1 ∧
        contents heap1 = contents heap) := by
  refine ⟨?_, ?_, ?_, ?_⟩
  · intro hlt
    obtain ⟨heap1, h1, h2⟩ := insert_contents heap x h0 hlt
    obtain ⟨r, hr, hrc⟩ := insert_checked_ok heap x h0
    rw [h1] at hr
    rw [← Option.some.inj hr] at hrc
    exact ⟨heap1, h1, hrc, h2⟩
  · intro hpos hov
    obtain ⟨heap1, h1, h2⟩ := pop_contents heap hpos
    obtain ⟨r, hr, hrc⟩ := pop_checked_ok heap h0 hcap hov
    rw [h1] at hr
    rw [← Option.some.inj hr] at hrc
    exact ⟨_, heap1, h1, hrc, h2, by rw [h2, Multiset.erase_cons_head]⟩
  · intro idx hidx hovi hov
    obtain ⟨σ, hσ, hfix⟩ := min_heapify_fuel_perm (heap.size.toNat + 1) heap idx hidx
      (by push_cast; omega) (by omega)
    refine ⟨_, hσ, min_heapify_checked_ok_at _ heap idx _ hcap hov hidx hovi hσ,
      contents_comp_perm heap σ (fun j hj => hfix j (fun h => ?_))⟩
    have := h.1.le hidx
    omega
  · intro i hi
    obtain ⟨σ, hσ, hfix⟩ := insert_loop_perm (i.toNat + 1) heap i (by push_cast; omega)
      (by omega)
    exact ⟨_, hσ, insert_loop_checked_ok _ heap i _ hcap hi hσ,
      contents_comp_perm heap σ (fun j hj => hfix j (by omega))⟩

theorem multiset_accounting_witness :
    ((2 : Int) < 5 →
      ∃ heap1, insert ({ data := fun i => i, elem_size := 4, capacity := 5, size := 2,
                         compare := int_diff } : MinHeap Int) (-7) = some (heap1, false) ∧
        insert_checked ({ data := fun i => i, elem_size := 4, capacity := 5, size := 2,
                          compare := int_diff } : MinHeap Int) (-7)
          = Except.ok (heap1, false) ∧
        contents heap1 = (-7) ::ₘ
          contents ({ data := fun i => i, elem_size := 4, capacity := 5, size := 2,
                      compare := int_diff } : MinHeap Int)) ∧
    ((0 : Int) < 2 → 2 * (2 : Int) + 2 ≤ INT_MAX →
      ∃ r heap1, pop ({ data := fun i => i, elem_size := 4, capacity := 5, size := 2,
                        compare := int_diff } : MinHeap Int) = some (some r, heap1) ∧
        pop_checked ({ data := fun i => i, elem_size := 4, capacity := 5, size := 2,
                       compare := int_diff } : MinHeap Int) = Except.ok (some r, heap1) ∧
        contents ({ data := fun i => i, elem_size := 4, capacity := 5, size := 2,
                    compare := int_diff } : MinHeap Int) = r ::ₘ contents heap1 ∧
        contents heap1 =
          Multiset.erase
            (contents ({ data := fun i => i, elem_size := 4, capacity := 5, size := 2,
                         compare := int_diff } : MinHeap Int)) r) :=
  ⟨(multiset_accounting
      ({ data := fun i => i, elem_size := 4, capacity := 5, size := 2, compare := int_diff } :
        MinHeap Int) (-7) (by decide) (by decide)).1,
   (multiset_accounting
      ({ data := fun i => i, elem_size := 4, capacity := 5, size := 2, compare := int_diff } :
        MinHeap Int) (-7) (by decide) (by decide)).2.1⟩

/-- C19, as stated, fails beyond the range of `int` indices: on a heap of size `2^30`
(capacity `2 * 10^9`) the index `idx = 2^30 - 1` is below `size`, and `min_heapify(heap,
idx)` computes `RIGHT(idx) = 2^31`, which overflows `int` (it wraps to `-2^31`, an index
that passes the test `right < size`): the call leaves the defined behaviour. -/
theorem min_heapify_frame_overflow :
    ∃ heap : MinHeap Int, (0 : Int) ≤ 1073741823 ∧ 1073741823 < heap.size ∧
      heap.size ≤ heap.capacity ∧ heap.capacity ≤ INT_MAX ∧
      wrap32 (RIGHT 1073741823) = -2147483648 ∧ wrap32 (RIGHT 1073741823) < heap.size ∧
      min_heapify_checked (heap.size.toNat + 1) heap 1073741823
        = Except.error Fault.overflow :=
  ⟨{ data := fun _ => 0, elem_size := 4, capacity := 2000000000, size := 1073741824,
     compare := int_diff },
    by decide, by decide, by decide, by decide, by decide, by decide,
    min_heapify_checked_overflow _ _ _ (Or.inr (by decide))⟩

/-- C19 (amended: frame of sift-down, within the range of `int` indices).  For every heap
with `size <= capacity` and `2 * size + 2 <= INT_MAX` and every index `idx` with
`0 <= idx < size`, `min_heapify(heap, idx)` returns, without leaving the buffer and without
`int` overflow, a heap with the same `size`, `capacity` and comparator; every slot that is
not in the subtree rooted at `idx` keeps its element; and the new buffer is the old one read
through a permutation of the slots that moves only occupied slots of that subtree, so the
elements of the subtree after the call are those before the call, rearranged. -/
theorem min_heapify_frame (heap : MinHeap α) (idx : Int) (hidx : 0 ≤ idx)
    (hs : idx < heap.size) (hcap : heap.size ≤ heap.capacity)
    (hov : 2 * heap.size + 2 ≤ INT_MAX) :
    ∃ (heap1 : MinHeap α) (σ : Equiv.Perm Int), min_heapify heap idx = some heap1 ∧
      min_heapify_checked (heap.size.toNat + 1) heap idx = Except.ok heap1 ∧
      heap1.size = heap.size ∧ heap1.capacity = heap.capacity ∧
      heap1.compare = heap.compare ∧
      (∀ j, ¬ InSubtree idx j → heap1.data j = heap.data j) ∧
      (∀ j, heap1.data j = heap.data (σ j)) ∧
      (∀ j, ¬ (InSubtree idx j ∧ j < heap.size) → σ j = j) ∧
      (∀ j, InSubtree idx j → j < heap.size → InSubtree idx (σ j) ∧ σ j < heap.size) := by
  obtain ⟨σ, hσ, hfix⟩ := min_heapify_fuel_perm (heap.size.toNat + 1) heap idx hidx
    (by push_cast; omega) (by omega)
  refine ⟨_, σ, hσ, min_heapify_checked_ok _ heap idx _ hcap hov hidx (le_of_lt hs) hσ,
    rfl, rfl, rfl, ?_, fun j => rfl, hfix, ?_⟩
  · intro j hj
    show heap.data (σ j) = heap.data j
    rw [hfix j (fun h => hj h.1)]
  · intro j hj hjs
    exact perm_maps_in σ (fun k => InSubtree idx k ∧ k < heap.size) hfix ⟨hj, hjs⟩

theorem min_heapify_frame_witness :
    ∃ (heap1 : MinHeap Int) (σ : Equiv.Perm Int),
      min_heapify ({ data := fun j => 9 - j, elem_size := 4, capacity := 8, size := 6,
                     compare := int_diff } : MinHeap Int) 1 = some heap1 ∧
      min_heapify_checked ((6 : Int).toNat + 1)
        ({ data := fun j => 9 - j, elem_size := 4, capacity := 8, size := 6,
           compare := int_diff } : MinHeap Int) 1 = Except.ok heap1 ∧
      heap1.size = 6 ∧ heap1.capacity = 8 ∧ heap1.compare = int_diff ∧
      (∀ j, ¬ InSubtree 1 j → heap1.data j = 9 - j) ∧
      (∀ j, heap1.data j = 9 - σ j) ∧
      (∀ j, ¬ (InSubtree 1 j ∧ j < 6) → σ j = j) ∧
      (∀ j, InSubtree 1 j → j < 6 → InSubtree 1 (σ j) ∧ σ j < 6) :=
  min_heapify_frame
    ({ data := fun j => 9 - j, elem_size := 4, capacity := 8, size := 6, compare := int_diff } :
      MinHeap Int)
    1 (by decide) (by decide) (by decide) (by decide)

end Claims3

end MinHeapC
